import Mathlib

/-!
# Sorting and merging of alignment records (`bam_sort.c`)

A shallow embedding of the comparators, the heap merge, the run generator, the header
reconciliation, the read-group names and the `merge` command of `bam_sort.c`, followed by
the properties proved about them.

Conventions of the embedding:

* a `char*` is the list of characters it still points at; reading past the end gives NUL;
* machine integers are `Nat`/`Int` with the wrap-around written out;
* the session globals `g_is_by_qname` and `g_ignore_warts` are explicit parameters;
* a function that can dereference a null pointer or leave its array returns a status
  next to the records it had emitted up to that point.
-/

set_option autoImplicit false

namespace BamSort

/-! ## C strings and `strnum_cmp` -/

/-- The character under a `char*`: the head of the remaining text, NUL at its end. Query
names are ASCII (section 3 of the specification), so a character is its code. -/
def deref (p : List Char) : Nat :=
  match p with
  | [] => 0
  | c :: _ => c.toNat

/-- The `isdigit` test of `ctype.h` on a character code (C locale): `'0'..'9'`. -/
def isdigit (c : Nat) : Bool := decide (48 ≤ c) && decide (c ≤ 57)

/-- Largest value of `long` (LP64). -/
def LONG_MAX : Nat := 2 ^ 63 - 1

/-- Digit loop of `strtol(p, &p, 10)`: accumulates the maximal run of decimal digits
and returns the exact value with the text after the run. -/
def strtol_digits : List Char → Nat → Nat × List Char
  | [], acc => (acc, [])
  | c :: rest, acc =>
    if isdigit c.toNat then strtol_digits rest (10 * acc + (c.toNat - 48))
    else (acc, c :: rest)

/-- The call `strtol(p, &p, 10)` at a text that starts with a digit: the value of the
maximal digit run, clamped to `LONG_MAX` as the library does on overflow, and the
position after the run. -/
def strtol (p : List Char) : Nat × List Char :=
  ((strtol_digits p 0).1 ⊓ LONG_MAX, (strtol_digits p 0).2)

/-- The C idiom `x < y ? -1 : x > y ? 1 : 0`. -/
def sgn3 (x y : Nat) : Int := if x < y then -1 else if x > y then 1 else 0

/-- The wart loop `while ((a[0]=='M' || a[0]=='F' || a[0]=='R' || a[0]=='C') && a[1]=='_') a += 2`. -/
def skip_warts : List Char → List Char
  | c :: d :: rest =>
    if (c = 'M' ∨ c = 'F' ∨ c = 'R' ∨ c = 'C') ∧ d = '_' then skip_warts rest
    else c :: d :: rest
  | p => p

/-- The comparison loop of `strnum_cmp` and the two `return`s after it. `na` and `nb` are
the lengths of the texts at `a` and `b`, so that `pa - a` is `na - pa.length`. Every turn
of the loop advances both pointers, the first argument bounds the number of turns. -/
def strnum_loop (na nb : Nat) : Nat → List Char → List Char → Int
  | 0, _, _ => 0
  | fuel + 1, pa, pb =>
    if deref pa ≠ 0 ∧ deref pb ≠ 0 then
      if isdigit (deref pa) = true ∧ isdigit (deref pb) = true then
        if (strtol pa).1 ≠ (strtol pb).1 then sgn3 (strtol pa).1 (strtol pb).1
        else strnum_loop na nb fuel (strtol pa).2 (strtol pb).2
      else if deref pa ≠ deref pb then sgn3 (deref pa) (deref pb)
      else strnum_loop na nb fuel pa.tail pb.tail
    else if deref pa = deref pb then sgn3 (na - pa.length) (nb - pb.length)
    else sgn3 (deref pa) (deref pb)

/-- The body of `strnum_cmp` after the wart loops, on the texts `a` and `b`. -/
def strnum_cmp_from (a b : List Char) : Int :=
  strnum_loop a.length b.length (a.length + 1) a b

/-- The function `strnum_cmp`; `ignore_warts` is the global `g_ignore_warts`. -/
def strnum_cmp (ignore_warts : Bool) (a b : List Char) : Int :=
  if ignore_warts then strnum_cmp_from (skip_warts a) (skip_warts b)
  else strnum_cmp_from a b

/-! ## Records -/

/-- The fields of `bam1_core_t` that the comparators read. -/
structure bam1_core_t where
  tid : Int
  pos : Int
  flag : Nat
  deriving DecidableEq, Repr

/-- A record as the codec delivers it: the core, the query name that starts the payload
(`bam1_qname`), and the rest of the payload, which the sort never looks into. -/
structure bam1_t where
  core : bam1_core_t
  qname : List Char
  aux : List Nat
  deriving DecidableEq, Repr

/-- Modelled from the spec: the flag bit `PAIRED` of `bam.h` (SAM value 0x1); the header
is not among the sources. -/
def BAM_FPAIRED : Nat := 1

/-- Modelled from the spec: the flag bit `REVERSE` (strand) of `bam.h` (SAM value 0x10). -/
def BAM_FREVERSE : Nat := 16

/-- Modelled from the spec: the flag bit `READ1` of `bam.h` (0x40). -/
def BAM_FREAD1 : Nat := 64

/-- Modelled from the spec: the flag bit `READ2` of `bam.h` (0x80). -/
def BAM_FREAD2 : Nat := 128

/-- Modelled from the spec: the per-record overhead constant `BAM_CORE_SIZE` of `bam.h`,
the 32 bytes of the fixed core. -/
def BAM_CORE_SIZE : Nat := 32

/-- Modelled from the spec: the macro `bam1_strand` of `bam.h`, the strand bit as 0 or 1. -/
def bam1_strand (b : bam1_t) : Nat := if b.core.flag &&& BAM_FREVERSE ≠ 0 then 1 else 0

/-- Conversion of a signed value to `uint64_t`. -/
def u64 (x : Int) : Nat := (x % 2 ^ 64).toNat

/-- Conversion of a signed value to `uint32_t`. -/
def u32 (x : Int) : Nat := (x % 2 ^ 32).toNat

/-- The value of an `int32_t` computation, wrapped into the 32-bit signed range. -/
def i32 (x : Int) : Int := (x + 2 ^ 31) % 2 ^ 32 - 2 ^ 31

/-- The key of `bam1_lt` in positional mode: `(uint64_t)tid<<32 | (pos+1)`. -/
def sort_key (b : bam1_t) : Nat :=
  ((u64 b.core.tid <<< 32) % 2 ^ 64) ||| u64 (i32 (b.core.pos + 1))

/-- The function `bam1_lt`; `by_qname` is the global `g_is_by_qname`. -/
def bam1_lt (ignore_warts by_qname : Bool) (a b : bam1_t) : Bool :=
  if by_qname then
    let t := strnum_cmp ignore_warts a.qname b.qname
    if t > 0 then false
    else if t < 0 then true
    else if a.core.flag &&& BAM_FPAIRED < b.core.flag &&& BAM_FPAIRED then false
    else if a.core.flag &&& BAM_FPAIRED > b.core.flag &&& BAM_FPAIRED then true
    else decide (a.core.flag &&& (BAM_FREAD1 ||| BAM_FREAD2)
                  < b.core.flag &&& (BAM_FREAD1 ||| BAM_FREAD2))
  else decide (sort_key a < sort_key b)

/-! ## Heap cursors -/

/-- The sentinel `HEAP_EMPTY`. -/
def HEAP_EMPTY : Nat := 0xffffffffffffffff

/-- What the field `b` of a cursor can be: the null pointer, the `calloc`ed `bam1_t` that
no read has filled yet (its `data` is still null), or a buffer holding a record. -/
inductive bam1_buf where
  | null
  | zeroed
  | holds (r : bam1_t)
  deriving DecidableEq, Repr

/-- The struct `heap1_t`. -/
structure heap1_t where
  i : Nat
  pos : Nat
  idx : Nat
  b : bam1_buf
  deriving DecidableEq, Repr

/-- The key stored in a cursor:
`((uint64_t)tid<<32) | (uint32_t)((int32_t)pos+1)<<1 | bam1_strand(b)`. -/
def composite_key (b : bam1_t) : Nat :=
  ((u64 b.core.tid <<< 32) % 2 ^ 64) ||| ((u32 (i32 (b.core.pos + 1)) <<< 1) % 2 ^ 32)
    ||| bam1_strand b

/-- The macro `__pos_cmp`. -/
def __pos_cmp (a b : heap1_t) : Bool :=
  decide (a.pos > b.pos) ||
    (decide (a.pos = b.pos) && (decide (a.i > b.i) || (decide (a.i = b.i) && decide (a.idx > b.idx))))

/-- The function `heap_lt`. It has no value (`none`) where the C code reads the query name
of a buffer whose `data` is null. -/
def heap_lt (ignore_warts by_qname : Bool) (a b : heap1_t) : Option Bool :=
  if by_qname then
    match a.b, b.b with
    | bam1_buf.null, _ => some true
    | _, bam1_buf.null => some false
    | bam1_buf.holds ra, bam1_buf.holds rb =>
      let t := strnum_cmp ignore_warts ra.qname rb.qname
      if t > 0 then some true
      else if t < 0 then some false
      else if ra.core.flag &&& BAM_FPAIRED < rb.core.flag &&& BAM_FPAIRED then some true
      else if ra.core.flag &&& BAM_FPAIRED > rb.core.flag &&& BAM_FPAIRED then some false
      else some (decide (ra.core.flag &&& (BAM_FREAD1 ||| BAM_FREAD2)
                          > rb.core.flag &&& (BAM_FREAD1 ||| BAM_FREAD2)))
    | _, _ => none
  else some (__pos_cmp a b)

/-! ## The heap of `ksort.h` -/

/-- Modelled from the spec: the statement `if (k != n - 1 && __sort_lt(l[k], l[k+1])) ++k;`
of `ks_heapadjust`, which picks the child of a node that the heap puts nearer the root.
`KSORT_INIT` comes from `ksort.h`, which is not among the sources. -/
def ks_heap_child {α : Type} (lt : α → α → Option Bool) (n : Nat) (l : List α) (k : Nat) :
    Option Nat :=
  if k ≠ n - 1 then
    match l[k]?, l[k + 1]? with
    | some x, some y =>
      match lt x y with
      | some c => some (if c then k + 1 else k)
      | none => none
    | _, _ => none
  else some k

/-- Modelled from the spec: the sift-down loop of `ks_heapadjust`,
`while ((k = (k << 1) + 1) < n) { pick the child; if (__sort_lt(l[k], tmp)) break;
l[i] = l[k]; i = k; } l[i] = tmp;`. The first argument bounds the number of turns. -/
def ks_heapadjust_loop {α : Type} (lt : α → α → Option Bool) (n : Nat) (tmp : α) :
    Nat → Nat → List α → Option (List α)
  | 0, _, _ => none
  | fuel + 1, i, l =>
    if 2 * i + 1 < n then
      match ks_heap_child lt n l (2 * i + 1) with
      | none => none
      | some k =>
        match l[k]? with
        | none => none
        | some x =>
          match lt x tmp with
          | none => none
          | some true => some (l.set i tmp)
          | some false => ks_heapadjust_loop lt n tmp fuel k (l.set i x)
    else some (l.set i tmp)

/-- Modelled from the spec: `ks_heapadjust(i, n, l)` of `ksort.h`, the sift-down of the
element at `i` in a binary heap whose root is the greatest element under `__sort_lt`. -/
def ks_heapadjust {α : Type} (lt : α → α → Option Bool) (i n : Nat) (l : List α) :
    Option (List α) :=
  match l[i]? with
  | none => none
  | some tmp => ks_heapadjust_loop lt n tmp n i l

/-- Modelled from the spec: the loop of `ks_heapmake`,
`for (i = (lsize >> 1) - 1; i != (size_t)(-1); --i) ks_heapadjust(i, lsize, l);`,
with the first argument counting the nodes `i` still to do. -/
def ks_heapmake_loop {α : Type} (lt : α → α → Option Bool) (lsize : Nat) :
    Nat → List α → Option (List α)
  | 0, l => some l
  | c + 1, l =>
    match ks_heapadjust lt c lsize l with
    | none => none
    | some l1 => ks_heapmake_loop lt lsize c l1

/-- Modelled from the spec: `ks_heapmake(lsize, l)` of `ksort.h` (heapify). -/
def ks_heapmake {α : Type} (lt : α → α → Option Bool) (lsize : Nat) (l : List α) :
    Option (List α) :=
  ks_heapmake_loop lt lsize (lsize / 2) l

/-! ## The merge loop of `bam_merge_core_ext` -/

/-- What one call of `bam_iter_read` without a region can deliver: a record (result `>= 0`)
or a truncated record (a negative result other than `-1`, the buffer is left as it was).
The end of the list of events is the clean end of the file (result `-1`). -/
inductive read_t where
  | ok (r : bam1_t)
  | trunc
  deriving DecidableEq, Repr

/-- How a run of the program ended: it returned a value, it dereferenced a null pointer or
left an array, or the bound on the number of loop turns of the embedding was hit. -/
inductive exit_t where
  | returned (r : Int)
  | fault
  | unfinished
  deriving DecidableEq, Repr

/-- The records passed to `bam_put_rec`, in order, and how the run ended. -/
structure run_t where
  out : List bam1_t
  exit : exit_t
  deriving DecidableEq, Repr

/-- The variables of the merge: the heap, the inputs `fp[i]` (what is left to read of
each), the arrival counter `idx`, and the records emitted so far. -/
structure merge_state where
  heap : List heap1_t
  fp : List (List read_t)
  idx : Nat
  out : List bam1_t

/-- The initial fill (the `for` loop before `ks_heapmake`), from input `i` on: every cursor
gets a fresh zeroed buffer and one read. -/
def prime_cursors : List (List read_t) → Nat → Nat → List heap1_t × List (List read_t) × Nat
  | [], _, idx => ([], [], idx)
  | s :: rest, i, idx =>
    match s with
    | read_t.ok r :: s1 =>
      let p := prime_cursors rest (i + 1) ((idx + 1) % 2 ^ 64)
      ({ i := i, pos := composite_key r, idx := idx, b := bam1_buf.holds r } :: p.1,
        s1 :: p.2.1, p.2.2)
    | read_t.trunc :: s1 =>
      let p := prime_cursors rest (i + 1) idx
      ({ i := i, pos := HEAP_EMPTY, idx := 0, b := bam1_buf.zeroed } :: p.1, s1 :: p.2.1, p.2.2)
    | [] =>
      let p := prime_cursors rest (i + 1) idx
      ({ i := i, pos := HEAP_EMPTY, idx := 0, b := bam1_buf.zeroed } :: p.1, [] :: p.2.1, p.2.2)

/-- The refill of the root after its record was written: the three branches on the
result `j` of `bam_iter_read`. Gives the new root, the rest of its input and `idx`. -/
def refill (h : heap1_t) (idx : Nat) : List read_t → heap1_t × List read_t × Nat
  | read_t.ok r :: s1 =>
    ({ h with pos := composite_key r, idx := idx, b := bam1_buf.holds r }, s1, (idx + 1) % 2 ^ 64)
  | [] => ({ h with pos := HEAP_EMPTY, b := bam1_buf.null }, [], idx)
  | read_t.trunc :: s1 => (h, s1, idx)

/-- The loop `while (heap->pos != HEAP_EMPTY) { ... }` with `flag & MERGE_RG` clear. The
first argument bounds the number of turns. -/
def merge_loop (ignore_warts by_qname : Bool) (n : Nat) : Nat → merge_state → run_t
  | 0, s => ⟨s.out, exit_t.unfinished⟩
  | fuel + 1, s =>
    match s.heap with
    | [] => ⟨s.out, exit_t.fault⟩
    | h :: _ =>
      if h.pos = HEAP_EMPTY then ⟨s.out, exit_t.returned 0⟩
      else
        match h.b, s.fp[h.i]? with
        | bam1_buf.holds r, some inp =>
          match ks_heapadjust (heap_lt ignore_warts by_qname) 0 n
              (s.heap.set 0 (refill h s.idx inp).1) with
          | none => ⟨s.out ++ [r], exit_t.fault⟩
          | some heap1 =>
            merge_loop ignore_warts by_qname n fuel
              ⟨heap1, s.fp.set h.i (refill h s.idx inp).2.1, (refill h s.idx inp).2.2,
                s.out ++ [r]⟩
        | _, _ => ⟨s.out, exit_t.fault⟩

/-- The record path of `bam_merge_core_ext` for `headers == NULL`, `reg == NULL`, no
`MERGE_RG` and inputs that open and agree on their reference dictionary: initial fill,
`ks_heapmake`, the emission loop, `return 0`. `inputs` lists, for each file, what its
successive reads deliver. -/
def bam_merge_core_ext (ignore_warts by_qname : Bool) (inputs : List (List read_t)) : run_t :=
  match ks_heapmake (heap_lt ignore_warts by_qname) inputs.length
      (prime_cursors inputs 0 0).1 with
  | none => ⟨[], exit_t.fault⟩
  | some heap =>
    merge_loop ignore_warts by_qname inputs.length ((inputs.map List.length).sum + inputs.length + 1)
      ⟨heap, (prime_cursors inputs 0 0).2.1, (prime_cursors inputs 0 0).2.2, []⟩

/-- An input file that holds the given records and ends cleanly. -/
def clean (rs : List bam1_t) : List read_t := rs.map read_t.ok

/-! ## The run generator and the sort driver -/

/-- Modelled from the spec: the merge of two neighbouring runs `xs` (left) and `ys` (right) in
`ks_mergesort` of `ksort.h`:
`while (j < ea && k < eb) { if (__sort_lt(*k, *j)) *p++ = *k++; else *p++ = *j++; }`
and then the two copy loops; on a tie the element of the left run goes first. The first
argument bounds the number of turns. -/
def ks_merge {α : Type} (lt : α → α → Bool) : Nat → List α → List α → List α
  | 0, xs, ys => xs ++ ys
  | _ + 1, [], ys => ys
  | _ + 1, x :: xs, [] => x :: xs
  | fuel + 1, x :: xs, y :: ys =>
    if lt y x then y :: ks_merge lt fuel (x :: xs) ys else x :: ks_merge lt fuel xs (y :: ys)

/-- Modelled from the spec: one pass of `ks_mergesort` of `ksort.h`, merging neighbouring
runs two by two. -/
def ks_merge_pass {α : Type} (lt : α → α → Bool) : List (List α) → List (List α)
  | a :: b :: rest => ks_merge lt (a.length + b.length) a b :: ks_merge_pass lt rest
  | runs => runs

/-- Modelled from the spec: the passes of `ks_mergesort`, repeated until one run is left. -/
def ks_merge_passes {α : Type} (lt : α → α → Bool) : Nat → List (List α) → List (List α)
  | 0, runs => runs
  | fuel + 1, runs =>
    if runs.length ≤ 1 then runs else ks_merge_passes lt fuel (ks_merge_pass lt runs)

/-- Modelled from the spec: `ks_mergesort` of `ksort.h`, the stable bottom-up merge sort
of section 4.3, step 3. -/
def ks_mergesort {α : Type} (lt : α → α → Bool) (l : List α) : List α :=
  (ks_merge_passes lt l.length (l.map fun x => [x])).flatten

/-- The reading loop of `bam_sort_core_ext`. `input` lists the records that `bam_read1`
delivers with the byte count it returns for each; `buf` holds the `k` records of the
current run and `runs` the temporary files written so far. `none` when `buf[k]` is outside
the `max_mem / BAM_CORE_SIZE` slots of the array. -/
def run_loop (lt : bam1_t → bam1_t → Bool) (max_mem : Nat) :
    List (bam1_t × Nat) → Nat → List bam1_t → List (List bam1_t) →
      Option (List (List bam1_t) × List bam1_t)
  | [], _, buf, runs =>
    if buf.length < max_mem / BAM_CORE_SIZE then some (runs, buf) else none
  | (b, ret) :: rest, mem, buf, runs =>
    if buf.length < max_mem / BAM_CORE_SIZE then
      if (mem + ret) % 2 ^ 64 ≥ max_mem then
        run_loop lt max_mem rest 0 [] (runs ++ [ks_mergesort lt (buf ++ [b])])
      else run_loop lt max_mem rest ((mem + ret) % 2 ^ 64) (buf ++ [b]) runs
    else none

/-- The function `bam_sort_core_ext` on an input that opens: the records written to the
final output. With one run the buffer is sorted and written directly, otherwise the last
run is written as well and the runs are merged by `bam_merge_core`. -/
def bam_sort_core_ext (ignore_warts by_qname : Bool) (max_mem : Nat)
    (input : List (bam1_t × Nat)) : run_t :=
  match run_loop (bam1_lt ignore_warts by_qname) max_mem input 0 [] [] with
  | none => ⟨[], exit_t.fault⟩
  | some (runs, buf) =>
    if runs = [] then ⟨ks_mergesort (bam1_lt ignore_warts by_qname) buf, exit_t.returned 0⟩
    else
      bam_merge_core_ext ignore_warts by_qname
        ((runs ++ [ks_mergesort (bam1_lt ignore_warts by_qname) buf]).map clean)

/-! ## The `merge` command -/

/-- What a call of `bam_merge` meets: the variant, the number of input names left after
the options (`argc - optind`), the options `-f`, `-o`, `-c`, `-x`, `-i`, the state of the
file system, and the value that the merge core returns when it is run. For `-c`, `-x` and
`-i` the field is `none` when the option is absent (for `-i` also when `fpout.ia.idx` is
null) and otherwise tells whether the file could be opened for writing. -/
structure merge_call where
  vanilla : Bool
  n_args : Nat
  force : Bool
  oname_is_stdout : Bool
  oname_exists : Bool
  sink_created : Bool
  core : Int
  cstat : Option Bool
  xstat : Option Bool
  index : Option Bool

/-- The function `bam_merge`: the value it returns, or the exit status where
`bam_sink_init_file` ends the process. -/
def bam_merge (c : merge_call) : Int :=
  if c.n_args = 0 then 1
  else if c.vanilla then
    if !c.sink_created then 1
    else if c.core < 0 then 1 else 0
  else if !c.force && !c.oname_is_stdout && c.oname_exists then 1
  else if !c.sink_created then 1
  else if c.cstat = some false then 1
  else if c.xstat = some false then 1
  else if c.index = some false then 1
  else if c.core < 1 then 1 else 0

/-! ## Keys, orders and invariants used to state and prove the properties -/

/-- The place of a non-digit character among the tokens of a name: below every number when
it is below `'0'`, above every number otherwise. -/
def tok_char (c : Nat) : Nat := if c < 48 then c else c + LONG_MAX + 48

/-- The tokens of a name: one per character, except that a maximal digit run is one token
that carries its (clamped) value. `strnum_cmp` compares names token by token. -/
def toks : Nat → List Char → List Nat
  | 0, _ => []
  | fuel + 1, p =>
    if deref p = 0 then []
    else if isdigit (deref p) = true then (48 + (strtol p).1) :: toks fuel (strtol p).2
    else tok_char (deref p) :: toks fuel p.tail

/-- The length of what is left of a name where its tokens end (at the NUL). -/
def tail_at : Nat → List Char → Nat
  | 0, p => p.length
  | fuel + 1, p =>
    if deref p = 0 then p.length
    else if isdigit (deref p) = true then tail_at fuel (strtol p).2
    else tail_at fuel p.tail

/-- The tokens of a whole name. -/
def name_toks (p : List Char) : List Nat := toks (p.length + 1) p

/-- What is left of a whole name after its tokens. -/
def name_tail (p : List Char) : Nat := tail_at (p.length + 1) p

/-- The key that `strnum_cmp` orders names by: the tokens, then the length of the name. -/
def name_key_from (a : List Char) : List ℕ ×ₗ ℕ :=
  toLex (name_toks a, a.length - name_tail a)

/-- The name key with the wart loop applied when `g_ignore_warts` is set. -/
def name_key (ignore_warts : Bool) (a : List Char) : List ℕ ×ₗ ℕ :=
  if ignore_warts then name_key_from (skip_warts a) else name_key_from a

/-- Three-way comparison in a linear order, with the results `-1`, `0`, `1` of the C code. -/
def cmp3 {κ : Type} [LinearOrder κ] (x y : κ) : Int :=
  if x < y then -1 else if y < x then 1 else 0

/-- Node `c` is a child of node `j` in the implicit binary tree of the heap array. -/
def is_child (j c : Nat) : Prop := c = 2 * j + 1 ∨ c = 2 * j + 2

/-- The heap property from node `s` on: every node `j >= s` has a priority key that is at
most the key of each of its children. -/
def heap_from {α κ : Type} [LinearOrder κ] (prio : α → κ) (l : List α) (s : Nat) : Prop :=
  ∀ j c x y, s ≤ j → is_child j c → l[j]? = some x → l[c]? = some y → prio x ≤ prio y

/-- The comparator `lt` orders by the priority key `prio`, smaller keys nearer the root:
where it answers, `lt x y` implies `prio y <= prio x` and its negation `prio x <= prio y`. -/
def lt_agrees {α κ : Type} [LinearOrder κ] (lt : α → α → Option Bool) (prio : α → κ) : Prop :=
  ∀ x y c, lt x y = some c → (c = true → prio y ≤ prio x) ∧ (c = false → prio x ≤ prio y)

/-- The key that `bam1_lt` orders records by in query-name mode: the name key, then the
`PAIRED` bit (set first), then the `READ1|READ2` bits. -/
def rec_key (w : Bool) (r : bam1_t) : (List ℕ ×ₗ ℕ) ×ₗ (ℕ ×ₗ ℕ) :=
  toLex (name_key w r.qname,
    toLex (1 - (r.core.flag &&& BAM_FPAIRED), r.core.flag &&& (BAM_FREAD1 ||| BAM_FREAD2)))

/-- The priority key of a cursor in positional mode: `(pos, i, idx)`, as in `__pos_cmp`. -/
def pos_prio (x : heap1_t) : ℕ ×ₗ (ℕ ×ₗ ℕ) := toLex (x.pos, toLex (x.i, x.idx))

/-- The priority key of a cursor in query-name mode: the key of its record, and above all
of them a cursor without a record. -/
def qname_prio (w : Bool) (x : heap1_t) : WithTop ((List ℕ ×ₗ ℕ) ×ₗ (ℕ ×ₗ ℕ)) :=
  match x.b with
  | bam1_buf.holds r => ((rec_key w r : (List ℕ ×ₗ ℕ) ×ₗ (ℕ ×ₗ ℕ)) : WithTop _)
  | _ => ⊤

/-- What the sortedness proof keeps true between two turns of the merge loop; `le` is the
order on records, `prio` the priority key of the cursors and `P` a property that all the
records of the inputs have. -/
structure merge_inv {κ : Type} [LinearOrder κ] (prio : heap1_t → κ)
    (le : bam1_t → bam1_t → Prop) (P : bam1_t → Prop) (n : Nat) (s : merge_state) : Prop where
  heap_len : s.heap.length = n
  nodup : (s.heap.map fun c => c.i).Nodup
  heap_ok : heap_from prio s.heap 0
  out_chain : s.out.Chain' le
  cur : ∀ c ∈ s.heap, c.pos ≠ HEAP_EMPTY →
    ∃ r, c.b = bam1_buf.holds r ∧ c.pos = composite_key r ∧ P r ∧
      (∀ x ∈ s.out.getLast?, le x r) ∧
      ∃ rs, s.fp[c.i]? = some (clean rs) ∧ (r :: rs).Chain' le ∧ ∀ x ∈ rs, P x

/-- The records a cursor holds: the one in its buffer, if any. -/
def cur_bag (c : heap1_t) : Multiset bam1_t :=
  match c.b with
  | bam1_buf.holds r => {r}
  | _ => 0

/-- The records that an input still has to deliver. -/
def inp_bag (inp : List read_t) : Multiset bam1_t :=
  ↑(inp.filterMap fun e => match e with
    | read_t.ok r => some r
    | read_t.trunc => none)

/-- All the records of a merge in progress: emitted, held by a cursor, or still to read. -/
def state_bag (s : merge_state) : Multiset bam1_t :=
  ↑s.out + (s.heap.map cur_bag).sum + (s.fp.map inp_bag).sum

/-- The number of loop turns a merge in progress can still take: one per event left in an
input and one per cursor that is not marked exhausted. -/
def turns_left (s : merge_state) : Nat :=
  (s.fp.map List.length).sum + s.heap.countP (fun c => decide (c.pos ≠ HEAP_EMPTY))

/-- What the proof that no record is lost or repeated keeps true between two turns of the
merge loop: `B` is the bag of all records of the inputs. -/
structure merge_inv2 (n : Nat) (B : Multiset bam1_t) (s : merge_state) : Prop where
  fp_len : s.fp.length = n
  all_idx : ∀ j, j < n → ∃ c ∈ s.heap, c.i = j
  bag : state_bag s = B
  exh : ∀ c ∈ s.heap, c.pos = HEAP_EMPTY → (∀ r, c.b ≠ bam1_buf.holds r) ∧ s.fp[c.i]? = some []
  bound : ∀ c ∈ s.heap, c.pos ≤ HEAP_EMPTY

/-- The order a merge works under, as a relation between a record and one that may follow
it: in query-name mode the second is not before the first for `bam1_lt`, in positional mode
the composite keys do not decrease. -/
def merge_le (ignore_warts by_qname : Bool) (a b : bam1_t) : Prop :=
  if by_qname = true then bam1_lt ignore_warts true b a = false
  else composite_key a ≤ composite_key b

instance merge_le_decidable (w q : Bool) : DecidableRel (merge_le w q) :=
  fun a b => inferInstanceAs (Decidable (if q = true then bam1_lt w true b a = false
    else composite_key a ≤ composite_key b))

/-- The comparator `lt` is the strict order of the keys `key`. -/
def lt_by_key {α κ : Type} [LinearOrder κ] (lt : α → α → Bool) (key : α → κ) : Prop :=
  ∀ a b, lt a b = true ↔ key a < key b

/-- The records whose reference index and position the keys hold without wrap-around:
`tid` from `-1` up, `pos` from `-1` to `2^31 - 2`. -/
def in_range (r : bam1_t) : Prop :=
  -1 ≤ r.core.tid ∧ r.core.tid < 2 ^ 31 ∧ -1 ≤ r.core.pos ∧ r.core.pos ≤ 2 ^ 31 - 2

instance in_range_decidable (r : bam1_t) : Decidable (in_range r) :=
  inferInstanceAs (Decidable (-1 ≤ r.core.tid ∧ r.core.tid < 2 ^ 31 ∧ -1 ≤ r.core.pos ∧
    r.core.pos ≤ 2 ^ 31 - 2))

/-- The pair `(tid, pos)` of `a` is at most that of `b`, lexicographically, with `tid` read
as an unsigned 32-bit number. -/
def tid_pos_le (a b : bam1_t) : Prop :=
  u32 a.core.tid < u32 b.core.tid ∨
    (u32 a.core.tid = u32 b.core.tid ∧ a.core.pos ≤ b.core.pos)

instance tid_pos_le_decidable (a b : bam1_t) : Decidable (tid_pos_le a b) :=
  inferInstanceAs (Decidable (u32 a.core.tid < u32 b.core.tid ∨
    (u32 a.core.tid = u32 b.core.tid ∧ a.core.pos ≤ b.core.pos)))

/-- The order of `bam1_lt` as a relation between a record and one that may follow it. -/
def bam1_le (ignore_warts by_qname : Bool) (a b : bam1_t) : Prop :=
  bam1_lt ignore_warts by_qname b a = false

/-- The input of a sort: each record with the byte count that `bam_read1` returns for it. -/
def billed (bytes : bam1_t → Nat) (l : List bam1_t) : List (bam1_t × Nat) :=
  l.map fun r => (r, bytes r)

/-- A record for the examples: reference index, position, flag and name, empty payload. -/
def rec_of (tid pos : Int) (flag : Nat) (name : String) : bam1_t :=
  ⟨⟨tid, pos, flag⟩, name.toList, []⟩

/-- A cursor that `heap_lt` can compare: in query-name mode its buffer is not the zeroed
one, whose query name is a null pointer. -/
def comparable (by_qname : Bool) (c : heap1_t) : Prop :=
  by_qname = true → c.b ≠ bam1_buf.zeroed

/-- A text made of zero or more two-character warts `M_`, `F_`, `R_`, `C_`. -/
def is_warts : List Char → Bool
  | [] => true
  | c :: d :: rest =>
    (decide (c = 'M') || decide (c = 'F') || decide (c = 'R') || decide (c = 'C')) &&
      decide (d = '_') && is_warts rest
  | _ => false

/-! ## The header part of `bam_merge_core_ext` -/

/-- Modelled from the spec: the struct `bam_header_t` of `bam.h` (not among the sources),
with the fields the merge touches: the reference dictionary (`n_targets` names and
lengths) and the free-form text. A name is the text before its terminating NUL. -/
structure bam_header_t where
  n_targets : Nat
  target_name : List (List Char)
  target_len : List Nat
  l_text : Nat
  text : List Char
  deriving DecidableEq, Repr

/-- The function `swap_header_targets`: the two headers after the call. -/
def swap_header_targets (h1 h2 : bam_header_t) : bam_header_t × bam_header_t :=
  ({ h1 with n_targets := h2.n_targets, target_name := h2.target_name,
             target_len := h2.target_len },
   { h2 with n_targets := h1.n_targets, target_name := h1.target_name,
             target_len := h1.target_len })

/-- The function `swap_header_text`: the two headers after the call. -/
def swap_header_text (h1 h2 : bam_header_t) : bam_header_t × bam_header_t :=
  ({ h1 with l_text := h2.l_text, text := h2.text },
   { h2 with l_text := h1.l_text, text := h1.text })

/-- How the header part of `bam_merge_core_ext` ends: it goes on to the region and the
records with the output header `hout` (`none` for the null pointer), it returns a value, or
it reads outside a name array or through a null pointer. -/
inductive headers_t where
  | done (hout : Option bam_header_t)
  | returned (r : Int)
  | fault
  deriving DecidableEq, Repr

/-- The loop `for (j = 0; j < min_n_targets; ++j) if (strcmp(hout->target_name[j],
hin->target_name[j]) != 0) { ...; return -1; }` from `j` on, with the number of names still
to compare: `some true` when it meets two different names (and returns `-1`), `some false`
when it runs to its end, `none` when it leaves one of the arrays. -/
def names_differ (a b : List (List Char)) : Nat → Nat → Option Bool
  | _, 0 => some false
  | j, c + 1 =>
    match a[j]?, b[j]? with
    | some x, some y => if x ≠ y then some true else names_differ a b (j + 1) c
    | _, _ => none

/-- The turns `i >= 1` of the loop that opens the inputs and reads their headers, for
inputs that open: `hout` is the output header so far, the list holds the headers `hin` of
the inputs still to open. -/
def read_headers (hout : bam_header_t) : List bam_header_t → headers_t
  | [] => headers_t.done (some hout)
  | hin :: rest =>
    match names_differ hout.target_name hin.target_name 0
        (if hin.n_targets < hout.n_targets then hin.n_targets else hout.n_targets) with
    | none => headers_t.fault
    | some true => headers_t.returned (-1)
    | some false =>
      if hin.n_targets > hout.n_targets then
        read_headers (swap_header_targets hout hin).1 rest
      else read_headers hout rest

/-- The loop `for (i = 0; i != n; ++i)` that opens the inputs: the first header becomes
`hout`, the others are validated against it. -/
def open_inputs : List bam_header_t → headers_t
  | [] => headers_t.done none
  | hin :: rest => read_headers hin rest

/-- The loop `for (j = 0; j < hout->n_targets; ++j) if (strcmp(hout->target_name[j],
hheaders->target_name[j]) != 0) { ...; if (!reg) return -1; }`, read as `names_differ`. -/
def sq_differ (reg : Bool) (a b : List (List Char)) : Nat → Nat → Option Bool
  | _, 0 => some false
  | j, c + 1 =>
    match a[j]?, b[j]? with
    | some x, some y =>
      if x ≠ y ∧ reg = false then some true else sq_differ reg a b (j + 1) c
    | _, _ => none

/-- The block `if (hheaders) { ... }`: the checks of the override header against `hout`
and `swap_header_text`. -/
def override_header (reg : Bool) (hout : Option bam_header_t) (hheaders : bam_header_t) :
    headers_t :=
  match hout with
  | none => headers_t.fault
  | some ho =>
    if hheaders.n_targets > 0 then
      if ho.n_targets ≠ hheaders.n_targets ∧ reg = false then headers_t.returned (-1)
      else
        match sq_differ reg ho.target_name hheaders.target_name 0 ho.n_targets with
        | none => headers_t.fault
        | some true => headers_t.returned (-1)
        | some false => headers_t.done (some (swap_header_text ho hheaders).1)
    else headers_t.done (some (swap_header_text ho hheaders).1)

/-- The header part of `bam_merge_core_ext`, from the loop that opens the inputs to the
end of the block `if (hheaders)`. `hheaders` is the header read from the file `headers`
(`none` for `headers == NULL`), `reg` tells whether a region is given, `hins` lists the
headers of the inputs, which all open. -/
def merge_headers (hheaders : Option bam_header_t) (reg : Bool) (hins : List bam_header_t) :
    headers_t :=
  match open_inputs hins with
  | headers_t.done hout =>
    match hheaders with
    | none => headers_t.done hout
    | some hh => override_header reg hout hh
  | r => r

/-- A header for the examples: the reference dictionary with the given names and lengths,
no text. -/
def header_of (d : List (String × Nat)) : bam_header_t :=
  ⟨d.length, d.map fun x => x.1.toList, d.map fun x => x.2, 0, []⟩

/-! ## The read-group name of an input -/

/-- The loop `for (j = l - 1; j >= 0; --j) if (s[j] == '/') break;` and the `++j` after it:
the argument is `j + 1` at the test of the loop, the result is `j` after the increment, the
index after the last `'/'` among the first `l` characters (0 when there is none). -/
def rg_start (s : List Char) : Nat → Nat
  | 0 => 0
  | j + 1 => if s[j]? = some '/' then j + 1 else rg_start s j

/-- The string `RG[i]` that `bam_merge_core_ext` derives from the file name `fn[i]` when
`MERGE_RG` is set; `s` is the text of the name before its terminating NUL. -/
def rg_name (s : List Char) : List Char :=
  let l := if s.length > 4 ∧ s.drop (s.length - 4) = ".bam".toList then s.length - 4
    else s.length
  (s.drop (rg_start s l)).take (l - rg_start s l)

/-- The basename of a path in the words of the specification: the part after the last
`'/'`. -/
def basename (p : List Char) : List Char :=
  (p.reverse.takeWhile fun c => decide (c ≠ '/')).reverse

/-- The words of the specification: a trailing `.bam` removed if present. -/
def strip_bam (x : List Char) : List Char :=
  if ".bam".toList <:+ x then x.take (x.length - 4) else x

/-- The cursor of input `i` that holds the record `r`, drawn as the `idx`-th record: its
key is the composite key of `r`. -/
def cursor_of (i idx : Nat) (r : bam1_t) : heap1_t :=
  ⟨i, composite_key r, idx, bam1_buf.holds r⟩

/-- The positions for which `pos + 1` stays in the `int32_t` range and its double in the
`uint32_t` range: `-1 <= pos <= 2^31 - 2`. -/
def pos_in_range (r : bam1_t) : Prop := -1 ≤ r.core.pos ∧ r.core.pos ≤ 2 ^ 31 - 2

instance pos_in_range_decidable (r : bam1_t) : Decidable (pos_in_range r) :=
  inferInstanceAs (Decidable (-1 ≤ r.core.pos ∧ r.core.pos ≤ 2 ^ 31 - 2))

/-- What the stability proof keeps true between two turns of the merge loop in positional
mode: `pend i` lists the records of input `i` that are not written yet (the one in its
cursor, then those still to read) and `T K` the records with key `K` in the order in which
they are to come out. -/
structure merge_inv3 (n : Nat) (T : Nat → List bam1_t) (pend : Nat → List bam1_t)
    (s : merge_state) : Prop where
  fp_len : s.fp.length = n
  all_idx : ∀ j, j < n → ∃ c ∈ s.heap, c.i = j
  live : ∀ c ∈ s.heap, c.pos ≠ HEAP_EMPTY →
    ∃ r rs, c.b = bam1_buf.holds r ∧ s.fp[c.i]? = some (clean rs) ∧ pend c.i = r :: rs
  exh : ∀ c ∈ s.heap, c.pos = HEAP_EMPTY → ∀ x ∈ pend c.i, composite_key x = HEAP_EMPTY
  out_ne : ∀ x ∈ s.out, composite_key x ≠ HEAP_EMPTY
  stab : ∀ K, K ≠ HEAP_EMPTY →
    s.out.filter (fun r => decide (composite_key r = K)) ++
      ((List.range n).map pend).flatten.filter (fun r => decide (composite_key r = K)) = T K

/-! # Properties -/

/-! ## `strnum_cmp` compares name keys -/

theorem strtol_digits_length (p : List Char) (acc : Nat) :
    (strtol_digits p acc).2.length ≤ p.length := by
  induction p generalizing acc with
  | nil => simp [strtol_digits]
  | cons c rest ih =>
    unfold strtol_digits
    split
    · exact Nat.le_succ_of_le (ih _)
    · simp

theorem strtol_length_lt (p : List Char) (h : isdigit (deref p) = true) :
    (strtol p).2.length < p.length := by
  cases p with
  | nil => simp [deref, isdigit] at h
  | cons c rest =>
    simp only [deref] at h
    simp only [strtol, strtol_digits, h, if_true, List.length_cons]
    exact Nat.lt_succ_of_le (strtol_digits_length _ _)

theorem strtol_le (p : List Char) : (strtol p).1 ≤ LONG_MAX := by
  simp [strtol]

theorem tail_length_lt (p : List Char) (h : deref p ≠ 0) : p.tail.length < p.length := by
  cases p with
  | nil => simp [deref] at h
  | cons c rest => simp

theorem toks_stable (f g : Nat) (p : List Char) (hf : p.length < f) (hg : p.length < g) :
    toks f p = toks g p := by
  induction f generalizing g p with
  | zero => omega
  | succ f ih =>
    cases g with
    | zero => omega
    | succ g =>
      unfold toks
      by_cases h0 : deref p = 0
      · simp [h0]
      · by_cases hd : isdigit (deref p) = true
        · have := strtol_length_lt p hd
          simp only [h0, hd, if_true, if_false]
          rw [ih g _ (by omega) (by omega)]
        · have := tail_length_lt p h0
          rw [Bool.not_eq_true] at hd
          simp only [h0, hd, if_false, Bool.false_eq_true]
          rw [ih g _ (by omega) (by omega)]

theorem tail_at_stable (f g : Nat) (p : List Char) (hf : p.length < f) (hg : p.length < g) :
    tail_at f p = tail_at g p := by
  induction f generalizing g p with
  | zero => omega
  | succ f ih =>
    cases g with
    | zero => omega
    | succ g =>
      unfold tail_at
      by_cases h0 : deref p = 0
      · simp [h0]
      · by_cases hd : isdigit (deref p) = true
        · have := strtol_length_lt p hd
          simp only [h0, hd, if_true, if_false]
          rw [ih g _ (by omega) (by omega)]
        · have := tail_length_lt p h0
          rw [Bool.not_eq_true] at hd
          simp only [h0, hd, if_false, Bool.false_eq_true]
          rw [ih g _ (by omega) (by omega)]

theorem tail_at_le (f : Nat) (p : List Char) : tail_at f p ≤ p.length := by
  induction f generalizing p with
  | zero => simp [tail_at]
  | succ f ih =>
    unfold tail_at
    by_cases h0 : deref p = 0
    · simp [h0]
    · by_cases hd : isdigit (deref p) = true
      · have := strtol_length_lt p hd
        simp only [h0, hd, if_true, if_false]
        exact le_trans (ih _) (by omega)
      · have := tail_length_lt p h0
        rw [Bool.not_eq_true] at hd
        simp only [h0, hd, if_false, Bool.false_eq_true]
        exact le_trans (ih _) (by omega)

/-- Lexicographic order on token lists, one step. -/
theorem list_cons_lt_cons (x y : ℕ) (xs ys : List ℕ) :
    x :: xs < y :: ys ↔ x < y ∨ (x = y ∧ xs < ys) := by
  constructor
  · intro h
    cases h with
    | cons h => exact Or.inr ⟨rfl, h⟩
    | rel h => exact Or.inl h
  · rintro (h | ⟨rfl, h⟩)
    · exact List.Lex.rel h
    · exact List.Lex.cons h

theorem list_not_lt_nil (xs : List ℕ) : ¬ xs < [] := by
  intro h; cases h

theorem tok_char_lt (c d : Nat) : tok_char c < tok_char d ↔ c < d := by
  unfold tok_char
  split <;> split <;> omega

theorem tok_char_digit (c d v : Nat) (hc : isdigit c = false) (hd : isdigit d = true)
    (hv : v ≤ LONG_MAX) : (tok_char c < 48 + v ↔ c < d) ∧ (48 + v < tok_char c ↔ d < c) := by
  simp only [isdigit, Bool.and_eq_false_iff, decide_eq_false_iff_not, Bool.and_eq_true,
    decide_eq_true_eq] at hc hd
  unfold tok_char
  split <;> constructor <;> omega



theorem name_nul (p : List Char) (h : deref p = 0) :
    name_toks p = [] ∧ name_tail p = p.length := by
  simp [name_toks, name_tail, toks, tail_at, h]

theorem name_digit (p : List Char) (h0 : deref p ≠ 0) (hd : isdigit (deref p) = true) :
    name_toks p = (48 + (strtol p).1) :: name_toks (strtol p).2 ∧
      name_tail p = name_tail (strtol p).2 := by
  have hl := strtol_length_lt p hd
  constructor
  · unfold name_toks
    rw [toks, if_neg h0, if_pos hd,
      toks_stable p.length ((strtol p).2.length + 1) _ hl (by omega)]
  · unfold name_tail
    rw [tail_at, if_neg h0, if_pos hd,
      tail_at_stable p.length ((strtol p).2.length + 1) _ hl (by omega)]

theorem name_char (p : List Char) (h0 : deref p ≠ 0) (hd : isdigit (deref p) = false) :
    name_toks p = tok_char (deref p) :: name_toks p.tail ∧ name_tail p = name_tail p.tail := by
  have hl := tail_length_lt p h0
  constructor
  · unfold name_toks
    rw [toks, if_neg h0, if_neg (by simp [hd]),
      toks_stable p.length (p.tail.length + 1) _ hl (by omega)]
  · unfold name_tail
    rw [tail_at, if_neg h0, if_neg (by simp [hd]),
      tail_at_stable p.length (p.tail.length + 1) _ hl (by omega)]

theorem cmp3_lex (x y : List ℕ) (m n : ℕ) :
    cmp3 (toLex (x, m) : List ℕ ×ₗ ℕ) (toLex (y, n)) =
      if x < y then -1 else if y < x then 1 else sgn3 m n := by
  unfold cmp3 sgn3
  simp only [Prod.Lex.lt_iff, ofLex_toLex]
  by_cases h1 : x < y
  · simp [h1]
  · by_cases h2 : y < x
    · have : ¬ x = y := fun h => by subst h; exact h1 h2
      simp [h1, h2, this]
    · have : x = y := le_antisymm (not_lt.mp h2) (not_lt.mp h1)
      subst this
      simp [h1]

theorem cmp3_nil_nil (m n : ℕ) :
    cmp3 (toLex (([] : List ℕ), m) : List ℕ ×ₗ ℕ) (toLex ([], n)) = sgn3 m n := by
  rw [cmp3_lex]; simp

theorem cmp3_nil_cons (t : ℕ) (ys : List ℕ) (m n : ℕ) :
    cmp3 (toLex (([] : List ℕ), m) : List ℕ ×ₗ ℕ) (toLex (t :: ys, n)) = -1 := by
  rw [cmp3_lex]; simp [List.nil_lt_cons]

theorem cmp3_cons_nil (s : ℕ) (xs : List ℕ) (m n : ℕ) :
    cmp3 (toLex (s :: xs, m) : List ℕ ×ₗ ℕ) (toLex ([], n)) = 1 := by
  rw [cmp3_lex]; simp [List.nil_lt_cons, list_not_lt_nil]

theorem cmp3_cons_lt (s t : ℕ) (xs ys : List ℕ) (m n : ℕ) (h : s < t) :
    cmp3 (toLex (s :: xs, m) : List ℕ ×ₗ ℕ) (toLex (t :: ys, n)) = -1 := by
  rw [cmp3_lex]; simp [list_cons_lt_cons, h]

theorem cmp3_cons_gt (s t : ℕ) (xs ys : List ℕ) (m n : ℕ) (h : t < s) :
    cmp3 (toLex (s :: xs, m) : List ℕ ×ₗ ℕ) (toLex (t :: ys, n)) = 1 := by
  rw [cmp3_lex]
  have h1 : ¬ s < t := by omega
  have h2 : ¬ s = t := by omega
  simp [list_cons_lt_cons, h, h1, h2]

theorem cmp3_cons_eq (s : ℕ) (xs ys : List ℕ) (m n : ℕ) :
    cmp3 (toLex (s :: xs, m) : List ℕ ×ₗ ℕ) (toLex (s :: ys, n)) =
      cmp3 (toLex (xs, m) : List ℕ ×ₗ ℕ) (toLex (ys, n)) := by
  rw [cmp3_lex, cmp3_lex]; simp [list_cons_lt_cons]

theorem sgn3_lt (m n : ℕ) (h : m < n) : sgn3 m n = -1 := by simp [sgn3, h]

theorem sgn3_gt (m n : ℕ) (h : n < m) : sgn3 m n = 1 := by
  have : ¬ m < n := by omega
  simp [sgn3, h, this]

theorem strnum_loop_eq (na nb f : Nat) (pa pb : List Char) (hf : pa.length < f) :
    strnum_loop na nb f pa pb =
      cmp3 (toLex (name_toks pa, na - name_tail pa) : List ℕ ×ₗ ℕ)
        (toLex (name_toks pb, nb - name_tail pb)) := by
  induction f generalizing pa pb with
  | zero => omega
  | succ f ih =>
    unfold strnum_loop
    by_cases ha : deref pa = 0
    · rw [if_neg (by simp [ha])]
      by_cases hb : deref pb = 0
      · rw [if_pos (by rw [ha, hb]), (name_nul pa ha).1, (name_nul pb hb).1, (name_nul pa ha).2,
          (name_nul pb hb).2, cmp3_nil_nil]
      · rw [if_neg (by rw [ha]; exact fun h => hb h.symm), (name_nul pa ha).1, ha,
          sgn3_lt _ _ (by omega)]
        by_cases hdb : isdigit (deref pb) = true
        · rw [(name_digit pb hb hdb).1, cmp3_nil_cons]
        · rw [Bool.not_eq_true] at hdb
          rw [(name_char pb hb hdb).1, cmp3_nil_cons]
    · by_cases hb : deref pb = 0
      · rw [if_neg (by simp [hb]), if_neg (by rw [hb]; exact ha), (name_nul pb hb).1, hb,
          sgn3_gt _ _ (by omega)]
        by_cases hda : isdigit (deref pa) = true
        · rw [(name_digit pa ha hda).1, cmp3_cons_nil]
        · rw [Bool.not_eq_true] at hda
          rw [(name_char pa ha hda).1, cmp3_cons_nil]
      · rw [if_pos ⟨ha, hb⟩]
        by_cases hda : isdigit (deref pa) = true
        · by_cases hdb : isdigit (deref pb) = true
          · have hl := strtol_length_lt pa hda
            rw [if_pos ⟨hda, hdb⟩, (name_digit pa ha hda).1, (name_digit pb hb hdb).1,
              (name_digit pa ha hda).2, (name_digit pb hb hdb).2]
            by_cases hv : (strtol pa).1 = (strtol pb).1
            · rw [if_neg (by simp [hv]), ih _ _ (by omega), hv, cmp3_cons_eq]
            · rw [if_pos hv]
              rcases Nat.lt_or_gt_of_ne hv with h | h
              · rw [sgn3_lt _ _ h, cmp3_cons_lt _ _ _ _ _ _ (by omega)]
              · rw [sgn3_gt _ _ h, cmp3_cons_gt _ _ _ _ _ _ (by omega)]
          · rw [Bool.not_eq_true] at hdb
            have hne : deref pa ≠ deref pb := fun h => by rw [h, hdb] at hda; simp at hda
            have ht := tok_char_digit (deref pb) (deref pa) (strtol pa).1 hdb hda (strtol_le pa)
            rw [if_neg (by simp [hdb]), if_pos hne, (name_digit pa ha hda).1,
              (name_char pb hb hdb).1]
            rcases Nat.lt_or_gt_of_ne hne with h | h
            · rw [sgn3_lt _ _ h, cmp3_cons_lt _ _ _ _ _ _ (ht.2.2 h)]
            · rw [sgn3_gt _ _ h, cmp3_cons_gt _ _ _ _ _ _ (ht.1.2 h)]
        · rw [Bool.not_eq_true] at hda
          rw [if_neg (by simp [hda])]
          by_cases hdb : isdigit (deref pb) = true
          · have hne : deref pa ≠ deref pb := fun h => by rw [h, hdb] at hda; simp at hda
            have ht := tok_char_digit (deref pa) (deref pb) (strtol pb).1 hda hdb (strtol_le pb)
            rw [if_pos hne, (name_digit pb hb hdb).1, (name_char pa ha hda).1]
            rcases Nat.lt_or_gt_of_ne hne with h | h
            · rw [sgn3_lt _ _ h, cmp3_cons_lt _ _ _ _ _ _ (ht.1.2 h)]
            · rw [sgn3_gt _ _ h, cmp3_cons_gt _ _ _ _ _ _ (ht.2.2 h)]
          · rw [Bool.not_eq_true] at hdb
            have hl := tail_length_lt pa ha
            rw [(name_char pa ha hda).1, (name_char pb hb hdb).1, (name_char pa ha hda).2,
              (name_char pb hb hdb).2]
            by_cases hv : deref pa = deref pb
            · rw [if_neg (by simp [hv]), ih _ _ (by omega), hv, cmp3_cons_eq]
            · rw [if_pos hv]
              rcases Nat.lt_or_gt_of_ne hv with h | h
              · rw [sgn3_lt _ _ h, cmp3_cons_lt _ _ _ _ _ _ ((tok_char_lt _ _).2 h)]
              · rw [sgn3_gt _ _ h, cmp3_cons_gt _ _ _ _ _ _ ((tok_char_lt _ _).2 h)]

theorem name_tail_le (p : List Char) : name_tail p ≤ p.length := tail_at_le _ _

theorem strnum_cmp_from_eq (a b : List Char) :
    strnum_cmp_from a b = cmp3 (name_key_from a) (name_key_from b) := by
  unfold strnum_cmp_from name_key_from
  exact strnum_loop_eq _ _ _ _ _ (by omega)

theorem strnum_cmp_eq (w : Bool) (a b : List Char) :
    strnum_cmp w a b = cmp3 (name_key w a) (name_key w b) := by
  unfold strnum_cmp name_key
  cases w <;> simp [strnum_cmp_from_eq]

/-! ## The heap of `ksort.h` -/

section heap
variable {α κ : Type} [LinearOrder κ]

theorem perm_set_head (l : List α) (k : Nat) (x tmp : α) (h : l[k]? = some x) :
    (x :: l.set k tmp).Perm (tmp :: l) := by
  induction l generalizing k with
  | nil => simp at h
  | cons a l ih =>
    cases k with
    | zero =>
      simp at h; subst h
      simpa using List.Perm.swap tmp a l
    | succ k =>
      simp at h
      have h1 := ih k h
      rw [List.set_cons_succ]
      exact (List.Perm.swap a x _).trans ((List.Perm.cons a h1).trans (List.Perm.swap tmp a l))

theorem perm_set_swap (l : List α) (i k : Nat) (x tmp : α) (hik : i < k) (h : l[k]? = some x) :
    ((l.set i x).set k tmp).Perm (l.set i tmp) := by
  induction l generalizing i k with
  | nil => simp at h
  | cons a l ih =>
    cases k with
    | zero => omega
    | succ k =>
      simp at h
      cases i with
      | zero =>
        simp only [List.set_cons_zero, List.set_cons_succ]
        exact perm_set_head l k x tmp h
      | succ i =>
        simp only [List.set_cons_succ]
        exact List.Perm.cons a (ih i k (by omega) h)

theorem heap_child_spec (lt : α → α → Option Bool) (prio : α → κ) (hag : lt_agrees lt prio)
    (l : List α) (k k1 : Nat) (hk : k < l.length)
    (h : ks_heap_child lt l.length l k = some k1) :
    (k1 = k ∨ k1 = k + 1) ∧ k1 < l.length ∧
      ∀ x y, l[k1]? = some x → (l[k]? = some y ∨ l[k + 1]? = some y) → prio x ≤ prio y := by
  unfold ks_heap_child at h
  by_cases hlast : k = l.length - 1
  · simp only [hlast, ne_eq, not_true_eq_false, if_false, Option.some.injEq] at h
    have hk1 : k1 = k := by omega
    subst hk1
    refine ⟨Or.inl rfl, hk, ?_⟩
    intro x y hx hy
    rcases hy with hy | hy
    · rw [hx] at hy; cases hy; exact le_refl _
    · rw [List.getElem?_eq_none (by omega)] at hy; cases hy
  · have hk2 : k + 1 < l.length := by omega
    simp only [ne_eq, hlast, not_false_eq_true, if_true, List.getElem?_eq_getElem hk,
      List.getElem?_eq_getElem hk2] at h
    cases hc : lt l[k] l[k + 1] with
    | none => simp [hc] at h
    | some c =>
      simp only [hc, Option.some.injEq] at h
      have hp := hag _ _ _ hc
      cases c with
      | true =>
        simp at h; subst h
        refine ⟨Or.inr rfl, hk2, ?_⟩
        intro x y hx hy
        rw [List.getElem?_eq_getElem hk2] at hx; cases hx
        rcases hy with hy | hy
        · rw [List.getElem?_eq_getElem hk] at hy; cases hy; exact hp.1 rfl
        · rw [List.getElem?_eq_getElem hk2] at hy; cases hy; exact le_refl _
      | false =>
        simp at h; subst h
        refine ⟨Or.inl rfl, hk, ?_⟩
        intro x y hx hy
        rw [List.getElem?_eq_getElem hk] at hx; cases hx
        rcases hy with hy | hy
        · rw [List.getElem?_eq_getElem hk] at hy; cases hy; exact le_refl _
        · rw [List.getElem?_eq_getElem hk2] at hy; cases hy; exact hp.2 rfl



theorem set_eq_self (l : List α) (i : Nat) (a : α) (h : l[i]? = some a) : l.set i a = l := by
  apply List.ext_getElem?
  intro j
  rw [List.getElem?_set]
  by_cases hij : i = j
  · subst hij
    simp [h, (List.getElem?_eq_some.1 h).1]
  · simp [hij]

theorem is_child_parent_unique (i j c : Nat) (h1 : is_child i c) (h2 : is_child j c) : i = j := by
  unfold is_child at h1 h2; omega

theorem is_child_lt (j c : Nat) (h : is_child j c) : j < c := by
  unfold is_child at h; omega

theorem heapadjust_loop_spec (lt : α → α → Option Bool) (prio : α → κ) (hag : lt_agrees lt prio)
    (s n : Nat) (tmp : α) (fuel : Nat) :
    ∀ (i : Nat) (l l1 : List α), l.length = n → i < n → s ≤ i →
      (∀ j c x y, s ≤ j → j ≠ i → is_child j c → l[j]? = some x → l[c]? = some y →
        prio x ≤ prio y) →
      (∀ j x, s ≤ j → is_child j i → l[j]? = some x →
        prio x ≤ prio tmp ∧ ∀ c y, is_child i c → l[c]? = some y → prio x ≤ prio y) →
      ks_heapadjust_loop lt n tmp fuel i l = some l1 →
      l1.length = n ∧ heap_from prio l1 s ∧ l1.Perm (l.set i tmp) := by
  induction fuel with
  | zero => intro i l l1 _ _ _ _ _ h; simp [ks_heapadjust_loop] at h
  | succ fuel ih =>
    intro i l l1 hn hi hs I1 I2 h
    unfold ks_heapadjust_loop at h
    -- the heap property of `l.set i tmp` once `tmp` is known to fit at `i`
    have fin : (∀ c y, is_child i c → l[c]? = some y → prio tmp ≤ prio y) →
        heap_from prio (l.set i tmp) s := by
      intro hc j c x y hsj hjc hx hy
      by_cases hji : j = i
      · subst hji
        rw [List.getElem?_set_self (by omega)] at hx
        cases hx
        rw [List.getElem?_set_ne (by have := is_child_lt _ _ hjc; omega)] at hy
        exact hc c y hjc hy
      · rw [List.getElem?_set_ne (fun h => hji h.symm)] at hx
        by_cases hci : c = i
        · subst hci
          have hlen : c < l.length := by omega
          rw [List.getElem?_set_self hlen] at hy
          cases hy
          exact (I2 j x hsj hjc hx).1
        · rw [List.getElem?_set_ne (fun h => hci h.symm)] at hy
          exact I1 j c x y hsj hji hjc hx hy
    by_cases h2 : 2 * i + 1 < n
    · rw [if_pos h2] at h
      cases hch : ks_heap_child lt n l (2 * i + 1) with
      | none => simp [hch] at h
      | some k =>
        rw [hch] at h
        simp only at h
        have hsp := heap_child_spec lt prio hag l (2 * i + 1) k (by omega) (by rw [hn]; exact hch)
        obtain ⟨hk, hkl, hmin⟩ := hsp
        have hkx : l[k]? = some l[k] := List.getElem?_eq_getElem hkl
        rw [hkx] at h
        simp only at h
        have hik : i < k := by omega
        have hchild : is_child i k := by unfold is_child; omega
        -- the chosen child is below both children of `i`
        have hmin2 : ∀ c y, is_child i c → l[c]? = some y → prio l[k] ≤ prio y := by
          intro c y hc hy
          apply hmin _ _ hkx
          unfold is_child at hc
          rcases hc with hc | hc
          · left; rw [← hc]; exact hy
          · right; rw [show 2 * i + 1 + 1 = c by omega]; exact hy
        cases hlt : lt l[k] tmp with
        | none => simp [hlt] at h
        | some b =>
          rw [hlt] at h
          have hp := hag _ _ _ hlt
          cases b with
          | true =>
            simp only [Option.some.injEq] at h
            subst h
            refine ⟨by rw [List.length_set]; exact hn, fin ?_, List.Perm.refl _⟩
            intro c y hc hy
            exact le_trans (hp.1 rfl) (hmin2 c y hc hy)
          | false =>
            simp only at h
            have hres := ih k (l.set i l[k]) l1 (by rw [List.length_set]; exact hn)
              (by omega) (by omega) ?_ ?_ h
            · refine ⟨hres.1, hres.2.1, hres.2.2.trans ?_⟩
              exact perm_set_swap l i k l[k] tmp hik hkx
            · intro j c x y hsj hjk hjc hx hy
              by_cases hji : j = i
              · subst hji
                rw [List.getElem?_set_self (by omega)] at hx
                cases hx
                rw [List.getElem?_set_ne (by have := is_child_lt _ _ hjc; omega)] at hy
                exact hmin2 c y hjc hy
              · rw [List.getElem?_set_ne (fun h => hji h.symm)] at hx
                by_cases hci : c = i
                · subst hci
                  rw [List.getElem?_set_self (by omega)] at hy
                  cases hy
                  exact (I2 j x hsj hjc hx).2 k _ hchild hkx
                · rw [List.getElem?_set_ne (fun h => hci h.symm)] at hy
                  exact I1 j c x y hsj hji hjc hx hy
            · intro j x hsj hjk hx
              have hji : j = i := is_child_parent_unique _ _ _ hjk hchild
              subst hji
              rw [List.getElem?_set_self (by omega)] at hx
              cases hx
              refine ⟨hp.2 rfl, ?_⟩
              intro c y hc hy
              rw [List.getElem?_set_ne (by have := is_child_lt _ _ hc; omega)] at hy
              exact I1 k c _ y (by omega) (by omega) hc hkx hy
    · rw [if_neg h2] at h
      simp only [Option.some.injEq] at h
      subst h
      refine ⟨by rw [List.length_set]; exact hn, fin ?_, List.Perm.refl _⟩
      intro c y hc hy
      have := (List.getElem?_eq_some.1 hy).1
      unfold is_child at hc
      omega

theorem heapadjust_spec (lt : α → α → Option Bool) (prio : α → κ) (hag : lt_agrees lt prio)
    (i : Nat) (l l1 : List α) (hh : heap_from prio l (i + 1))
    (h : ks_heapadjust lt i l.length l = some l1) :
    l1.length = l.length ∧ heap_from prio l1 i ∧ l1.Perm l := by
  unfold ks_heapadjust at h
  cases hi : l[i]? with
  | none => simp [hi] at h
  | some tmp =>
    rw [hi] at h
    simp only at h
    have hil := (List.getElem?_eq_some.1 hi).1
    have hres := heapadjust_loop_spec lt prio hag i l.length tmp l.length i l l1 rfl hil
      (le_refl _) ?_ ?_ h
    · refine ⟨hres.1, hres.2.1, ?_⟩
      have : l.set i tmp = l := set_eq_self l i tmp hi
      rw [this] at hres
      exact hres.2.2
    · intro j c x y hsj hji hjc hx hy
      exact hh j c x y (by omega) hjc hx hy
    · intro j x hsj hjc _
      have := is_child_lt _ _ hjc
      omega

theorem heapmake_loop_spec (lt : α → α → Option Bool) (prio : α → κ) (hag : lt_agrees lt prio)
    (c : Nat) : ∀ (l l1 : List α), heap_from prio l c →
      ks_heapmake_loop lt l.length c l = some l1 →
      l1.length = l.length ∧ heap_from prio l1 0 ∧ l1.Perm l := by
  induction c with
  | zero =>
    intro l l1 hh h
    simp only [ks_heapmake_loop, Option.some.injEq] at h
    subst h
    exact ⟨rfl, hh, List.Perm.refl _⟩
  | succ c ih =>
    intro l l1 hh h
    unfold ks_heapmake_loop at h
    cases h1 : ks_heapadjust lt c l.length l with
    | none => simp [h1] at h
    | some l2 =>
      rw [h1] at h
      simp only at h
      have s1 := heapadjust_spec lt prio hag c l l2 hh h1
      rw [← s1.1] at h
      have s2 := ih l2 l1 s1.2.1 h
      exact ⟨s2.1.trans s1.1, s2.2.1, s2.2.2.trans s1.2.2⟩

theorem heapmake_spec (lt : α → α → Option Bool) (prio : α → κ) (hag : lt_agrees lt prio)
    (l l1 : List α) (h : ks_heapmake lt l.length l = some l1) :
    l1.length = l.length ∧ heap_from prio l1 0 ∧ l1.Perm l := by
  apply heapmake_loop_spec lt prio hag (l.length / 2) l l1 ?_ h
  intro j c x y hsj hjc _ hy
  have := (List.getElem?_eq_some.1 hy).1
  unfold is_child at hjc
  omega

/-- In a heap the root has the least priority key. -/
theorem heap_root_le (prio : α → κ) (l : List α) (hh : heap_from prio l 0) (r : α)
    (hr : l[0]? = some r) : ∀ (c : Nat) (y : α), l[c]? = some y → prio r ≤ prio y := by
  intro c
  induction c using Nat.strong_induction_on with
  | _ c ih =>
    intro y hy
    by_cases hc : c = 0
    · subst hc; rw [hr] at hy; cases hy; exact le_refl _
    · have hp : is_child ((c - 1) / 2) c := by unfold is_child; omega
      have hlen := (List.getElem?_eq_some.1 hy).1
      have hpl : (c - 1) / 2 < l.length := by omega
      have hx : l[(c - 1) / 2]? = some l[(c - 1) / 2] := List.getElem?_eq_getElem hpl
      exact le_trans (ih ((c - 1) / 2) (by omega) _ hx) (hh _ c _ y (Nat.zero_le _) hp hx hy)

end heap

/-! ## The comparators order by keys -/

theorem cmp3_pos {κ : Type} [LinearOrder κ] (x y : κ) : cmp3 x y > 0 ↔ y < x := by
  unfold cmp3
  by_cases h1 : x < y
  · simp [h1, not_lt_of_lt h1]
  · by_cases h2 : y < x <;> simp [h1, h2]

theorem cmp3_neg {κ : Type} [LinearOrder κ] (x y : κ) : cmp3 x y < 0 ↔ x < y := by
  unfold cmp3
  by_cases h1 : x < y
  · simp [h1]
  · by_cases h2 : y < x <;> simp [h1, h2]

theorem and_paired_le (f : Nat) : f &&& BAM_FPAIRED ≤ 1 := by
  unfold BAM_FPAIRED; exact Nat.and_le_right

theorem bam1_lt_qname_iff (w : Bool) (a b : bam1_t) :
    bam1_lt w true a b = true ↔ rec_key w a < rec_key w b := by
  have ha := and_paired_le a.core.flag
  have hb := and_paired_le b.core.flag
  unfold bam1_lt rec_key
  simp only [if_true, strnum_cmp_eq, cmp3_pos, cmp3_neg, Prod.Lex.lt_iff, ofLex_toLex]
  by_cases h1 : name_key w b.qname < name_key w a.qname
  · simp [h1, not_lt_of_lt h1, (ne_of_lt h1).symm]
  · by_cases h2 : name_key w a.qname < name_key w b.qname
    · simp [h1, h2]
    · have he : name_key w a.qname = name_key w b.qname :=
        le_antisymm (not_lt.mp h1) (not_lt.mp h2)
      simp only [h1, h2, if_false, he, lt_self_iff_false, true_and, false_or, gt_iff_lt]
      split
      · simp; omega
      · split
        · simp; omega
        · simp; omega



theorem pos_cmp_iff (a b : heap1_t) : __pos_cmp a b = true ↔ pos_prio b < pos_prio a := by
  unfold __pos_cmp pos_prio
  simp only [Prod.Lex.lt_iff, ofLex_toLex, Bool.or_eq_true, Bool.and_eq_true, decide_eq_true_eq,
    gt_iff_lt]
  constructor
  · rintro (h | ⟨h1, h | ⟨h2, h3⟩⟩)
    · exact Or.inl h
    · exact Or.inr ⟨h1.symm, Or.inl h⟩
    · exact Or.inr ⟨h1.symm, Or.inr ⟨h2.symm, h3⟩⟩
  · rintro (h | ⟨h1, h | ⟨h2, h3⟩⟩)
    · exact Or.inl h
    · exact Or.inr ⟨h1.symm, Or.inl h⟩
    · exact Or.inr ⟨h1.symm, Or.inr ⟨h2.symm, h3⟩⟩

theorem heap_lt_pos_agrees (w : Bool) : lt_agrees (heap_lt w false) pos_prio := by
  intro x y c h
  simp only [heap_lt, Bool.false_eq_true, if_false, Option.some.injEq] at h
  subst h
  constructor
  · intro hc; exact le_of_lt ((pos_cmp_iff x y).1 hc)
  · intro hc
    apply not_lt.mp
    intro hlt
    rw [(pos_cmp_iff x y).2 hlt] at hc
    cases hc

theorem heap_lt_qname_holds (w : Bool) (x y : heap1_t) (rx ry : bam1_t)
    (hx : x.b = bam1_buf.holds rx) (hy : y.b = bam1_buf.holds ry) :
    heap_lt w true x y = some (bam1_lt w true ry rx) := by
  have ha := and_paired_le rx.core.flag
  have hb := and_paired_le ry.core.flag
  have e := strnum_cmp_eq w rx.qname ry.qname
  have e2 := strnum_cmp_eq w ry.qname rx.qname
  unfold heap_lt bam1_lt
  simp only [if_true, hx, hy, e, e2, cmp3_pos, cmp3_neg]
  by_cases h1 : name_key w ry.qname < name_key w rx.qname
  · simp [h1, not_lt_of_lt h1]
  · by_cases h2 : name_key w rx.qname < name_key w ry.qname
    · simp [h1, h2]
    · simp only [h1, h2, if_false, gt_iff_lt]
      split
      · rename_i h3; simp [h3, not_lt_of_lt h3]
      · split
        · rename_i h3 h4; simp [h4, not_lt_of_lt h4]
        · rename_i h3 h4; simp [h3, h4]

theorem heap_lt_qname_agrees (w : Bool) : lt_agrees (heap_lt w true) (qname_prio w) := by
  intro x y c h
  cases hx : x.b with
  | null =>
    simp only [heap_lt, if_true, hx, Option.some.injEq] at h
    subst h
    simp [qname_prio, hx]
  | zeroed =>
    cases hy : y.b with
    | null =>
      simp only [heap_lt, if_true, hx, hy, Option.some.injEq] at h
      subst h
      simp [qname_prio, hy]
    | zeroed => simp [heap_lt, hx, hy] at h
    | holds ry => simp [heap_lt, hx, hy] at h
  | holds rx =>
    cases hy : y.b with
    | null =>
      simp only [heap_lt, if_true, hx, hy, Option.some.injEq] at h
      subst h
      simp [qname_prio, hy]
    | zeroed => simp [heap_lt, hx, hy] at h
    | holds ry =>
      rw [heap_lt_qname_holds w x y rx ry hx hy] at h
      simp only [Option.some.injEq] at h
      subst h
      simp only [qname_prio, hx, hy, WithTop.coe_le_coe]
      constructor
      · intro hc; exact le_of_lt ((bam1_lt_qname_iff w ry rx).1 hc)
      · intro hc
        apply not_lt.mp
        intro hlt
        rw [(bam1_lt_qname_iff w ry rx).2 hlt] at hc
        cases hc

/-! ## The merge loop emits a sorted sequence -/

section merge
variable {κ : Type} [LinearOrder κ]

theorem refill_i (h : heap1_t) (idx : Nat) (inp : List read_t) : (refill h idx inp).1.i = h.i := by
  unfold refill
  split <;> rfl

theorem heap_from_set_root (prio : heap1_t → κ) (l : List heap1_t) (x : heap1_t)
    (hh : heap_from prio l 0) : heap_from prio (l.set 0 x) 1 := by
  intro j c a b hj hjc ha hb
  have := is_child_lt _ _ hjc
  rw [List.getElem?_set_ne (by omega)] at ha hb
  exact hh j c a b (Nat.zero_le _) hjc ha hb

theorem merge_step_inv (w q : Bool) (prio : heap1_t → κ) (le : bam1_t → bam1_t → Prop)
    (P : bam1_t → Prop)
    (hag : lt_agrees (heap_lt w q) prio)
    (hle : ∀ x y r1 r2, x.b = bam1_buf.holds r1 → y.b = bam1_buf.holds r2 →
      x.pos = composite_key r1 → y.pos = composite_key r2 → P r1 → P r2 →
      prio x ≤ prio y → le r1 r2)
    (n : Nat) (s : merge_state) (inv : merge_inv prio le P n s)
    (h : heap1_t) (t : List heap1_t) (hs : s.heap = h :: t) (hne : h.pos ≠ HEAP_EMPTY)
    (r : bam1_t) (hb : h.b = bam1_buf.holds r) (rs : List bam1_t)
    (hfp : s.fp[h.i]? = some (clean rs)) (heap1 : List heap1_t)
    (hadj : ks_heapadjust (heap_lt w q) 0 n (s.heap.set 0 (refill h s.idx (clean rs)).1)
      = some heap1) :
    merge_inv prio le P n ⟨heap1, s.fp.set h.i (refill h s.idx (clean rs)).2.1,
      (refill h s.idx (clean rs)).2.2, s.out ++ [r]⟩ := by
  obtain ⟨r0, hb0, hk0, hP0, hlast0, rs0, hfp0, hch0, hPs0⟩ := inv.cur h (by rw [hs]; simp) hne
  rw [hb] at hb0; cases hb0
  rw [hfp] at hfp0
  have hrs : rs0 = rs := by
    have := Option.some.inj hfp0
    unfold clean at this
    exact (List.map_injective_iff.2 (fun a b hab => by cases hab; rfl) this).symm
  subst hrs
  have hlen : (s.heap.set 0 (refill h s.idx (clean rs0)).1).length = n := by
    rw [List.length_set]; exact inv.heap_len
  rw [← hlen] at hadj
  have sp := heapadjust_spec (heap_lt w q) prio hag 0 _ heap1
    (heap_from_set_root prio s.heap _ inv.heap_ok) hadj
  obtain ⟨sp1, sp2, sp3⟩ := sp
  have hset : s.heap.set 0 (refill h s.idx (clean rs0)).1
      = (refill h s.idx (clean rs0)).1 :: t := by rw [hs]; rfl
  rw [hset] at sp3
  have hnd : (h.i :: t.map fun c => c.i).Nodup := by
    have := inv.nodup; rw [hs] at this; simpa using this
  have hout : (s.out ++ [r]).Chain' le := by
    apply List.Chain'.append inv.out_chain (List.chain'_singleton r)
    intro x hx y hy
    simp only [List.head?_cons, Option.mem_def, Option.some.injEq] at hy
    subst hy
    exact hlast0 x hx
  have hlastr : (s.out ++ [r]).getLast? = some r := by simp
  refine ⟨sp1.trans hlen, ?_, sp2, hout, ?_⟩
  · have : (heap1.map fun c => c.i).Perm ((refill h s.idx (clean rs0)).1.i :: t.map fun c => c.i) := by
      simpa using sp3.map (fun c => c.i)
    rw [refill_i] at this
    exact (List.Perm.nodup_iff this).2 hnd
  · intro c hc hcne
    have hc2 : c ∈ (refill h s.idx (clean rs0)).1 :: t := (List.Perm.mem_iff sp3).1 hc
    simp only [hlastr, Option.mem_def, Option.some.injEq]
    rcases List.mem_cons.1 hc2 with hc3 | hc3
    · -- the refilled root
      subst hc3
      cases rs0 with
      | nil => simp [clean, refill] at hcne
      | cons r1 rs1 =>
        have hil : h.i < s.fp.length := (List.getElem?_eq_some.1 hfp).1
        refine ⟨r1, by simp [clean, refill], by simp [clean, refill],
          hPs0 r1 (List.mem_cons_self _ _), ?_, rs1, ?_, ?_, ?_⟩
        · intro x hx; subst hx
          exact (List.chain'_cons.1 hch0).1
        · simp only [clean, refill, List.map_cons]
          rw [List.getElem?_set_self hil]
        · exact (List.chain'_cons.1 hch0).2
        · intro x hx; exact hPs0 x (List.mem_cons_of_mem _ hx)
    · -- another cursor
      have hcs : c ∈ s.heap := by rw [hs]; exact List.mem_cons_of_mem _ hc3
      obtain ⟨rc, hbc, hkc, hPc, _, rsc, hfpc, hchc, hPsc⟩ := inv.cur c hcs hcne
      have hci : h.i ≠ c.i := by
        intro e
        have h1 := (List.nodup_cons.1 hnd).1
        apply h1
        rw [e]
        exact List.mem_map_of_mem (fun c => c.i) hc3
      obtain ⟨k, hk⟩ := List.mem_iff_getElem?.1 hcs
      have hroot : s.heap[0]? = some h := by rw [hs]; simp
      have hp := heap_root_le prio s.heap inv.heap_ok h hroot k c hk
      refine ⟨rc, hbc, hkc, hPc, ?_, rsc, ?_, hchc, hPsc⟩
      · rintro _ rfl
        exact hle h c r rc hb hbc hk0 hkc hP0 hPc hp
      · rw [List.getElem?_set_ne hci]; exact hfpc

theorem merge_loop_sorted (w q : Bool) (prio : heap1_t → κ) (le : bam1_t → bam1_t → Prop)
    (P : bam1_t → Prop)
    (hag : lt_agrees (heap_lt w q) prio)
    (hle : ∀ x y r1 r2, x.b = bam1_buf.holds r1 → y.b = bam1_buf.holds r2 →
      x.pos = composite_key r1 → y.pos = composite_key r2 → P r1 → P r2 →
      prio x ≤ prio y → le r1 r2)
    (n fuel : Nat) : ∀ s : merge_state, merge_inv prio le P n s →
      (merge_loop w q n fuel s).out.Chain' le := by
  induction fuel with
  | zero => intro s inv; exact inv.out_chain
  | succ fuel ih =>
    intro s inv
    unfold merge_loop
    cases hs : s.heap with
    | nil => exact inv.out_chain
    | cons h t =>
      simp only
      by_cases hne : h.pos = HEAP_EMPTY
      · rw [if_pos hne]; exact inv.out_chain
      · rw [if_neg hne]
        obtain ⟨r, hb, hk, _, hlast, rs, hfp, hch, _⟩ := inv.cur h (by rw [hs]; simp) hne
        rw [hb, hfp]
        simp only
        cases hadj : ks_heapadjust (heap_lt w q) 0 n
            ((h :: t).set 0 (refill h s.idx (clean rs)).1) with
        | none =>
          simp only
          apply List.Chain'.append inv.out_chain (List.chain'_singleton r)
          intro x hx y hy
          simp only [List.head?_cons, Option.mem_def, Option.some.injEq] at hy
          subst hy
          exact hlast x hx
        | some heap1 =>
          simp only
          rw [← hs] at hadj
          exact ih _ (merge_step_inv w q prio le P hag hle n s inv h t hs hne r hb rs hfp heap1 hadj)



theorem prime_spec (le : bam1_t → bam1_t → Prop) (P : bam1_t → Prop) :
    ∀ (rss : List (List bam1_t)) (i idx : Nat),
      (∀ rs ∈ rss, rs.Chain' le) → (∀ rs ∈ rss, ∀ x ∈ rs, P x) →
      (prime_cursors (rss.map clean) i idx).1.length = rss.length ∧
      ((prime_cursors (rss.map clean) i idx).1.map fun c => c.i) = List.range' i rss.length ∧
      ∀ c ∈ (prime_cursors (rss.map clean) i idx).1, c.pos ≠ HEAP_EMPTY →
        ∃ r, c.b = bam1_buf.holds r ∧ c.pos = composite_key r ∧ P r ∧ i ≤ c.i ∧
          ∃ rs, (prime_cursors (rss.map clean) i idx).2.1[c.i - i]? = some (clean rs) ∧
            (r :: rs).Chain' le ∧ ∀ x ∈ rs, P x := by
  intro rss
  induction rss with
  | nil => intro i idx _ _; simp [prime_cursors]
  | cons rs0 rest ih =>
    intro i idx hch hP
    have hch1 : ∀ rs ∈ rest, rs.Chain' le := fun rs h => hch rs (List.mem_cons_of_mem _ h)
    have hP1 : ∀ rs ∈ rest, ∀ x ∈ rs, P x := fun rs h => hP rs (List.mem_cons_of_mem _ h)
    have shift : ∀ (c : heap1_t) (fp0 : List read_t) (fps : List (List read_t)) (v : List read_t),
        i + 1 ≤ c.i → fps[c.i - (i + 1)]? = some v → (fp0 :: fps)[c.i - i]? = some v := by
      intro c fp0 fps v hci hv
      have : c.i - i = (c.i - (i + 1)) + 1 := by omega
      rw [this, List.getElem?_cons_succ]; exact hv
    cases rs0 with
    | nil =>
      obtain ⟨h1, h2, h3⟩ := ih (i + 1) idx hch1 hP1
      simp only [List.map_cons, clean, List.map_nil, prime_cursors, List.length_cons,
        List.range'_succ, List.mem_cons]
      refine ⟨by simpa [clean] using h1, by simpa [clean] using h2, ?_⟩
      rintro c (hc | hc) hne
      · subst hc; simp at hne
      · obtain ⟨r, a1, a2, a3, a4, rs, a5, a6, a7⟩ := h3 c hc hne
        exact ⟨r, a1, a2, a3, by omega, rs, shift c _ _ _ a4 a5, a6, a7⟩
    | cons r0 rs1 =>
      obtain ⟨h1, h2, h3⟩ := ih (i + 1) ((idx + 1) % 2 ^ 64) hch1 hP1
      simp only [List.map_cons, clean, prime_cursors, List.length_cons,
        List.range'_succ, List.mem_cons]
      refine ⟨by simpa [clean] using h1, by simpa [clean] using h2, ?_⟩
      rintro c (hc | hc) hne
      · subst hc
        refine ⟨r0, rfl, rfl, hP _ (List.mem_cons_self _ _) r0 (List.mem_cons_self _ _),
          le_refl _, rs1, by simp [clean], hch _ (List.mem_cons_self _ _), ?_⟩
        intro x hx
        exact hP _ (List.mem_cons_self _ _) x (List.mem_cons_of_mem _ hx)
      · obtain ⟨r, a1, a2, a3, a4, rs, a5, a6, a7⟩ := h3 c hc hne
        exact ⟨r, a1, a2, a3, by omega, rs, shift c _ _ _ a4 a5, a6, a7⟩

theorem merge_sorted (w q : Bool) (prio : heap1_t → κ) (le : bam1_t → bam1_t → Prop)
    (P : bam1_t → Prop) (hag : lt_agrees (heap_lt w q) prio)
    (hle : ∀ x y r1 r2, x.b = bam1_buf.holds r1 → y.b = bam1_buf.holds r2 →
      x.pos = composite_key r1 → y.pos = composite_key r2 → P r1 → P r2 →
      prio x ≤ prio y → le r1 r2)
    (rss : List (List bam1_t)) (hch : ∀ rs ∈ rss, rs.Chain' le)
    (hP : ∀ rs ∈ rss, ∀ x ∈ rs, P x) :
    (bam_merge_core_ext w q (rss.map clean)).out.Chain' le := by
  unfold bam_merge_core_ext
  obtain ⟨h1, h2, h3⟩ := prime_spec le P rss 0 0 hch hP
  cases hm : ks_heapmake (heap_lt w q) (rss.map clean).length
      (prime_cursors (rss.map clean) 0 0).1 with
  | none => exact List.chain'_nil
  | some heap =>
    simp only
    apply merge_loop_sorted w q prio le P hag hle
    have hlen : (rss.map clean).length = (prime_cursors (rss.map clean) 0 0).1.length := by
      rw [h1, List.length_map]
    rw [hlen] at hm
    obtain ⟨m1, m2, m3⟩ := heapmake_spec (heap_lt w q) prio hag _ heap hm
    refine ⟨by rw [m1, h1, List.length_map], ?_, m2, List.chain'_nil, ?_⟩
    · have : (heap.map fun c => c.i).Perm (List.range' 0 rss.length) := by
        rw [← h2]; exact m3.map _
      exact (List.Perm.nodup_iff this).2 (List.nodup_range' _ _)
    · intro c hc hne
      obtain ⟨r, a1, a2, a3, _, rs, a5, a6, a7⟩ := h3 c ((List.Perm.mem_iff m3).1 hc) hne
      exact ⟨r, a1, a2, a3, by simp, rs, by simpa using a5, a6, a7⟩

end merge

/-! ## The merge loop ends and emits every record once -/

theorem sum_map_set {α M : Type} [AddCommMonoid M] (f : α → M) (l : List α) (i : Nat) (x y : α)
    (h : l[i]? = some x) : ((l.set i y).map f).sum + f x = (l.map f).sum + f y := by
  induction l generalizing i with
  | nil => simp at h
  | cons a l ih =>
    cases i with
    | zero =>
      simp at h; subst h
      simp only [List.set_cons_zero, List.map_cons, List.sum_cons]
      abel
    | succ i =>
      simp at h
      simp only [List.set_cons_succ, List.map_cons, List.sum_cons]
      rw [add_assoc, ih i h, add_assoc]

theorem inp_bag_clean (rs : List bam1_t) : inp_bag (clean rs) = ↑rs := by
  unfold inp_bag clean
  congr 1
  induction rs with
  | nil => rfl
  | cons r rs ih => simp [List.filterMap_cons, ih]

theorem refill_bag (h : heap1_t) (idx : Nat) (rs : List bam1_t) :
    cur_bag (refill h idx (clean rs)).1 + inp_bag (refill h idx (clean rs)).2.1
      = inp_bag (clean rs) := by
  cases rs with
  | nil => simp [clean, refill, cur_bag, inp_bag]
  | cons r rs =>
    have := inp_bag_clean rs
    have h2 := inp_bag_clean (r :: rs)
    simp only [clean, List.map_cons] at this h2
    simp only [clean, refill, cur_bag, List.map_cons, this, h2]
    rfl

theorem refill_turns (h : heap1_t) (idx : Nat) (inp : List read_t) (hne : h.pos ≠ HEAP_EMPTY) :
    (refill h idx inp).2.1.length
      + (if (refill h idx inp).1.pos ≠ HEAP_EMPTY then 1 else 0) < inp.length + 1 := by
  unfold refill
  split
  · simp only [List.length_cons]; split <;> omega
  · simp
  · simp [hne]



theorem composite_key_le (r : bam1_t) : composite_key r ≤ HEAP_EMPTY := by
  have h1 : (u64 r.core.tid <<< 32) % 2 ^ 64 < 2 ^ 64 := Nat.mod_lt _ (by norm_num)
  have h2 : (u32 (i32 (r.core.pos + 1)) <<< 1) % 2 ^ 32 < 2 ^ 64 :=
    lt_of_lt_of_le (Nat.mod_lt _ (by norm_num)) (by norm_num)
  have h3 : bam1_strand r < 2 ^ 64 := by
    unfold bam1_strand; split <;> norm_num
  have := Nat.or_lt_two_pow (Nat.or_lt_two_pow h1 h2) h3
  unfold composite_key HEAP_EMPTY
  omega

section merge2
variable {κ : Type} [LinearOrder κ]

theorem merge_step_perm (w q : Bool) (prio : heap1_t → κ) (le : bam1_t → bam1_t → Prop)
    (P : bam1_t → Prop) (hag : lt_agrees (heap_lt w q) prio)
    (n : Nat) (s : merge_state) (inv : merge_inv prio le P n s)
    (h : heap1_t) (t : List heap1_t) (hs : s.heap = h :: t) (h1 : heap1_t)
    (heap1 : List heap1_t)
    (hadj : ks_heapadjust (heap_lt w q) 0 n (s.heap.set 0 h1) = some heap1) :
    heap1.Perm (h1 :: t) := by
  have hlen : (s.heap.set 0 h1).length = n := by
    rw [List.length_set]; exact inv.heap_len
  rw [← hlen] at hadj
  have sp := heapadjust_spec (heap_lt w q) prio hag 0 _ heap1
    (heap_from_set_root prio s.heap _ inv.heap_ok) hadj
  have hset : s.heap.set 0 h1 = h1 :: t := by rw [hs]; rfl
  rw [hset] at sp
  exact sp.2.2

theorem merge_step_turns (w q : Bool) (prio : heap1_t → κ) (le : bam1_t → bam1_t → Prop)
    (P : bam1_t → Prop) (hag : lt_agrees (heap_lt w q) prio)
    (n : Nat) (s : merge_state) (inv : merge_inv prio le P n s)
    (h : heap1_t) (t : List heap1_t) (hs : s.heap = h :: t) (hne : h.pos ≠ HEAP_EMPTY)
    (inp : List read_t) (hfp : s.fp[h.i]? = some inp) (heap1 : List heap1_t)
    (out1 : List bam1_t)
    (hadj : ks_heapadjust (heap_lt w q) 0 n (s.heap.set 0 (refill h s.idx inp).1)
      = some heap1) :
    turns_left ⟨heap1, s.fp.set h.i (refill h s.idx inp).2.1, (refill h s.idx inp).2.2, out1⟩
      < turns_left s := by
  have hp := merge_step_perm w q prio le P hag n s inv h t hs _ heap1 hadj
  have h1 := sum_map_set List.length s.fp h.i inp (refill h s.idx inp).2.1 hfp
  have h2 := refill_turns h s.idx inp hne
  unfold turns_left
  simp only
  rw [hp.countP_eq, hs, List.countP_cons, List.countP_cons]
  simp only [hne, ne_eq, not_false_eq_true, decide_True, if_true]
  by_cases hx : (refill h s.idx inp).1.pos = HEAP_EMPTY
  · simp only [hx, ne_eq, not_true_eq_false, decide_False, Bool.false_eq_true, if_false] at h2 ⊢
    omega
  · simp only [hx, ne_eq, not_false_eq_true, decide_True, if_true] at h2 ⊢
    omega

theorem merge_loop_finishes (w q : Bool) (prio : heap1_t → κ) (le : bam1_t → bam1_t → Prop)
    (P : bam1_t → Prop) (hag : lt_agrees (heap_lt w q) prio)
    (hle : ∀ x y r1 r2, x.b = bam1_buf.holds r1 → y.b = bam1_buf.holds r2 →
      x.pos = composite_key r1 → y.pos = composite_key r2 → P r1 → P r2 →
      prio x ≤ prio y → le r1 r2)
    (n fuel : Nat) : ∀ s : merge_state, merge_inv prio le P n s → turns_left s < fuel →
      (merge_loop w q n fuel s).exit ≠ exit_t.unfinished := by
  induction fuel with
  | zero => intro s _ h; omega
  | succ fuel ih =>
    intro s inv hfuel
    unfold merge_loop
    cases hs : s.heap with
    | nil => simp
    | cons h t =>
      simp only
      by_cases hne : h.pos = HEAP_EMPTY
      · rw [if_pos hne]; simp
      · rw [if_neg hne]
        obtain ⟨r, hb, hk, _, hlast, rs, hfp, hch, _⟩ := inv.cur h (by rw [hs]; simp) hne
        rw [hb, hfp]
        simp only
        cases hadj : ks_heapadjust (heap_lt w q) 0 n
            ((h :: t).set 0 (refill h s.idx (clean rs)).1) with
        | none => simp
        | some heap1 =>
          simp only
          rw [← hs] at hadj
          apply ih _ (merge_step_inv w q prio le P hag hle n s inv h t hs hne r hb rs hfp heap1 hadj)
          have := merge_step_turns w q prio le P hag n s inv h t hs hne (clean rs) hfp heap1
            (s.out ++ [r]) hadj
          omega



theorem merge_step_inv2 (w q : Bool) (prio : heap1_t → κ) (le : bam1_t → bam1_t → Prop)
    (hag : lt_agrees (heap_lt w q) prio)
    (n : Nat) (B : Multiset bam1_t) (s : merge_state)
    (inv : merge_inv prio le (fun r => composite_key r ≠ HEAP_EMPTY) n s)
    (inv2 : merge_inv2 n B s)
    (h : heap1_t) (t : List heap1_t) (hs : s.heap = h :: t) (hne : h.pos ≠ HEAP_EMPTY)
    (r : bam1_t) (hb : h.b = bam1_buf.holds r) (rs : List bam1_t)
    (hfp : s.fp[h.i]? = some (clean rs)) (heap1 : List heap1_t)
    (hadj : ks_heapadjust (heap_lt w q) 0 n (s.heap.set 0 (refill h s.idx (clean rs)).1)
      = some heap1) :
    merge_inv2 n B ⟨heap1, s.fp.set h.i (refill h s.idx (clean rs)).2.1,
      (refill h s.idx (clean rs)).2.2, s.out ++ [r]⟩ := by
  have hp := merge_step_perm w q prio le _ hag n s inv h t hs _ heap1 hadj
  obtain ⟨r0, hb0, hk0, hP0, hlast0, rs0, hfp0, hch0, hPs0⟩ := inv.cur h (by rw [hs]; simp) hne
  rw [hfp] at hfp0
  have hrs : rs0 = rs := by
    have := Option.some.inj hfp0
    unfold clean at this
    exact (List.map_injective_iff.2 (fun a b hab => by cases hab; rfl) this).symm
  subst hrs
  have hnd : (h.i :: t.map fun c => c.i).Nodup := by
    have := inv.nodup; rw [hs] at this; simpa using this
  have hil : h.i < s.fp.length := (List.getElem?_eq_some.1 hfp).1
  have hmem : ∀ c, c ∈ heap1 ↔ c = (refill h s.idx (clean rs0)).1 ∨ c ∈ t := by
    intro c; rw [List.Perm.mem_iff hp, List.mem_cons]
  refine ⟨by simp [inv2.fp_len], ?_, ?_, ?_, ?_⟩
  · intro j hj
    obtain ⟨c, hc, hcj⟩ := inv2.all_idx j hj
    rw [hs] at hc
    rcases List.mem_cons.1 hc with e | e
    · exact ⟨_, (hmem _).2 (Or.inl rfl), by rw [refill_i, ← e]; exact hcj⟩
    · exact ⟨c, (hmem _).2 (Or.inr e), hcj⟩
  · have hb1 := inv2.bag
    unfold state_bag at hb1 ⊢
    simp only at hb1 ⊢
    have e1 : (heap1.map cur_bag).sum
        = cur_bag (refill h s.idx (clean rs0)).1 + (t.map cur_bag).sum := by
      rw [(hp.map cur_bag).sum_eq]; simp
    have e2 := sum_map_set inp_bag s.fp h.i _ (refill h s.idx (clean rs0)).2.1 hfp
    have e3 := refill_bag h s.idx rs0
    have e4 : (s.heap.map cur_bag).sum = {r} + (t.map cur_bag).sum := by
      rw [hs]; simp [cur_bag, hb]
    have e5 : ((s.out ++ [r] : List bam1_t) : Multiset bam1_t) = ↑s.out + {r} := by
      rw [← Multiset.coe_add]; rfl
    rw [← hb1, e1, e4, e5]
    apply add_right_cancel (b := inp_bag (clean rs0))
    rw [add_assoc _ _ (inp_bag (clean rs0)), e2, ← e3]
    abel
  · intro c hc hce
    rcases (hmem c).1 hc with e | e
    · subst e
      cases rs0 with
      | nil =>
        refine ⟨by simp [clean, refill], ?_⟩
        simp only [clean, refill, List.map_nil]
        exact List.getElem?_set_self hil
      | cons r1 rs1 =>
        exfalso
        have := hPs0 r1 (List.mem_cons_self _ _)
        simp [clean, refill] at hce
        exact this hce
    · have hcs : c ∈ s.heap := by rw [hs]; exact List.mem_cons_of_mem _ e
      have hci : h.i ≠ c.i := by
        intro e2
        apply (List.nodup_cons.1 hnd).1
        rw [e2]
        exact List.mem_map_of_mem (fun c => c.i) e
      refine ⟨(inv2.exh c hcs hce).1, ?_⟩
      simp only
      rw [List.getElem?_set_ne hci]
      exact (inv2.exh c hcs hce).2
  · intro c hc
    rcases (hmem c).1 hc with e | e
    · subst e
      cases rs0 with
      | nil => simp [clean, refill]
      | cons r1 rs1 => simp only [clean, refill, List.map_cons]; exact composite_key_le r1
    · exact inv2.bound c (by rw [hs]; exact List.mem_cons_of_mem _ e)

/-- When the loop stops every cursor is exhausted and the output holds all the records. -/
theorem merge_inv2_exit (prio : heap1_t → κ) (le : bam1_t → bam1_t → Prop)
    (hexh : ∀ x y : heap1_t, x.pos = HEAP_EMPTY → (∀ r, x.b ≠ bam1_buf.holds r) → prio x ≤ prio y →
      y.pos ≤ HEAP_EMPTY → y.pos = HEAP_EMPTY ∨ ∀ r, y.b ≠ bam1_buf.holds r)
    (n : Nat) (B : Multiset bam1_t) (s : merge_state)
    (inv : merge_inv prio le (fun r => composite_key r ≠ HEAP_EMPTY) n s)
    (inv2 : merge_inv2 n B s)
    (h : heap1_t) (t : List heap1_t) (hs : s.heap = h :: t) (he : h.pos = HEAP_EMPTY) :
    (↑s.out : Multiset bam1_t) = B := by
  have hroot : s.heap[0]? = some h := by rw [hs]; simp
  have hall : ∀ c ∈ s.heap, c.pos = HEAP_EMPTY := by
    intro c hc
    obtain ⟨k, hk⟩ := List.mem_iff_getElem?.1 hc
    have hp := heap_root_le prio s.heap inv.heap_ok h hroot k c hk
    by_contra hcne
    rcases hexh h c he (inv2.exh h (by rw [hs]; simp) he).1 hp (inv2.bound c hc) with e | e
    · exact hcne e
    · obtain ⟨r, hb, _⟩ := inv.cur c hc hcne
      exact e r hb
  have z1 : (s.heap.map cur_bag).sum = 0 := by
    apply List.sum_eq_zero
    intro x hx
    obtain ⟨c, hc, rfl⟩ := List.mem_map.1 hx
    have := (inv2.exh c hc (hall c hc)).1
    unfold cur_bag
    split
    · rename_i r hr; exact absurd hr (this r)
    · rfl
  have z2 : (s.fp.map inp_bag).sum = 0 := by
    apply List.sum_eq_zero
    intro x hx
    obtain ⟨inp, hinp, rfl⟩ := List.mem_map.1 hx
    obtain ⟨j, hj⟩ := List.mem_iff_getElem?.1 hinp
    have hjn : j < n := by rw [← inv2.fp_len]; exact (List.getElem?_eq_some.1 hj).1
    obtain ⟨c, hc, hcj⟩ := inv2.all_idx j hjn
    have := (inv2.exh c hc (hall c hc)).2
    rw [hcj, hj] at this
    cases this
    rfl
  have := inv2.bag
  unfold state_bag at this
  rw [z1, z2, add_zero, add_zero] at this
  exact this

theorem merge_loop_bag (w q : Bool) (prio : heap1_t → κ) (le : bam1_t → bam1_t → Prop)
    (hag : lt_agrees (heap_lt w q) prio)
    (hle : ∀ x y r1 r2, x.b = bam1_buf.holds r1 → y.b = bam1_buf.holds r2 →
      x.pos = composite_key r1 → y.pos = composite_key r2 → composite_key r1 ≠ HEAP_EMPTY →
      composite_key r2 ≠ HEAP_EMPTY → prio x ≤ prio y → le r1 r2)
    (hexh : ∀ x y : heap1_t, x.pos = HEAP_EMPTY → (∀ r, x.b ≠ bam1_buf.holds r) → prio x ≤ prio y →
      y.pos ≤ HEAP_EMPTY → y.pos = HEAP_EMPTY ∨ ∀ r, y.b ≠ bam1_buf.holds r)
    (n : Nat) (B : Multiset bam1_t) (fuel : Nat) : ∀ s : merge_state,
      merge_inv prio le (fun r => composite_key r ≠ HEAP_EMPTY) n s → merge_inv2 n B s →
      (merge_loop w q n fuel s).exit = exit_t.returned 0 →
      (↑(merge_loop w q n fuel s).out : Multiset bam1_t) = B := by
  induction fuel with
  | zero => intro s _ _ h; simp [merge_loop] at h
  | succ fuel ih =>
    intro s inv inv2
    unfold merge_loop
    cases hs : s.heap with
    | nil => simp
    | cons h t =>
      simp only
      by_cases hne : h.pos = HEAP_EMPTY
      · rw [if_pos hne]
        intro _
        exact merge_inv2_exit prio le hexh n B s inv inv2 h t hs hne
      · rw [if_neg hne]
        obtain ⟨r, hb, hk, _, hlast, rs, hfp, hch, _⟩ := inv.cur h (by rw [hs]; simp) hne
        rw [hb, hfp]
        simp only
        cases hadj : ks_heapadjust (heap_lt w q) 0 n
            ((h :: t).set 0 (refill h s.idx (clean rs)).1) with
        | none => simp
        | some heap1 =>
          simp only
          rw [← hs] at hadj
          exact ih _
            (merge_step_inv w q prio le _ hag hle n s inv h t hs hne r hb rs hfp heap1 hadj)
            (merge_step_inv2 w q prio le hag n B s inv inv2 h t hs hne r hb rs hfp heap1 hadj)



theorem chain_true (l : List bam1_t) : l.Chain' (fun _ _ => True) := by
  induction l with
  | nil => exact List.chain'_nil
  | cons a l ih =>
    cases l with
    | nil => exact List.chain'_singleton a
    | cons b l => exact List.chain'_cons.2 ⟨trivial, ih⟩

theorem prime_spec2 :
    ∀ (rss : List (List bam1_t)) (i idx : Nat),
      (∀ rs ∈ rss, ∀ x ∈ rs, composite_key x ≠ HEAP_EMPTY) →
      (prime_cursors (rss.map clean) i idx).2.1.length = rss.length ∧
      ((prime_cursors (rss.map clean) i idx).1.map cur_bag).sum
        + ((prime_cursors (rss.map clean) i idx).2.1.map inp_bag).sum = ↑rss.flatten ∧
      (∀ c ∈ (prime_cursors (rss.map clean) i idx).1, c.pos = HEAP_EMPTY →
        (∀ r, c.b ≠ bam1_buf.holds r) ∧ i ≤ c.i ∧
          (prime_cursors (rss.map clean) i idx).2.1[c.i - i]? = some []) ∧
      (∀ c ∈ (prime_cursors (rss.map clean) i idx).1, c.pos ≤ HEAP_EMPTY) := by
  intro rss
  induction rss with
  | nil => intro i idx _; simp [prime_cursors]
  | cons rs0 rest ih =>
    intro i idx hP
    have hP1 : ∀ rs ∈ rest, ∀ x ∈ rs, composite_key x ≠ HEAP_EMPTY :=
      fun rs h => hP rs (List.mem_cons_of_mem _ h)
    have shift : ∀ (c : heap1_t) (fp0 : List read_t) (fps : List (List read_t)) (v : List read_t),
        i + 1 ≤ c.i → fps[c.i - (i + 1)]? = some v → (fp0 :: fps)[c.i - i]? = some v := by
      intro c fp0 fps v hci hv
      have : c.i - i = (c.i - (i + 1)) + 1 := by omega
      rw [this, List.getElem?_cons_succ]; exact hv
    cases rs0 with
    | nil =>
      obtain ⟨h1, h2, h3, h4⟩ := ih (i + 1) idx hP1
      simp only [List.map_cons, clean, List.map_nil, prime_cursors, List.length_cons,
        List.mem_cons, List.sum_cons, List.flatten_cons, List.nil_append]
      refine ⟨by simpa [clean] using h1, ?_, ?_, ?_⟩
      · have : cur_bag { i := i, pos := HEAP_EMPTY, idx := 0, b := bam1_buf.zeroed } = 0 := rfl
        rw [this]
        have : inp_bag [] = 0 := rfl
        rw [this, zero_add, zero_add]
        simpa [clean] using h2
      · rintro c (hc | hc) he
        · subst hc; simp
        · obtain ⟨a1, a2, a3⟩ := h3 c hc he
          exact ⟨a1, by omega, shift c _ _ _ a2 a3⟩
      · rintro c (hc | hc)
        · subst hc; exact le_refl _
        · exact h4 c hc
    | cons r0 rs1 =>
      obtain ⟨h1, h2, h3, h4⟩ := ih (i + 1) ((idx + 1) % 2 ^ 64) hP1
      simp only [List.map_cons, clean, prime_cursors, List.length_cons,
        List.mem_cons, List.sum_cons, List.flatten_cons]
      refine ⟨by simpa [clean] using h1, ?_, ?_, ?_⟩
      · have e1 : cur_bag { i := i, pos := composite_key r0, idx := idx, b := bam1_buf.holds r0 }
            = {r0} := rfl
        have e2 := inp_bag_clean rs1
        simp only [clean] at e2 h2
        rw [e1, e2]
        have e3 : ((r0 :: rs1 ++ rest.flatten : List bam1_t) : Multiset bam1_t)
            = {r0} + ↑rs1 + ↑rest.flatten := by
          rw [← Multiset.coe_add, ← Multiset.cons_coe, ← Multiset.singleton_add]
        rw [e3, ← h2]
        abel
      · rintro c (hc | hc) he
        · subst hc
          exact absurd he (hP _ (List.mem_cons_self _ _) r0 (List.mem_cons_self _ _))
        · obtain ⟨a1, a2, a3⟩ := h3 c hc he
          exact ⟨a1, by omega, shift c _ _ _ a2 a3⟩
      · rintro c (hc | hc)
        · subst hc; exact composite_key_le r0
        · exact h4 c hc

theorem prime_turns : ∀ (inputs : List (List read_t)) (i idx : Nat),
    ((prime_cursors inputs i idx).2.1.map List.length).sum ≤ (inputs.map List.length).sum ∧
      (prime_cursors inputs i idx).1.length = inputs.length := by
  intro inputs
  induction inputs with
  | nil => intro i idx; simp [prime_cursors]
  | cons s rest ih =>
    intro i idx
    unfold prime_cursors
    split
    · have := ih (i + 1) ((idx + 1) % 2 ^ 64)
      simp only [List.map_cons, List.sum_cons, List.length_cons]
      omega
    · have := ih (i + 1) idx
      simp only [List.map_cons, List.sum_cons, List.length_cons]
      omega
    · have := ih (i + 1) idx
      simp only [List.map_cons, List.sum_cons, List.length_cons, List.length_nil]
      omega

theorem merge_init_inv (w q : Bool) (prio : heap1_t → κ) (le : bam1_t → bam1_t → Prop)
    (P : bam1_t → Prop) (hag : lt_agrees (heap_lt w q) prio)
    (rss : List (List bam1_t)) (hch : ∀ rs ∈ rss, rs.Chain' le)
    (hP : ∀ rs ∈ rss, ∀ x ∈ rs, P x) (heap : List heap1_t)
    (hm : ks_heapmake (heap_lt w q) (rss.map clean).length
      (prime_cursors (rss.map clean) 0 0).1 = some heap) :
    heap.Perm (prime_cursors (rss.map clean) 0 0).1 ∧
    merge_inv prio le P (rss.map clean).length
      ⟨heap, (prime_cursors (rss.map clean) 0 0).2.1, (prime_cursors (rss.map clean) 0 0).2.2, []⟩ := by
  obtain ⟨h1, h2, h3⟩ := prime_spec le P rss 0 0 hch hP
  have hlen : (rss.map clean).length = (prime_cursors (rss.map clean) 0 0).1.length := by
    rw [h1, List.length_map]
  rw [hlen] at hm
  obtain ⟨m1, m2, m3⟩ := heapmake_spec (heap_lt w q) prio hag _ heap hm
  refine ⟨m3, by rw [m1, h1, List.length_map], ?_, m2, List.chain'_nil, ?_⟩
  · have : (heap.map fun c => c.i).Perm (List.range' 0 rss.length) := by
      rw [← h2]; exact m3.map _
    exact (List.Perm.nodup_iff this).2 (List.nodup_range' _ _)
  · intro c hc hne
    obtain ⟨r, a1, a2, a3, _, rs, a5, a6, a7⟩ := h3 c ((List.Perm.mem_iff m3).1 hc) hne
    exact ⟨r, a1, a2, a3, by simp, rs, by simpa using a5, a6, a7⟩

theorem merge_finishes_gen (w q : Bool) (prio : heap1_t → κ)
    (hag : lt_agrees (heap_lt w q) prio) (rss : List (List bam1_t)) :
    (bam_merge_core_ext w q (rss.map clean)).exit ≠ exit_t.unfinished := by
  unfold bam_merge_core_ext
  cases hm : ks_heapmake (heap_lt w q) (rss.map clean).length
      (prime_cursors (rss.map clean) 0 0).1 with
  | none => simp
  | some heap =>
    simp only
    obtain ⟨hp, inv⟩ := merge_init_inv w q prio (fun _ _ => True) (fun _ => True) hag rss
      (fun rs _ => chain_true rs)
      (fun _ _ _ _ => trivial) heap hm
    apply merge_loop_finishes w q prio (fun _ _ => True) (fun _ => True) hag
      (fun _ _ _ _ _ _ _ _ _ _ _ => trivial) _ _ _ inv
    have t1 := prime_turns (rss.map clean) 0 0
    unfold turns_left
    simp only
    have : heap.countP (fun c => decide (c.pos ≠ HEAP_EMPTY)) ≤ heap.length :=
      List.countP_le_length _
    rw [hp.length_eq, t1.2] at this
    omega

theorem merge_perm_gen (w q : Bool) (prio : heap1_t → κ)
    (hag : lt_agrees (heap_lt w q) prio)
    (hexh : ∀ x y : heap1_t, x.pos = HEAP_EMPTY → (∀ r, x.b ≠ bam1_buf.holds r) → prio x ≤ prio y →
      y.pos ≤ HEAP_EMPTY → y.pos = HEAP_EMPTY ∨ ∀ r, y.b ≠ bam1_buf.holds r)
    (rss : List (List bam1_t))
    (hP : ∀ rs ∈ rss, ∀ x ∈ rs, composite_key x ≠ HEAP_EMPTY)
    (hret : (bam_merge_core_ext w q (rss.map clean)).exit = exit_t.returned 0) :
    (bam_merge_core_ext w q (rss.map clean)).out.Perm rss.flatten := by
  unfold bam_merge_core_ext at hret ⊢
  cases hm : ks_heapmake (heap_lt w q) (rss.map clean).length
      (prime_cursors (rss.map clean) 0 0).1 with
  | none => rw [hm] at hret; simp at hret
  | some heap =>
    rw [hm] at hret
    simp only at hret ⊢
    obtain ⟨hp, inv⟩ := merge_init_inv w q prio (fun _ _ => True)
      (fun r => composite_key r ≠ HEAP_EMPTY) hag rss
      (fun rs _ => chain_true rs)
      hP heap hm
    obtain ⟨p1, p2, p3, p4⟩ := prime_spec2 rss 0 0 hP
    have hh := prime_spec (fun _ _ => True) (fun _ => True) rss 0 0
      (fun rs _ => chain_true rs)
      (fun _ _ _ _ => trivial)
    have inv2 : merge_inv2 (rss.map clean).length ↑rss.flatten
        ⟨heap, (prime_cursors (rss.map clean) 0 0).2.1,
          (prime_cursors (rss.map clean) 0 0).2.2, []⟩ := by
      refine ⟨by rw [p1, List.length_map], ?_, ?_, ?_, ?_⟩
      · intro j hj
        have : j ∈ (heap.map fun c => c.i) := by
          rw [List.Perm.mem_iff (hp.map _), hh.2.1]
          simp only [List.length_map] at hj
          simp [List.mem_range', hj]
        obtain ⟨c, hc, hcj⟩ := List.mem_map.1 this
        exact ⟨c, hc, hcj⟩
      · unfold state_bag
        simp only [Multiset.coe_nil, zero_add]
        rw [(hp.map cur_bag).sum_eq]
        exact p2
      · intro c hc he
        obtain ⟨a1, _, a3⟩ := p3 c ((List.Perm.mem_iff hp).1 hc) he
        exact ⟨a1, by simpa using a3⟩
      · intro c hc
        exact p4 c ((List.Perm.mem_iff hp).1 hc)
    have := merge_loop_bag w q prio (fun _ _ => True) hag
      (fun _ _ _ _ _ _ _ _ _ _ _ => trivial) hexh _ _ _ _ inv inv2 hret
    exact Multiset.coe_eq_coe.1 this

end merge2

/-! ## C1: the merge emits a sorted sequence -/

theorem pos_prio_le (x y : heap1_t) (h : pos_prio x ≤ pos_prio y) : x.pos ≤ y.pos := by
  unfold pos_prio at h
  rcases (Prod.Lex.le_iff _ _).1 h with h1 | h1
  · exact le_of_lt h1
  · exact le_of_eq h1.1

theorem qname_prio_le (w : Bool) (x y : heap1_t) (r1 r2 : bam1_t)
    (hx : x.b = bam1_buf.holds r1) (hy : y.b = bam1_buf.holds r2)
    (h : qname_prio w x ≤ qname_prio w y) : bam1_lt w true r2 r1 = false := by
  simp only [qname_prio, hx, hy, WithTop.coe_le_coe] at h
  cases hb : bam1_lt w true r2 r1 with
  | false => rfl
  | true => exact absurd ((bam1_lt_qname_iff w r2 r1).1 hb) (not_lt.2 h)

theorem merge_sorted_modes (w q : Bool) (inputs : List (List bam1_t))
    (hs : ∀ rs ∈ inputs, rs.Chain' (merge_le w q)) :
    (bam_merge_core_ext w q (inputs.map clean)).out.Chain' (merge_le w q) := by
  cases q with
  | false =>
    apply merge_sorted w false pos_prio (merge_le w false) (fun _ => True)
      (heap_lt_pos_agrees w) ?_ inputs hs (fun _ _ _ _ => trivial)
    intro x y r1 r2 _ _ h1 h2 _ _ hp
    simp only [merge_le, Bool.false_eq_true, if_false]
    rw [← h1, ← h2]
    exact pos_prio_le x y hp
  | true =>
    apply merge_sorted w true (qname_prio w) (merge_le w true) (fun _ => True)
      (heap_lt_qname_agrees w) ?_ inputs hs (fun _ _ _ _ => trivial)
    intro x y r1 r2 hx hy _ _ _ _ hp
    simp only [merge_le, if_true]
    exact qname_prio_le w x y r1 r2 hx hy hp

theorem merge_finishes (w q : Bool) (inputs : List (List bam1_t)) :
    (bam_merge_core_ext w q (inputs.map clean)).exit ≠ exit_t.unfinished := by
  cases q with
  | false => exact merge_finishes_gen w false pos_prio (heap_lt_pos_agrees w) inputs
  | true => exact merge_finishes_gen w true (qname_prio w) (heap_lt_qname_agrees w) inputs

theorem merge_perm (w q : Bool) (inputs : List (List bam1_t))
    (hP : ∀ rs ∈ inputs, ∀ x ∈ rs, composite_key x ≠ HEAP_EMPTY)
    (hret : (bam_merge_core_ext w q (inputs.map clean)).exit = exit_t.returned 0) :
    (bam_merge_core_ext w q (inputs.map clean)).out.Perm inputs.flatten := by
  cases q with
  | false =>
    apply merge_perm_gen w false pos_prio (heap_lt_pos_agrees w) ?_ inputs hP hret
    intro x y hx _ hp hy
    have := pos_prio_le x y hp
    left; omega
  | true =>
    apply merge_perm_gen w true (qname_prio w) (heap_lt_qname_agrees w) ?_ inputs hP hret
    intro x y _ hx hp _
    right
    intro r hr
    have hxt : qname_prio w x = ⊤ := by
      unfold qname_prio
      split
      · rename_i r0 h0; exact absurd h0 (hx r0)
      · rfl
    rw [hxt] at hp
    simp [qname_prio, hr] at hp

/-- C1: for every list of record sequences that are each non-decreasing under the active
order (composite key in positional mode, the query-name order in query-name mode), read
without region and without truncation, the sequence that the merge loop of
`bam_merge_core_ext` emits is non-decreasing under the same order, and the loop ends
within the turns the embedding allows. -/
theorem merge_output_sorted (ignore_warts by_qname : Bool) (inputs : List (List bam1_t))
    (hs : ∀ rs ∈ inputs, rs.Chain' (merge_le ignore_warts by_qname)) :
    (bam_merge_core_ext ignore_warts by_qname (inputs.map clean)).out.Chain'
        (merge_le ignore_warts by_qname) ∧
      (bam_merge_core_ext ignore_warts by_qname (inputs.map clean)).exit ≠ exit_t.unfinished :=
  ⟨merge_sorted_modes ignore_warts by_qname inputs hs, merge_finishes ignore_warts by_qname inputs⟩

theorem merge_output_sorted_witness :
    (∀ rs ∈ [[(⟨⟨0, 1, 0⟩, ['a'], []⟩ : bam1_t), ⟨⟨0, 5, 16⟩, ['b'], []⟩],
        [⟨⟨0, 2, 0⟩, ['a'], []⟩, ⟨⟨1, 0, 0⟩, ['c'], []⟩]],
      rs.Chain' (merge_le false false)) ∧
    (bam_merge_core_ext false false
      ([[(⟨⟨0, 1, 0⟩, ['a'], []⟩ : bam1_t), ⟨⟨0, 5, 16⟩, ['b'], []⟩],
        [⟨⟨0, 2, 0⟩, ['a'], []⟩, ⟨⟨1, 0, 0⟩, ['c'], []⟩]].map clean)).out.Chain'
        (merge_le false false) ∧
      (bam_merge_core_ext false false
      ([[(⟨⟨0, 1, 0⟩, ['a'], []⟩ : bam1_t), ⟨⟨0, 5, 16⟩, ['b'], []⟩],
        [⟨⟨0, 2, 0⟩, ['a'], []⟩, ⟨⟨1, 0, 0⟩, ['c'], []⟩]].map clean)).exit ≠ exit_t.unfinished :=
  ⟨by simp only [List.mem_cons, List.mem_singleton, List.not_mem_nil, or_false,
      forall_eq_or_imp, forall_eq, List.chain'_cons, List.chain'_singleton, and_true]; decide,
    merge_output_sorted false false _ (by
      simp only [List.mem_cons, List.mem_singleton, List.not_mem_nil, or_false,
        forall_eq_or_imp, forall_eq, List.chain'_cons, List.chain'_singleton, and_true]
      decide)⟩

/-! ## `ks_mergesort` sorts, keeps every element, and leaves a sorted array alone -/

section msort
variable {α κ : Type} [LinearOrder κ]

theorem not_lt_iff_key (lt : α → α → Bool) (key : α → κ) (hk : lt_by_key lt key) (a b : α) :
    (!lt b a) = true ↔ key a ≤ key b := by
  rw [Bool.not_eq_true', ← not_lt, ← hk b a, Bool.not_eq_true]

theorem le_trans_of_key (lt : α → α → Bool) (key : α → κ) (hk : lt_by_key lt key) :
    ∀ a b c : α, (!lt b a) = true → (!lt c b) = true → (!lt c a) = true := by
  intro a b c h1 h2
  rw [not_lt_iff_key lt key hk] at h1 h2 ⊢
  exact le_trans h1 h2

theorem le_total_of_key (lt : α → α → Bool) (key : α → κ) (hk : lt_by_key lt key) :
    ∀ a b : α, ((!lt b a) || (!lt a b)) = true := by
  intro a b
  rw [Bool.or_eq_true, not_lt_iff_key lt key hk, not_lt_iff_key lt key hk]
  exact le_total _ _

theorem ks_merge_eq (lt : α → α → Bool) : ∀ (fuel : Nat) (xs ys : List α),
    xs.length + ys.length ≤ fuel → ks_merge lt fuel xs ys = xs.merge ys (fun a b => !lt b a) := by
  intro fuel
  induction fuel with
  | zero =>
    intro xs ys h
    have h1 : xs = [] := List.length_eq_zero.1 (by omega)
    have h2 : ys = [] := List.length_eq_zero.1 (by omega)
    subst h1 h2
    simp [ks_merge]
  | succ fuel ih =>
    intro xs ys h
    cases xs with
    | nil => simp [ks_merge]
    | cons x xs =>
      cases ys with
      | nil => simp [ks_merge]
      | cons y ys =>
        simp only [List.length_cons] at h
        rw [List.cons_merge_cons]
        simp only [ks_merge]
        cases hlt : lt y x with
        | true =>
          simp only [if_true, Bool.not_true, Bool.false_eq_true, if_false]
          rw [ih _ _ (by simp only [List.length_cons]; omega)]
        | false =>
          simp only [Bool.false_eq_true, if_false, Bool.not_false, if_true]
          rw [ih _ _ (by simp only [List.length_cons]; omega)]

theorem merge_pass_perm (lt : α → α → Bool) : ∀ runs : List (List α),
    (ks_merge_pass lt runs).flatten.Perm runs.flatten
  | [] => by simp [ks_merge_pass]
  | [a] => by simp [ks_merge_pass]
  | a :: b :: rest => by
    simp only [ks_merge_pass, List.flatten_cons]
    rw [← List.append_assoc, ks_merge_eq lt _ a b (le_refl _)]
    exact List.Perm.append (List.merge_perm_append _) (merge_pass_perm lt rest)

theorem merge_pass_sorted (lt : α → α → Bool) (key : α → κ) (hk : lt_by_key lt key) :
    ∀ runs : List (List α), (∀ r ∈ runs, r.Pairwise (fun x y => (!lt y x) = true)) →
      ∀ r ∈ ks_merge_pass lt runs, r.Pairwise (fun x y => (!lt y x) = true)
  | [], _ => by simp [ks_merge_pass]
  | [a], h => by simpa [ks_merge_pass] using h
  | a :: b :: rest, h => by
    intro r hr
    simp only [ks_merge_pass, List.mem_cons] at hr
    rcases hr with hr | hr
    · subst hr
      rw [ks_merge_eq lt _ a b (le_refl _)]
      exact List.sorted_merge (le_trans_of_key lt key hk) (le_total_of_key lt key hk) a b
        (h a (by simp)) (h b (by simp))
    · exact merge_pass_sorted lt key hk rest (fun r hr => h r (by simp [hr])) r hr

theorem merge_pass_length (lt : α → α → Bool) : ∀ runs : List (List α),
    (ks_merge_pass lt runs).length = (runs.length + 1) / 2
  | [] => by simp [ks_merge_pass]
  | [a] => by simp [ks_merge_pass]
  | a :: b :: rest => by
    simp only [ks_merge_pass, List.length_cons, merge_pass_length lt rest]
    omega

theorem merge_pass_id (lt : α → α → Bool) : ∀ runs : List (List α),
    runs.flatten.Pairwise (fun x y => (!lt y x) = true) →
      (ks_merge_pass lt runs).flatten = runs.flatten
  | [], _ => by simp [ks_merge_pass]
  | [a], _ => by simp [ks_merge_pass]
  | a :: b :: rest, h => by
    simp only [ks_merge_pass, List.flatten_cons] at h ⊢
    have h1 : ∀ x y, x ∈ a → y ∈ b → (!lt y x) = true := by
      intro x y hx hy
      exact (List.pairwise_append.1 h).2.2 x hx y (List.mem_append_left _ hy)
    have h2 := (List.pairwise_append.1 (List.pairwise_append.1 h).2.1).2.1
    rw [ks_merge_eq lt _ a b (le_refl _), List.merge_of_le h1, merge_pass_id lt rest h2,
      List.append_assoc]

theorem merge_passes_spec (lt : α → α → Bool) (key : α → κ) (hk : lt_by_key lt key) (fuel : Nat) :
    ∀ runs : List (List α), runs.length ≤ fuel + 1 →
      (∀ r ∈ runs, r.Pairwise (fun x y => (!lt y x) = true)) →
      (ks_merge_passes lt fuel runs).length ≤ 1 ∧
      (∀ r ∈ ks_merge_passes lt fuel runs, r.Pairwise (fun x y => (!lt y x) = true)) ∧
      (ks_merge_passes lt fuel runs).flatten.Perm runs.flatten ∧
      (runs.flatten.Pairwise (fun x y => (!lt y x) = true) →
        (ks_merge_passes lt fuel runs).flatten = runs.flatten) := by
  induction fuel with
  | zero =>
    intro runs hl hs
    unfold ks_merge_passes
    exact ⟨by omega, hs, List.Perm.refl _, fun _ => rfl⟩
  | succ fuel ih =>
    intro runs hl hs
    unfold ks_merge_passes
    by_cases h1 : runs.length ≤ 1
    · rw [if_pos h1]
      exact ⟨h1, hs, List.Perm.refl _, fun _ => rfl⟩
    · rw [if_neg h1]
      have hlen := merge_pass_length lt runs
      obtain ⟨a1, a2, a3, a4⟩ := ih (ks_merge_pass lt runs) (by omega)
        (merge_pass_sorted lt key hk runs hs)
      refine ⟨a1, a2, a3.trans (merge_pass_perm lt runs), ?_⟩
      intro hp
      have e := merge_pass_id lt runs hp
      rw [a4 (by rw [e]; exact hp), e]

theorem flatten_singletons (l : List α) : (l.map fun x => [x]).flatten = l := by
  induction l with
  | nil => rfl
  | cons a l ih => simp [ih]

theorem ks_mergesort_perm (lt : α → α → Bool) (key : α → κ) (hk : lt_by_key lt key)
    (l : List α) : (ks_mergesort lt l).Perm l := by
  unfold ks_mergesort
  have := (merge_passes_spec lt key hk l.length (l.map fun x => [x]) (by simp)
    (by intro r hr; obtain ⟨x, _, rfl⟩ := List.mem_map.1 hr; exact List.pairwise_singleton _ _)).2.2.1
  rwa [flatten_singletons] at this

theorem ks_mergesort_sorted (lt : α → α → Bool) (key : α → κ) (hk : lt_by_key lt key)
    (l : List α) : (ks_mergesort lt l).Pairwise (fun x y => (!lt y x) = true) := by
  unfold ks_mergesort
  obtain ⟨a1, a2, _, _⟩ := merge_passes_spec lt key hk l.length (l.map fun x => [x]) (by simp)
    (by intro r hr; obtain ⟨x, _, rfl⟩ := List.mem_map.1 hr; exact List.pairwise_singleton _ _)
  generalize ks_merge_passes lt l.length (l.map fun x => [x]) = res at a1 a2
  match res, a1, a2 with
  | [], _, _ => simp
  | [r], _, a2 => simpa using a2 r (by simp)
  | _ :: _ :: _, a1, _ => simp at a1

theorem ks_mergesort_of_sorted (lt : α → α → Bool) (key : α → κ) (hk : lt_by_key lt key)
    (l : List α) (hs : l.Pairwise (fun x y => (!lt y x) = true)) : ks_mergesort lt l = l := by
  unfold ks_mergesort
  have := (merge_passes_spec lt key hk l.length (l.map fun x => [x]) (by simp)
    (by intro r hr; obtain ⟨x, _, rfl⟩ := List.mem_map.1 hr; exact List.pairwise_singleton _ _)).2.2.2
  rw [flatten_singletons] at this
  exact this hs

end msort

/-! ## The positional keys of records in range -/

theorem tid_word (t : Int) (h1 : -1 ≤ t) (h2 : t < 2 ^ 31) :
    (u64 t <<< 32) % 2 ^ 64 = 2 ^ 32 * u32 t ∧ u32 t < 2 ^ 32 := by
  unfold u64 u32
  rw [Nat.shiftLeft_eq]
  rcases (show t = -1 ∨ 0 ≤ t by omega) with h | h
  · subst h; decide
  · constructor <;> omega

theorem sort_key_eq (r : bam1_t) (h : in_range r) :
    sort_key r = 2 ^ 32 * u32 r.core.tid + (r.core.pos + 1).toNat := by
  obtain ⟨h1, h2, h3, h4⟩ := h
  unfold sort_key
  rw [(tid_word _ h1 h2).1]
  have e : u64 (i32 (r.core.pos + 1)) = (r.core.pos + 1).toNat := by
    unfold u64 i32; omega
  rw [e]
  exact (Nat.mul_add_lt_is_or (by omega) _).symm

theorem composite_key_eq (r : bam1_t) (h : in_range r) :
    composite_key r = 2 ^ 32 * u32 r.core.tid + (2 * (r.core.pos + 1).toNat + bam1_strand r) := by
  obtain ⟨h1, h2, h3, h4⟩ := h
  unfold composite_key
  rw [(tid_word _ h1 h2).1]
  have e : (u32 (i32 (r.core.pos + 1)) <<< 1) % 2 ^ 32 = 2 ^ 1 * (r.core.pos + 1).toNat := by
    unfold u32 i32; rw [Nat.shiftLeft_eq]; omega
  have hs : bam1_strand r < 2 ^ 1 := by unfold bam1_strand; split <;> norm_num
  rw [e, Nat.lor_assoc, ← Nat.mul_add_lt_is_or hs]
  have hb : 2 ^ 1 * (r.core.pos + 1).toNat + bam1_strand r < 2 ^ 32 := by omega
  rw [← Nat.mul_add_lt_is_or hb]
  omega

theorem sort_key_le_iff (a b : bam1_t) (ha : in_range a) (hb : in_range b) :
    sort_key a ≤ sort_key b ↔ tid_pos_le a b := by
  rw [sort_key_eq a ha, sort_key_eq b hb]
  obtain ⟨a1, a2, a3, a4⟩ := ha
  obtain ⟨b1, b2, b3, b4⟩ := hb
  have := (tid_word _ a1 a2).2
  have := (tid_word _ b1 b2).2
  unfold tid_pos_le
  omega

theorem composite_key_le_sort_key (a b : bam1_t) (ha : in_range a) (hb : in_range b)
    (h : composite_key a ≤ composite_key b) : sort_key a ≤ sort_key b := by
  rw [composite_key_eq a ha, composite_key_eq b hb] at h
  rw [sort_key_eq a ha, sort_key_eq b hb]
  obtain ⟨a1, a2, a3, a4⟩ := ha
  obtain ⟨b1, b2, b3, b4⟩ := hb
  have : bam1_strand a < 2 := by unfold bam1_strand; split <;> norm_num
  have : bam1_strand b < 2 := by unfold bam1_strand; split <;> norm_num
  omega

/-! ## The run generator and the sort driver -/

theorem bam1_lt_pos_key (w : Bool) : lt_by_key (bam1_lt w false) sort_key := by
  intro a b; simp [bam1_lt]

theorem bam1_lt_qname_key (w : Bool) : lt_by_key (bam1_lt w true) (rec_key w) :=
  fun a b => bam1_lt_qname_iff w a b

theorem run_loop_spec (lt : bam1_t → bam1_t → Bool) (m : Nat) :
    ∀ (input : List (bam1_t × Nat)) (mem : Nat) (buf : List bam1_t) (runs : List (List bam1_t))
      (res : List (List bam1_t) × List bam1_t),
      run_loop lt m input mem buf runs = some res →
      ∃ chunks : List (List bam1_t), res.1 = runs ++ chunks.map (ks_mergesort lt) ∧
        chunks.flatten ++ res.2 = buf ++ input.map Prod.fst := by
  intro input
  induction input with
  | nil =>
    intro mem buf runs res h
    unfold run_loop at h
    split at h
    · cases h; exact ⟨[], by simp, by simp⟩
    · cases h
  | cons x rest ih =>
    intro mem buf runs res h
    obtain ⟨b, ret⟩ := x
    unfold run_loop at h
    split at h
    · split at h
      · obtain ⟨chunks, c1, c2⟩ := ih _ _ _ _ h
        refine ⟨(buf ++ [b]) :: chunks, ?_, ?_⟩
        · rw [c1]; simp
        · simp only [List.flatten_cons, List.map_cons, List.append_assoc]
          rw [c2]; simp
      · obtain ⟨chunks, c1, c2⟩ := ih _ _ _ _ h
        exact ⟨chunks, c1, by rw [c2]; simp⟩
    · cases h

theorem run_loop_single (lt : bam1_t → bam1_t → Bool) (m : Nat) :
    ∀ (input : List (bam1_t × Nat)) (mem : Nat) (buf : List bam1_t),
      mem + (input.map Prod.snd).sum < m → buf.length + input.length < m / BAM_CORE_SIZE →
      run_loop lt m input mem buf [] = some ([], buf ++ input.map Prod.fst) := by
  intro input
  induction input with
  | nil =>
    intro mem buf _ h2
    simp only [List.length_nil, add_zero] at h2
    simp [run_loop, h2]
  | cons x rest ih =>
    intro mem buf h1 h2
    obtain ⟨b, ret⟩ := x
    simp only [List.map_cons, List.sum_cons, List.length_cons] at h1 h2
    unfold run_loop
    have hmod : (mem + ret) % 2 ^ 64 ≤ mem + ret := Nat.mod_le _ _
    rw [if_pos (by omega), if_neg (by omega)]
    rw [ih _ _ (by omega) (by simp only [List.length_append, List.length_singleton]; omega)]
    simp



theorem bam1_le_iff_key {κ : Type} [LinearOrder κ] (w q : Bool) (key : bam1_t → κ)
    (hk : lt_by_key (bam1_lt w q) key) (a b : bam1_t) : bam1_le w q a b ↔ key a ≤ key b := by
  unfold bam1_le
  rw [← not_lt, ← hk b a, Bool.not_eq_true]

theorem pairwise_of_chain_key {κ : Type} [LinearOrder κ] (w q : Bool) (key : bam1_t → κ)
    (hk : lt_by_key (bam1_lt w q) key) (l : List bam1_t) (h : l.Chain' (bam1_le w q)) :
    l.Pairwise (bam1_le w q) := by
  haveI : IsTrans bam1_t (bam1_le w q) := ⟨fun a b c h1 h2 => by
    rw [bam1_le_iff_key w q key hk] at h1 h2 ⊢
    exact le_trans h1 h2⟩
  exact List.chain'_iff_pairwise.1 h

theorem mergesort_bam1_le {κ : Type} [LinearOrder κ] (w q : Bool) (key : bam1_t → κ)
    (hk : lt_by_key (bam1_lt w q) key) (l : List bam1_t) :
    (ks_mergesort (bam1_lt w q) l).Pairwise (bam1_le w q) := by
  apply (ks_mergesort_sorted (bam1_lt w q) key hk l).imp
  intro a b h
  unfold bam1_le
  simpa using h

theorem sort_chain_gen {κ κ1 : Type} [LinearOrder κ] [LinearOrder κ1] (w q : Bool)
    (key : bam1_t → κ1) (hk : lt_by_key (bam1_lt w q) key) (prio : heap1_t → κ)
    (le : bam1_t → bam1_t → Prop) (P : bam1_t → Prop)
    (hconv : ∀ a b, P a → P b → bam1_le w q a b → le a b)
    (hag : lt_agrees (heap_lt w q) prio)
    (hle : ∀ x y r1 r2, x.b = bam1_buf.holds r1 → y.b = bam1_buf.holds r2 →
      x.pos = composite_key r1 → y.pos = composite_key r2 → P r1 → P r2 →
      prio x ≤ prio y → le r1 r2)
    (m : Nat) (input : List (bam1_t × Nat)) (hP : ∀ x ∈ input, P x.1) :
    (bam_sort_core_ext w q m input).out.Chain' le := by
  unfold bam_sort_core_ext
  cases hrl : run_loop (bam1_lt w q) m input 0 [] [] with
  | none => exact List.chain'_nil
  | some res =>
    obtain ⟨runs, buf⟩ := res
    simp only
    obtain ⟨chunks, c1, c2⟩ := run_loop_spec _ _ _ _ _ _ _ hrl
    simp only [List.nil_append] at c1 c2
    have hmemall : ∀ rs ∈ runs ++ [ks_mergesort (bam1_lt w q) buf], ∀ x ∈ rs, P x := by
      intro rs hrs x hx
      have hmem : x ∈ input.map Prod.fst := by
        rw [← c2]
        rw [c1] at hrs
        simp only [List.mem_append, List.mem_map, List.mem_singleton] at hrs
        rcases hrs with ⟨c, hc, rfl⟩ | rfl
        · have := (List.Perm.mem_iff (ks_mergesort_perm _ key hk c)).1 hx
          exact List.mem_append_left _ (List.mem_flatten.2 ⟨c, hc, this⟩)
        · exact List.mem_append_right _
            ((List.Perm.mem_iff (ks_mergesort_perm _ key hk buf)).1 hx)
      obtain ⟨y, hy, rfl⟩ := List.mem_map.1 hmem
      exact hP y hy
    have hsorted : ∀ rs ∈ runs ++ [ks_mergesort (bam1_lt w q) buf], rs.Chain' le := by
      intro rs hrs
      have hp := hmemall rs hrs
      have hs : rs.Pairwise (bam1_le w q) := by
        rw [c1] at hrs
        simp only [List.mem_append, List.mem_map, List.mem_singleton] at hrs
        rcases hrs with ⟨c, _, rfl⟩ | rfl
        · exact mergesort_bam1_le w q key hk c
        · exact mergesort_bam1_le w q key hk buf
      exact (hs.imp_of_mem fun {a b} ha hb h => hconv a b (hp a ha) (hp b hb) h).chain'
    split
    · exact hsorted _ (by simp)
    · exact merge_sorted w q prio le P hag hle _ hsorted hmemall

theorem sort_chain_pos (w : Bool) (le : bam1_t → bam1_t → Prop)
    (hconv : ∀ a b, in_range a → in_range b → sort_key a ≤ sort_key b → le a b)
    (m : Nat) (input : List (bam1_t × Nat)) (hr : ∀ x ∈ input, in_range x.1) :
    (bam_sort_core_ext w false m input).out.Chain' le := by
  apply sort_chain_gen w false sort_key (bam1_lt_pos_key w) pos_prio le in_range ?_
    (heap_lt_pos_agrees w) ?_ m input hr
  · intro a b ha hb h
    exact hconv a b ha hb ((bam1_le_iff_key w false sort_key (bam1_lt_pos_key w) a b).1 h)
  · intro x y r1 r2 _ _ h1 h2 p1 p2 hp
    apply hconv r1 r2 p1 p2
    apply composite_key_le_sort_key r1 r2 p1 p2
    rw [← h1, ← h2]
    exact pos_prio_le x y hp

theorem sort_sorted (w q : Bool) (m : Nat) (input : List (bam1_t × Nat))
    (hr : q = false → ∀ x ∈ input, in_range x.1) :
    (bam_sort_core_ext w q m input).out.Pairwise (bam1_le w q) := by
  cases q with
  | false =>
    apply pairwise_of_chain_key w false sort_key (bam1_lt_pos_key w)
    apply sort_chain_pos w (bam1_le w false) ?_ m input (hr rfl)
    intro a b _ _ h
    exact (bam1_le_iff_key w false sort_key (bam1_lt_pos_key w) a b).2 h
  | true =>
    apply pairwise_of_chain_key w true (rec_key w) (bam1_lt_qname_key w)
    apply sort_chain_gen w true (rec_key w) (bam1_lt_qname_key w) (qname_prio w)
      (bam1_le w true) (fun _ => True) (fun _ _ _ _ h => h)
      (heap_lt_qname_agrees w) ?_ m input (fun _ _ => trivial)
    intro x y r1 r2 hx hy _ _ _ _ hp
    exact qname_prio_le w x y r1 r2 hx hy hp

theorem sort_perm_gen {κ1 : Type} [LinearOrder κ1] (w q : Bool)
    (key : bam1_t → κ1) (hk : lt_by_key (bam1_lt w q) key)
    (m : Nat) (input : List (bam1_t × Nat))
    (hs : ∀ x ∈ input, composite_key x.1 ≠ HEAP_EMPTY)
    (he : (bam_sort_core_ext w q m input).exit = exit_t.returned 0) :
    (bam_sort_core_ext w q m input).out.Perm (input.map Prod.fst) := by
  unfold bam_sort_core_ext at he ⊢
  cases hrl : run_loop (bam1_lt w q) m input 0 [] [] with
  | none => rw [hrl] at he; simp at he
  | some res =>
    obtain ⟨runs, buf⟩ := res
    rw [hrl] at he
    simp only at he ⊢
    obtain ⟨chunks, c1, c2⟩ := run_loop_spec _ _ _ _ _ _ _ hrl
    simp only [List.nil_append] at c1 c2
    split
    · rename_i hnil
      rw [hnil] at c1
      have : chunks = [] := by
        cases chunks with
        | nil => rfl
        | cons a l => simp at c1
      rw [this] at c2
      simp only [List.flatten_nil, List.nil_append] at c2
      rw [← c2]
      exact ks_mergesort_perm _ key hk buf
    · rename_i hne
      rw [if_neg hne] at he
      have hmemall : ∀ rs ∈ runs ++ [ks_mergesort (bam1_lt w q) buf], ∀ x ∈ rs,
          x ∈ input.map Prod.fst := by
        intro rs hrs x hx
        rw [← c2]
        rw [c1] at hrs
        simp only [List.mem_append, List.mem_map, List.mem_singleton] at hrs
        rcases hrs with ⟨c, hc, rfl⟩ | rfl
        · have := (List.Perm.mem_iff (ks_mergesort_perm _ key hk c)).1 hx
          exact List.mem_append_left _ (List.mem_flatten.2 ⟨c, hc, this⟩)
        · exact List.mem_append_right _
            ((List.Perm.mem_iff (ks_mergesort_perm _ key hk buf)).1 hx)
      have hp := merge_perm w q (runs ++ [ks_mergesort (bam1_lt w q) buf])
        (fun rs hrs x hx => by
          obtain ⟨y, hy, rfl⟩ := List.mem_map.1 (hmemall rs hrs x hx)
          exact hs y hy) he
      refine hp.trans ?_
      rw [← c2, c1, List.flatten_append]
      simp only [List.flatten_cons, List.flatten_nil, List.append_nil]
      apply List.Perm.append _ (ks_mergesort_perm _ key hk buf)
      clear c1 c2 hmemall hp hrl he hne
      induction chunks with
      | nil => simp
      | cons c cs ih =>
        simp only [List.map_cons, List.flatten_cons]
        exact List.Perm.append (ks_mergesort_perm _ key hk c) ih

theorem sort_perm (w q : Bool) (m : Nat) (input : List (bam1_t × Nat))
    (hs : ∀ x ∈ input, composite_key x.1 ≠ HEAP_EMPTY)
    (he : (bam_sort_core_ext w q m input).exit = exit_t.returned 0) :
    (bam_sort_core_ext w q m input).out.Perm (input.map Prod.fst) := by
  cases q with
  | false => exact sort_perm_gen w false sort_key (bam1_lt_pos_key w) m input hs he
  | true => exact sort_perm_gen w true (rec_key w) (bam1_lt_qname_key w) m input hs he

theorem map_eq_of_inj_on {α β : Type} (f : α → β) : ∀ (l1 l2 : List α),
    (∀ a ∈ l1, ∀ b ∈ l2, f a = f b → a = b) → l1.map f = l2.map f → l1 = l2
  | [], [], _, _ => rfl
  | [], _ :: _, _, h => by simp at h
  | _ :: _, [], _, h => by simp at h
  | a :: l1, b :: l2, hinj, h => by
    simp only [List.map_cons, List.cons.injEq] at h
    have e := hinj a (List.mem_cons_self _ _) b (List.mem_cons_self _ _) h.1
    subst e
    rw [map_eq_of_inj_on f l1 l2
      (fun x hx y hy => hinj x (List.mem_cons_of_mem _ hx) y (List.mem_cons_of_mem _ hy)) h.2]

theorem sorted_perm_unique {κ : Type} [LinearOrder κ] (w q : Bool) (key : bam1_t → κ)
    (hk : lt_by_key (bam1_lt w q) key) (l l1 l2 : List bam1_t)
    (hties : l.Pairwise (fun a b => bam1_lt w q a b = true ∨ bam1_lt w q b a = true))
    (p1 : l1.Perm l) (p2 : l2.Perm l)
    (s1 : l1.Pairwise (bam1_le w q)) (s2 : l2.Pairwise (bam1_le w q)) : l1 = l2 := by
  have hinj : ∀ a ∈ l, ∀ b ∈ l, key a = key b → a = b := by
    intro a ha b hb hab
    by_contra hne
    have := hties.forall (fun x y hxy => hxy.symm) ha hb hne
    rcases this with h | h
    · have := (hk a b).1 h; rw [hab] at this; exact lt_irrefl _ this
    · have := (hk b a).1 h; rw [hab] at this; exact lt_irrefl _ this
  apply map_eq_of_inj_on key l1 l2
  · intro a ha b hb
    exact hinj a ((List.Perm.mem_iff p1).1 ha) b ((List.Perm.mem_iff p2).1 hb)
  · have k1 : (l1.map key).Sorted (fun x y : κ => x ≤ y) :=
      List.pairwise_map.2 (s1.imp fun {a b} h => (bam1_le_iff_key w q key hk a b).1 h)
    have k2 : (l2.map key).Sorted (fun x y : κ => x ≤ y) :=
      List.pairwise_map.2 (s2.imp fun {a b} h => (bam1_le_iff_key w q key hk a b).1 h)
    exact List.eq_of_perm_of_sorted ((p1.trans p2.symm).map key) k1 k2

theorem sorted_perm_unique_modes (w q : Bool) (l l1 l2 : List bam1_t)
    (hties : l.Pairwise (fun a b => bam1_lt w q a b = true ∨ bam1_lt w q b a = true))
    (p1 : l1.Perm l) (p2 : l2.Perm l)
    (s1 : l1.Pairwise (bam1_le w q)) (s2 : l2.Pairwise (bam1_le w q)) : l1 = l2 := by
  cases q with
  | false => exact sorted_perm_unique w false sort_key (bam1_lt_pos_key w) l l1 l2 hties p1 p2 s1 s2
  | true =>
    exact sorted_perm_unique w true (rec_key w) (bam1_lt_qname_key w) l l1 l2 hties p1 p2 s1 s2

theorem sort_finishes (w q : Bool) (m : Nat) (input : List (bam1_t × Nat)) :
    (bam_sort_core_ext w q m input).exit ≠ exit_t.unfinished := by
  unfold bam_sort_core_ext
  cases run_loop (bam1_lt w q) m input 0 [] [] with
  | none => simp
  | some res =>
    obtain ⟨runs, buf⟩ := res
    simp only
    split
    · simp
    · exact merge_finishes w q _

/-! ## C2: the positional sort orders by `(tid, pos)` -/

/-- C2, as stated, fails: a record at position `2^31 - 1` (where `pos + 1` leaves the
`int32_t` range) is sorted after a record of a later reference. -/
theorem sort_positional_counterexample :
    (∀ x ∈ [(rec_of 1 0 0 "a", 40), (rec_of 0 (2 ^ 31 - 1) 0 "b", 40)],
      -1 ≤ x.1.core.tid ∧ x.1.core.tid < 2 ^ 31 ∧ -1 ≤ x.1.core.pos ∧ x.1.core.pos < 2 ^ 31) ∧
    (bam_sort_core_ext false false 1000
      [(rec_of 1 0 0 "a", 40), (rec_of 0 (2 ^ 31 - 1) 0 "b", 40)]).out
        = [rec_of 1 0 0 "a", rec_of 0 (2 ^ 31 - 1) 0 "b"] ∧
    ¬ tid_pos_le (rec_of 1 0 0 "a") (rec_of 0 (2 ^ 31 - 1) 0 "b") := by
  refine ⟨by decide, by decide, by decide⟩

/-- C2, amended: for every input whose records have `tid >= -1` and `-1 <= pos <= 2^31 - 2`
and every memory budget, also one that forces several runs and a merge, any two adjacent
records `a`, `b` of the output of the positional sort satisfy `(a.tid, a.pos) <= (b.tid, b.pos)`
lexicographically with `tid` read as unsigned 32-bit (so `tid = -1` comes last), and the
merge ends within the turns the embedding allows. -/
theorem sort_positional_ordered (ignore_warts : Bool) (max_mem : Nat)
    (input : List (bam1_t × Nat)) (hr : ∀ x ∈ input, in_range x.1) :
    (bam_sort_core_ext ignore_warts false max_mem input).out.Chain' tid_pos_le ∧
      (bam_sort_core_ext ignore_warts false max_mem input).exit ≠ exit_t.unfinished :=
  ⟨sort_chain_pos ignore_warts tid_pos_le
    (fun a b ha hb h => (sort_key_le_iff a b ha hb).1 h) max_mem input hr,
    sort_finishes ignore_warts false max_mem input⟩

theorem sort_positional_ordered_witness :
    (∀ x ∈ [(rec_of 0 100 0 "a", 64), (rec_of (-1) (-1) 4 "u", 64), (rec_of 0 50 16 "b", 64),
        (rec_of 1 10 0 "c", 64)], in_range x.1) ∧
    (bam_sort_core_ext false false 128
      [(rec_of 0 100 0 "a", 64), (rec_of (-1) (-1) 4 "u", 64), (rec_of 0 50 16 "b", 64),
        (rec_of 1 10 0 "c", 64)]).out.Chain' tid_pos_le :=
  ⟨by decide, (sort_positional_ordered false 128 _ (by decide)).1⟩

/-! ## C3: what the merge does with an empty input in query-name mode -/

/-- C3, on the code: in query-name mode with two inputs of which the first is empty, the
cursor of the empty input keeps its zeroed buffer, `heap_lt` reads its query name through
a null `data` pointer inside `ks_heapmake`, and the run ends in a fault before any record
is written; the one record of the second input is lost. -/
theorem merge_empty_input_faults :
    bam_merge_core_ext false true [clean [], clean [rec_of 0 7 0 "r1"]]
      = ⟨[], exit_t.fault⟩ := by
  decide

/-! ## A sort that keeps its whole input in one run -/

theorem billed_fst (bytes : bam1_t → Nat) (l : List bam1_t) :
    (billed bytes l).map Prod.fst = l := by
  unfold billed; simp [List.map_map, Function.comp_def]

theorem billed_snd (bytes : bam1_t → Nat) (l : List bam1_t) :
    (billed bytes l).map Prod.snd = l.map bytes := by
  unfold billed; simp [List.map_map, Function.comp_def]

theorem sort_single_run (w q : Bool) (m : Nat) (bytes : bam1_t → Nat)
    (X : List bam1_t) (h1 : (X.map bytes).sum < m) (h2 : X.length < m / BAM_CORE_SIZE) :
    bam_sort_core_ext w q m (billed bytes X)
      = ⟨ks_mergesort (bam1_lt w q) X, exit_t.returned 0⟩ := by
  unfold bam_sort_core_ext
  rw [run_loop_single _ m (billed bytes X) 0 [] (by rw [billed_snd]; omega)
    (by simp only [billed, List.length_map, List.length_nil]; omega)]
  simp [billed_fst]

theorem sort_twice_single_run {κ : Type} [LinearOrder κ] (w q : Bool) (key : bam1_t → κ)
    (hk : lt_by_key (bam1_lt w q) key) (m : Nat) (bytes : bam1_t → Nat)
    (X : List bam1_t) (h1 : (X.map bytes).sum < m) (h2 : X.length < m / BAM_CORE_SIZE) :
    (bam_sort_core_ext w q m (billed bytes (bam_sort_core_ext w q m (billed bytes X)).out)).out
      = (bam_sort_core_ext w q m (billed bytes X)).out := by
  rw [sort_single_run w q m bytes X h1 h2]
  simp only
  have hp := ks_mergesort_perm (bam1_lt w q) key hk X
  rw [sort_single_run w q m bytes _ (by rw [(hp.map bytes).sum_eq]; exact h1)
    (by rw [hp.length_eq]; exact h2)]
  simp only
  exact ks_mergesort_of_sorted _ key hk _ (ks_mergesort_sorted _ key hk X)

/-! ## C6: the exit code of `merge` -/

/-- C6, on the code: in the non-vanilla variant, a merge whose core succeeds (returns 0)
with no observer file requested makes `bam_merge` return `r < 1`, which is 1, where the
claim (and the vanilla variant, on the same core result) gives 0. -/
theorem bam_merge_success_returns_one :
    bam_merge { vanilla := false, n_args := 2, force := true, oname_is_stdout := false,
                oname_exists := false, sink_created := true, core := 0,
                cstat := none, xstat := none, index := none } = 1 ∧
    bam_merge { vanilla := true, n_args := 3, force := false, oname_is_stdout := false,
                oname_exists := false, sink_created := true, core := 0,
                cstat := none, xstat := none, index := none } = 0 := by
  constructor <;> decide

/-! ## C7 and C8: the tiebreaks of the query-name order -/

theorem cmp3_eq_zero {κ : Type} [LinearOrder κ] (x y : κ) : cmp3 x y = 0 ↔ x = y := by
  unfold cmp3
  by_cases h1 : x < y
  · simp [h1, ne_of_lt h1]
  · by_cases h2 : y < x
    · simp [h1, h2, (ne_of_lt h2).symm]
    · simp [h1, h2, le_antisymm (not_lt.mp h2) (not_lt.mp h1)]

theorem and_bit_cases (f i : Nat) : f &&& 2 ^ i = 0 ∨ f &&& 2 ^ i = 2 ^ i := by
  rw [Nat.and_comm, Nat.two_pow_and]
  cases f.testBit i <;> simp

theorem read_bits (f : Nat) :
    f &&& (BAM_FREAD1 ||| BAM_FREAD2) = (f &&& BAM_FREAD1) ||| (f &&& BAM_FREAD2) :=
  Nat.and_or_distrib_left _ _ _

/-- C7, as stated, fails: with equal names, the unpaired record is not before the paired
one for `bam1_lt`, it is after it, and the sort of `[r10, r2 (unpaired), r2 (paired, READ2)]`
puts the paired `r2` first. -/
theorem paired_tiebreak_counterexample :
    bam1_lt false true (rec_of 0 2 0 "r2") (rec_of 0 3 129 "r2") = false ∧
    bam1_lt false true (rec_of 0 3 129 "r2") (rec_of 0 2 0 "r2") = true ∧
    (bam_sort_core_ext false true 1000
        [(rec_of 0 1 0 "r10", 40), (rec_of 0 2 0 "r2", 40), (rec_of 0 3 129 "r2", 40)]).out
      = [rec_of 0 3 129 "r2", rec_of 0 2 0 "r2", rec_of 0 1 0 "r10"] := by
  refine ⟨by decide, by decide, by decide⟩

/-- C7, amended: in query-name mode, for all records `a` and `b` whose names compare equal
under `strnum_cmp`, if `a` is unpaired and `b` is paired then `b` is ordered before `a`, by
the in-memory comparator (`bam1_lt(b,a)` true, `bam1_lt(a,b)` false) and by the heap
(`heap_lt(cursor a, cursor b)` true, `heap_lt(cursor b, cursor a)` false); the sort of
`[r10, r2 (unpaired), r2 (paired, READ2)]` is `[r2 (paired, READ2), r2 (unpaired), r10]`. -/
theorem paired_before_unpaired (ignore_warts : Bool) (a b : bam1_t)
    (hn : strnum_cmp ignore_warts a.qname b.qname = 0)
    (ha : a.core.flag &&& BAM_FPAIRED = 0) (hb : b.core.flag &&& BAM_FPAIRED ≠ 0) :
    bam1_lt ignore_warts true b a = true ∧ bam1_lt ignore_warts true a b = false ∧
      (∀ x y : heap1_t, x.b = bam1_buf.holds a → y.b = bam1_buf.holds b →
        heap_lt ignore_warts true x y = some true ∧
        heap_lt ignore_warts true y x = some false) ∧
      (bam_sort_core_ext false true 1000
          [(rec_of 0 1 0 "r10", 40), (rec_of 0 2 0 "r2", 40), (rec_of 0 3 129 "r2", 40)]).out
        = [rec_of 0 3 129 "r2", rec_of 0 2 0 "r2", rec_of 0 1 0 "r10"] := by
  rw [strnum_cmp_eq, cmp3_eq_zero] at hn
  have hb1 : b.core.flag &&& BAM_FPAIRED = 1 := by
    have := and_paired_le b.core.flag; omega
  have h1 : rec_key ignore_warts b < rec_key ignore_warts a := by
    unfold rec_key
    rw [Prod.Lex.lt_iff]
    right
    refine ⟨hn.symm, ?_⟩
    rw [Prod.Lex.lt_iff]
    left
    simp [ha, hb1]
  have e1 : bam1_lt ignore_warts true b a = true := (bam1_lt_qname_iff _ b a).2 h1
  have e2 : bam1_lt ignore_warts true a b = false := by
    cases h : bam1_lt ignore_warts true a b with
    | false => rfl
    | true => exact absurd ((bam1_lt_qname_iff _ a b).1 h) (not_lt_of_lt h1)
  refine ⟨e1, e2, ?_, by decide⟩
  intro x y hx hy
  rw [heap_lt_qname_holds _ x y a b hx hy, heap_lt_qname_holds _ y x b a hy hx, e1, e2]
  exact ⟨rfl, rfl⟩

theorem paired_before_unpaired_witness :
    strnum_cmp false (rec_of 0 2 0 "r2").qname (rec_of 0 3 129 "r2").qname = 0 ∧
    bam1_lt false true (rec_of 0 3 129 "r2") (rec_of 0 2 0 "r2") = true ∧
    bam1_lt false true (rec_of 0 2 0 "r2") (rec_of 0 3 129 "r2") = false :=
  ⟨by decide,
    (paired_before_unpaired false (rec_of 0 2 0 "r2") (rec_of 0 3 129 "r2")
      (by decide) (by decide) (by decide)).1,
    (paired_before_unpaired false (rec_of 0 2 0 "r2") (rec_of 0 3 129 "r2")
      (by decide) (by decide) (by decide)).2.1⟩

/-- C8: in query-name mode, for all records `a` and `b` with names comparing equal and the
same `PAIRED` bit, where `a` has `READ1` set and `READ2` clear and `b` has `READ2` set and
`READ1` clear, `a` is before `b` for the in-memory comparator (`bam1_lt(a,b)` true,
`bam1_lt(b,a)` false) and the heap emits `a` first (`heap_lt(cursor b, cursor a)` true). -/
theorem read1_before_read2 (ignore_warts : Bool) (a b : bam1_t)
    (hn : strnum_cmp ignore_warts a.qname b.qname = 0)
    (hp : a.core.flag &&& BAM_FPAIRED = b.core.flag &&& BAM_FPAIRED)
    (ha1 : a.core.flag &&& BAM_FREAD1 ≠ 0) (ha2 : a.core.flag &&& BAM_FREAD2 = 0)
    (hb1 : b.core.flag &&& BAM_FREAD1 = 0) (hb2 : b.core.flag &&& BAM_FREAD2 ≠ 0) :
    bam1_lt ignore_warts true a b = true ∧ bam1_lt ignore_warts true b a = false ∧
      ∀ x y : heap1_t, x.b = bam1_buf.holds a → y.b = bam1_buf.holds b →
        heap_lt ignore_warts true y x = some true := by
  rw [strnum_cmp_eq, cmp3_eq_zero] at hn
  have a64 : a.core.flag &&& BAM_FREAD1 = 64 := by
    have := and_bit_cases a.core.flag 6
    unfold BAM_FREAD1 at ha1 ⊢
    norm_num at this
    omega
  have b128 : b.core.flag &&& BAM_FREAD2 = 128 := by
    have := and_bit_cases b.core.flag 7
    unfold BAM_FREAD2 at hb2 ⊢
    norm_num at this
    omega
  have h1 : rec_key ignore_warts a < rec_key ignore_warts b := by
    unfold rec_key
    rw [Prod.Lex.lt_iff]
    right
    refine ⟨hn, ?_⟩
    rw [Prod.Lex.lt_iff]
    right
    refine ⟨by simp [hp], ?_⟩
    simp only [read_bits, a64, ha2, hb1, b128]
    decide
  have e1 : bam1_lt ignore_warts true a b = true := (bam1_lt_qname_iff _ a b).2 h1
  have e2 : bam1_lt ignore_warts true b a = false := by
    cases h : bam1_lt ignore_warts true b a with
    | false => rfl
    | true => exact absurd ((bam1_lt_qname_iff _ b a).1 h) (not_lt_of_lt h1)
  refine ⟨e1, e2, ?_⟩
  intro x y hx hy
  rw [heap_lt_qname_holds _ y x b a hy hx, e1]

theorem read1_before_read2_witness :
    bam1_lt false true (rec_of 0 9 65 "r2") (rec_of 0 3 129 "r2") = true ∧
    bam1_lt false true (rec_of 0 3 129 "r2") (rec_of 0 9 65 "r2") = false ∧
    heap_lt false true ⟨1, 0, 0, bam1_buf.holds (rec_of 0 3 129 "r2")⟩
      ⟨0, 0, 0, bam1_buf.holds (rec_of 0 9 65 "r2")⟩ = some true :=
  have h := read1_before_read2 false (rec_of 0 9 65 "r2") (rec_of 0 3 129 "r2")
    (by decide) (by decide) (by decide) (by decide) (by decide) (by decide)
  ⟨h.1, h.2.1, h.2.2 _ _ rfl rfl⟩

/-! ## C9: digit runs are compared by value -/

theorem cmp3_common (T x y : List ℕ) (a b : ℕ) :
    cmp3 (toLex (T ++ x, a) : List ℕ ×ₗ ℕ) (toLex (T ++ y, b)) =
      cmp3 (toLex (x, a) : List ℕ ×ₗ ℕ) (toLex (y, b)) := by
  induction T with
  | nil => rfl
  | cons t T ih => rw [List.cons_append, List.cons_append, cmp3_cons_eq, ih]

theorem isdigit_ne_zero (c : Nat) (h : isdigit c = true) : c ≠ 0 := by
  simp only [isdigit, Bool.and_eq_true, decide_eq_true_eq] at h
  omega

theorem strtol_digits_split (rest : List Char) : ∀ (p : List Char) (acc : Nat),
    p ≠ [] → (∀ c ∈ p.getLast?, isdigit c.toNat = false) →
    strtol_digits (p ++ rest) acc = ((strtol_digits p acc).1, (strtol_digits p acc).2 ++ rest) ∧
      (strtol_digits p acc).2 ≠ [] ∧ ∃ pre, p = pre ++ (strtol_digits p acc).2 := by
  intro p
  induction p with
  | nil => intro _ h; exact absurd rfl h
  | cons c p ih =>
    intro acc _ hl
    by_cases hd : isdigit c.toNat = true
    · have hp : p ≠ [] := by
        intro e; subst e
        have := hl c (by simp)
        rw [hd] at this; cases this
      have hl2 : ∀ c ∈ p.getLast?, isdigit c.toNat = false :=
        fun x hx => hl x (List.mem_getLast?_cons hx)
      obtain ⟨a1, a2, pre, a3⟩ := ih (10 * acc + (c.toNat - 48)) hp hl2
      simp only [List.cons_append, strtol_digits, hd, if_true]
      exact ⟨a1, a2, c :: pre, by rw [List.cons_append, ← a3]⟩
    · simp only [List.cons_append, strtol_digits, hd, if_false, Bool.false_eq_true]
      exact ⟨rfl, by simp, [], rfl⟩



theorem name_append (rest : List Char) : ∀ (k : Nat) (p : List Char), p.length ≤ k →
    (∀ c ∈ p, c.toNat ≠ 0) → (∀ c ∈ p.getLast?, isdigit c.toNat = false) →
    name_toks (p ++ rest) = name_toks p ++ name_toks rest ∧
      name_tail (p ++ rest) = name_tail rest := by
  intro k
  induction k with
  | zero =>
    intro p hk _ _
    have : p = [] := List.length_eq_zero.1 (by omega)
    subst this
    simp [(name_nul [] rfl).1]
  | succ k ih =>
    intro p hk h0 hl
    cases p with
    | nil => simp [(name_nul [] rfl).1]
    | cons c p =>
      have hc0 : deref (c :: p) ≠ 0 := h0 c (by simp)
      have hc0r : deref ((c :: p) ++ rest) ≠ 0 := h0 c (by simp)
      by_cases hd : isdigit c.toNat = true
      · obtain ⟨a1, a2, pre, a3⟩ := strtol_digits_split rest (c :: p) 0 (by simp) hl
        have e1 : (strtol ((c :: p) ++ rest)).1 = (strtol (c :: p)).1 := by
          simp only [strtol, a1]
        have e2 : (strtol ((c :: p) ++ rest)).2 = (strtol (c :: p)).2 ++ rest := by
          simp only [strtol, a1]
        have hlen := strtol_length_lt (c :: p) hd
        have hsub : ∀ x ∈ (strtol (c :: p)).2, x ∈ c :: p := by
          intro x hx
          rw [a3]
          exact List.mem_append_right _ hx
        have hI := ih (strtol (c :: p)).2 (by simp only [List.length_cons] at hk hlen ⊢; omega)
          (fun x hx => h0 x (hsub x hx))
          (fun x hx => hl x (by
            rw [a3]; exact List.mem_getLast?_append_of_mem_getLast? hx))
        rw [(name_digit _ hc0r hd).1, (name_digit _ hc0r hd).2, (name_digit _ hc0 hd).1,
          e1, e2, hI.1, hI.2]
        exact ⟨rfl, rfl⟩
      · rw [Bool.not_eq_true] at hd
        have hI := ih p (by simp only [List.length_cons] at hk; omega)
          (fun x hx => h0 x (List.mem_cons_of_mem _ hx))
          (fun x hx => hl x (List.mem_getLast?_cons hx))
        rw [(name_char _ hc0r hd).1, (name_char _ hc0r hd).2, (name_char _ hc0 hd).1]
        simp only [List.cons_append, List.tail_cons] at hI ⊢
        rw [hI.1, hI.2]
        exact ⟨rfl, rfl⟩

theorem digitChar_digit (k : Nat) (hk : k < 10) :
    isdigit (Nat.digitChar k).toNat = true ∧ (Nat.digitChar k).toNat - 48 = k := by
  interval_cases k <;> decide

theorem toDigitsCore_value (s : List Char) : ∀ (fuel n : Nat) (ds : List Char), n < fuel →
    strtol_digits (Nat.toDigitsCore 10 fuel n ds ++ s) 0 = strtol_digits (ds ++ s) n := by
  intro fuel
  induction fuel with
  | zero => intro n ds h; omega
  | succ fuel ih =>
    intro n ds h
    have hd := digitChar_digit (n % 10) (Nat.mod_lt _ (by norm_num))
    unfold Nat.toDigitsCore
    simp only
    split
    · rename_i h0
      simp only [List.cons_append, strtol_digits, hd.1, if_true, hd.2]
      congr 1
      omega
    · rename_i h0
      rw [ih (n / 10) _ (by omega)]
      simp only [List.cons_append, strtol_digits, hd.1, if_true, hd.2]
      congr 1
      omega

theorem toDigitsCore_head (fuel : Nat) : ∀ (n : Nat) (ds : List Char),
    (fuel = 0 → ∃ c r, ds = c :: r ∧ isdigit c.toNat = true) →
    ∃ c r, Nat.toDigitsCore 10 fuel n ds = c :: r ∧ isdigit c.toNat = true := by
  induction fuel with
  | zero => intro n ds h; simpa [Nat.toDigitsCore] using h rfl
  | succ fuel ih =>
    intro n ds _
    have hd := digitChar_digit (n % 10) (Nat.mod_lt _ (by norm_num))
    unfold Nat.toDigitsCore
    simp only
    split
    · exact ⟨_, _, rfl, hd.1⟩
    · exact ih _ _ (fun _ => ⟨_, _, rfl, hd.1⟩)

/-- The tokens of a name that starts with the decimal numeral of `m`. -/
theorem name_numeral (m : Nat) (s : List Char) (hs : isdigit (deref s) = false) :
    name_toks (Nat.toDigits 10 m ++ s) = (48 + m ⊓ LONG_MAX) :: name_toks s ∧
      name_tail (Nat.toDigits 10 m ++ s) = name_tail s := by
  obtain ⟨c, r, hc, hcd⟩ := toDigitsCore_head (m + 1) m [] (by omega)
  have hval : strtol_digits (Nat.toDigits 10 m ++ s) 0 = (m, s) := by
    unfold Nat.toDigits
    rw [toDigitsCore_value s (m + 1) m [] (by omega)]
    simp only [List.nil_append]
    cases s with
    | nil => rfl
    | cons x xs =>
      simp only [deref] at hs
      simp [strtol_digits, hs]
  have hder : deref (Nat.toDigits 10 m ++ s) = c.toNat := by
    unfold Nat.toDigits; rw [hc]; rfl
  have h0 : deref (Nat.toDigits 10 m ++ s) ≠ 0 := by rw [hder]; exact isdigit_ne_zero _ hcd
  have hd : isdigit (deref (Nat.toDigits 10 m ++ s)) = true := by rw [hder]; exact hcd
  have e1 : (strtol (Nat.toDigits 10 m ++ s)).1 = m ⊓ LONG_MAX := by simp only [strtol, hval]
  have e2 : (strtol (Nat.toDigits 10 m ++ s)).2 = s := by simp only [strtol, hval]
  rw [(name_digit _ h0 hd).1, (name_digit _ h0 hd).2, e1, e2]
  exact ⟨rfl, rfl⟩

theorem sgn3_add (k x y : Nat) : sgn3 (k + x) (k + y) = sgn3 x y := by
  unfold sgn3
  simp only [Nat.add_lt_add_iff_left, gt_iff_lt]

theorem cmp3_len_shift (x y : List ℕ) (k a b : ℕ) :
    cmp3 (toLex (x, k + a) : List ℕ ×ₗ ℕ) (toLex (y, k + b)) =
      cmp3 (toLex (x, a) : List ℕ ×ₗ ℕ) (toLex (y, b)) := by
  rw [cmp3_lex, cmp3_lex, sgn3_add]

/-- C9: with wart-stripping off, for every prefix `p` without NUL that is empty or ends in a
non-digit, all `m`, `n` in the range of `long` written in decimal and all suffixes `s`, `t`
that do not start with a digit, `strnum_cmp(p m s, p n t)` has the sign of `m - n` when
`m != n`, and when the numbers are equal it is what the comparison of `s` and `t` gives;
`strnum_cmp("read10","read9") > 0`, `strnum_cmp("read9","read9") = 0` and
`strnum_cmp("read9a","read9b") < 0`. -/
theorem strnum_cmp_numeric (p s t : List Char) (m n : Nat)
    (hp0 : ∀ c ∈ p, c.toNat ≠ 0) (hp : ∀ c ∈ p.getLast?, isdigit c.toNat = false)
    (hs : isdigit (deref s) = false) (ht : isdigit (deref t) = false)
    (hm : m ≤ LONG_MAX) (hn : n ≤ LONG_MAX) :
    (m ≠ n → strnum_cmp false (p ++ Nat.toDigits 10 m ++ s) (p ++ Nat.toDigits 10 n ++ t)
        = sgn3 m n) ∧
    (m = n → strnum_cmp false (p ++ Nat.toDigits 10 m ++ s) (p ++ Nat.toDigits 10 n ++ t)
        = strnum_cmp false s t) ∧
    strnum_cmp false "read10".toList "read9".toList > 0 ∧
    strnum_cmp false "read9".toList "read9".toList = 0 ∧
    strnum_cmp false "read9a".toList "read9b".toList < 0 := by
  have key : ∀ (k : Nat) (u : List Char), isdigit (deref u) = false →
      name_key false (p ++ Nat.toDigits 10 k ++ u) =
        toLex (name_toks p ++ (48 + k ⊓ LONG_MAX) :: name_toks u,
          (p.length + (Nat.toDigits 10 k).length) + (u.length - name_tail u)) := by
    intro k u hu
    have a1 := name_append (Nat.toDigits 10 k ++ u) p.length p (le_refl _) hp0 hp
    have a2 := name_numeral k u hu
    have a3 := name_tail_le u
    simp only [name_key, Bool.false_eq_true, if_false, name_key_from, List.append_assoc,
      a1.1, a1.2, a2.1, a2.2, List.length_append]
    congr 2
    omega
  refine ⟨?_, ?_, by decide, by decide, by decide⟩
  · intro hne
    rw [strnum_cmp_eq, key m s hs, key n t ht, cmp3_common, Nat.min_eq_left hm,
      Nat.min_eq_left hn]
    rcases Nat.lt_or_gt_of_ne hne with h | h
    · rw [cmp3_cons_lt _ _ _ _ _ _ (by omega), sgn3_lt _ _ h]
    · rw [cmp3_cons_gt _ _ _ _ _ _ (by omega), sgn3_gt _ _ h]
  · intro he
    subst he
    rw [strnum_cmp_eq, key m s hs, key m t ht, cmp3_common, cmp3_cons_eq, cmp3_len_shift,
      strnum_cmp_eq]
    rfl

theorem strnum_cmp_numeric_witness :
    strnum_cmp false ("read_".toList ++ Nat.toDigits 10 10 ++ "a".toList)
      ("read_".toList ++ Nat.toDigits 10 9 ++ "b".toList) = sgn3 10 9 :=
  (strnum_cmp_numeric "read_".toList "a".toList "b".toList 10 9 (by decide) (by decide)
    (by decide) (by decide) (by decide) (by decide)).1 (by decide)

/-! ## C10: warts are compared when the flag is off -/

/-- C10, as stated, fails: with the flag off the comparison is decided by the first
characters, and `'M'` is below `'r'`, so the result is `-1` and not positive. -/
theorem warts_off_counterexample :
    strnum_cmp false "M_read1".toList "read1".toList = -1 := by
  decide

/-- C10, amended: with the ignore-warts flag off, `strnum_cmp("M_read1","read1") < 0`, and
in the other direction `strnum_cmp("read1","M_read1") > 0`. -/
theorem warts_off_compare :
    strnum_cmp false "M_read1".toList "read1".toList < 0 ∧
    strnum_cmp false "read1".toList "M_read1".toList > 0 := by
  constructor <;> decide

/-! ## When the heap operations and the merge run to their end -/

section heapsome
variable {α : Type}

theorem heap_child_some (lt : α → α → Option Bool) (l : List α) (k : Nat) (hk : k < l.length)
    (htot : ∀ x y, x ∈ l → y ∈ l → (lt x y).isSome = true) :
    ∃ k1, ks_heap_child lt l.length l k = some k1 ∧ k1 < l.length ∧ k < k1 + 1 := by
  unfold ks_heap_child
  by_cases hlast : k = l.length - 1
  · exact ⟨k, by simp [hlast], hk, by omega⟩
  · have hk2 : k + 1 < l.length := by omega
    simp only [ne_eq, hlast, not_false_eq_true, if_true, List.getElem?_eq_getElem hk,
      List.getElem?_eq_getElem hk2]
    have := htot l[k] l[k + 1] (List.getElem_mem _) (List.getElem_mem _)
    cases hc : lt l[k] l[k + 1] with
    | none => rw [hc] at this; cases this
    | some c =>
      cases c with
      | true => exact ⟨k + 1, by simp, hk2, by omega⟩
      | false => exact ⟨k, by simp, hk, by omega⟩

theorem heapadjust_loop_some (lt : α → α → Option Bool) (n : Nat) (tmp : α) (fuel : Nat) :
    ∀ (i : Nat) (l : List α), l.length = n → i < n → n ≤ fuel + i →
      (∀ x y, (x ∈ l ∨ x = tmp) → (y ∈ l ∨ y = tmp) → (lt x y).isSome = true) →
      ∃ l1, ks_heapadjust_loop lt n tmp fuel i l = some l1 := by
  induction fuel with
  | zero => intro i l _ hi hf _; omega
  | succ fuel ih =>
    intro i l hn hi hf htot
    unfold ks_heapadjust_loop
    by_cases h2 : 2 * i + 1 < n
    · rw [if_pos h2]
      obtain ⟨k, hk1, hk2, hk3⟩ := heap_child_some lt l (2 * i + 1) (by omega)
        (fun x y hx hy => htot x y (Or.inl hx) (Or.inl hy))
      rw [hn] at hk1
      rw [hk1]
      simp only [List.getElem?_eq_getElem hk2]
      have := htot l[k] tmp (Or.inl (List.getElem_mem _)) (Or.inr rfl)
      cases hc : lt l[k] tmp with
      | none => rw [hc] at this; cases this
      | some c =>
        cases c with
        | true => exact ⟨_, rfl⟩
        | false =>
          simp only
          apply ih k (l.set i l[k]) (by rw [List.length_set]; exact hn) (by omega) (by omega)
          intro x y hx hy
          apply htot
          · rcases hx with hx | hx
            · rcases List.mem_or_eq_of_mem_set hx with h | h
              · exact Or.inl h
              · exact Or.inl (h ▸ List.getElem_mem _)
            · exact Or.inr hx
          · rcases hy with hy | hy
            · rcases List.mem_or_eq_of_mem_set hy with h | h
              · exact Or.inl h
              · exact Or.inl (h ▸ List.getElem_mem _)
            · exact Or.inr hy
    · rw [if_neg h2]; exact ⟨_, rfl⟩

theorem heapadjust_some (lt : α → α → Option Bool) (i : Nat) (l : List α) (hi : i < l.length)
    (htot : ∀ x y, x ∈ l → y ∈ l → (lt x y).isSome = true) :
    ∃ l1, ks_heapadjust lt i l.length l = some l1 := by
  unfold ks_heapadjust
  rw [List.getElem?_eq_getElem hi]
  simp only
  apply heapadjust_loop_some lt l.length l[i] l.length i l rfl hi (by omega)
  intro x y hx hy
  apply htot
  · rcases hx with hx | hx
    · exact hx
    · exact hx ▸ List.getElem_mem _
  · rcases hy with hy | hy
    · exact hy
    · exact hy ▸ List.getElem_mem _



theorem heapmake_loop_some {κ : Type} [LinearOrder κ] (lt : α → α → Option Bool)
    (prio : α → κ) (hag : lt_agrees lt prio) (c : Nat) :
    ∀ l : List α, c ≤ l.length / 2 → heap_from prio l c →
      (∀ x y, x ∈ l → y ∈ l → (lt x y).isSome = true) →
      ∃ l1, ks_heapmake_loop lt l.length c l = some l1 := by
  induction c with
  | zero => intro l _ _ _; exact ⟨l, rfl⟩
  | succ c ih =>
    intro l hc hh htot
    unfold ks_heapmake_loop
    obtain ⟨l2, h2⟩ := heapadjust_some lt c l (by omega) htot
    rw [h2]
    simp only
    obtain ⟨s1, s2, s3⟩ := heapadjust_spec lt prio hag c l l2 hh h2
    have := ih l2 (by rw [s1]; omega) s2
      (fun x y hx hy => htot x y ((List.Perm.mem_iff s3).1 hx) ((List.Perm.mem_iff s3).1 hy))
    rwa [s1] at this

theorem heapmake_some {κ : Type} [LinearOrder κ] (lt : α → α → Option Bool)
    (prio : α → κ) (hag : lt_agrees lt prio) (l : List α)
    (htot : ∀ x y, x ∈ l → y ∈ l → (lt x y).isSome = true) :
    ∃ l1, ks_heapmake lt l.length l = some l1 := by
  apply heapmake_loop_some lt prio hag (l.length / 2) l (le_refl _) ?_ htot
  intro j c x y hsj hjc _ hy
  have := (List.getElem?_eq_some.1 hy).1
  unfold is_child at hjc
  omega

end heapsome

theorem heap_lt_some (w q : Bool) (x y : heap1_t) (hx : comparable q x) (hy : comparable q y) :
    (heap_lt w q x y).isSome = true := by
  unfold heap_lt
  cases q with
  | false => simp
  | true =>
    have hx1 := hx rfl
    have hy1 := hy rfl
    simp only [if_true]
    cases hxb : x.b with
    | null => simp
    | zeroed => exact absurd hxb hx1
    | holds rx =>
      cases hyb : y.b with
      | null => simp
      | zeroed => exact absurd hyb hy1
      | holds ry =>
        simp only
        split <;> [skip; split <;> [skip; split <;> [skip; split]]] <;> rfl

theorem refill_comparable (q : Bool) (h : heap1_t) (idx : Nat) (rs : List bam1_t) :
    comparable q (refill h idx (clean rs)).1 := by
  intro _
  cases rs with
  | nil => simp [clean, refill]
  | cons r rs => simp [clean, refill]

section mergesome
variable {κ : Type} [LinearOrder κ]

theorem merge_loop_returns (w q : Bool) (prio : heap1_t → κ) (le : bam1_t → bam1_t → Prop)
    (P : bam1_t → Prop) (hag : lt_agrees (heap_lt w q) prio)
    (hle : ∀ x y r1 r2, x.b = bam1_buf.holds r1 → y.b = bam1_buf.holds r2 →
      x.pos = composite_key r1 → y.pos = composite_key r2 → P r1 → P r2 →
      prio x ≤ prio y → le r1 r2)
    (n : Nat) (hn : 0 < n) (fuel : Nat) : ∀ s : merge_state, merge_inv prio le P n s →
      (∀ c ∈ s.heap, comparable q c) → turns_left s < fuel →
      (merge_loop w q n fuel s).exit = exit_t.returned 0 := by
  induction fuel with
  | zero => intro s _ _ h; omega
  | succ fuel ih =>
    intro s inv hcmp hfuel
    unfold merge_loop
    cases hs : s.heap with
    | nil =>
      have := inv.heap_len
      rw [hs] at this
      simp at this
      omega
    | cons h t =>
      simp only
      by_cases hne : h.pos = HEAP_EMPTY
      · rw [if_pos hne]
      · rw [if_neg hne]
        obtain ⟨r, hb, hk, _, hlast, rs, hfp, hch, _⟩ := inv.cur h (by rw [hs]; simp) hne
        rw [hb, hfp]
        simp only
        have hcmp1 : ∀ c ∈ (h :: t).set 0 (refill h s.idx (clean rs)).1, comparable q c := by
          intro c hc
          simp only [List.set_cons_zero, List.mem_cons] at hc
          rcases hc with hc | hc
          · rw [hc]; exact refill_comparable q h s.idx rs
          · exact hcmp c (by rw [hs]; exact List.mem_cons_of_mem _ hc)
        have hl : ((h :: t).set 0 (refill h s.idx (clean rs)).1).length = n := by
          rw [List.length_set, ← hs]; exact inv.heap_len
        obtain ⟨heap1, hadj⟩ := heapadjust_some (heap_lt w q) 0 _ (by rw [hl]; exact hn)
          (fun x y hx hy => heap_lt_some w q x y (hcmp1 x hx) (hcmp1 y hy))
        rw [hl] at hadj
        rw [hadj]
        simp only
        rw [← hs] at hadj
        have hp := merge_step_perm w q prio le P hag n s inv h t hs _ heap1 hadj
        apply ih _ (merge_step_inv w q prio le P hag hle n s inv h t hs hne r hb rs hfp heap1 hadj)
        · intro c hc
          apply hcmp1 c
          rw [List.set_cons_zero]
          exact (List.Perm.mem_iff hp).1 hc
        · have := merge_step_turns w q prio le P hag n s inv h t hs hne (clean rs) hfp heap1
            (s.out ++ [r]) hadj
          omega

theorem prime_holds : ∀ (rss : List (List bam1_t)) (i idx : Nat),
    (∀ rs ∈ rss, rs ≠ []) →
    ∀ c ∈ (prime_cursors (rss.map clean) i idx).1, ∃ r, c.b = bam1_buf.holds r := by
  intro rss
  induction rss with
  | nil => intro i idx _ c hc; simp [prime_cursors] at hc
  | cons rs0 rest ih =>
    intro i idx hne c hc
    cases rs0 with
    | nil => exact absurd rfl (hne [] (List.mem_cons_self _ _))
    | cons r0 rs1 =>
      simp only [List.map_cons, clean, prime_cursors, List.mem_cons] at hc
      rcases hc with hc | hc
      · exact ⟨r0, by rw [hc]⟩
      · exact ih (i + 1) _ (fun rs h => hne rs (List.mem_cons_of_mem _ h)) c hc

theorem merge_returns_gen (w q : Bool) (prio : heap1_t → κ)
    (hag : lt_agrees (heap_lt w q) prio) (rss : List (List bam1_t)) (hne : rss ≠ [])
    (hcmp : ∀ c ∈ (prime_cursors (rss.map clean) 0 0).1, comparable q c) :
    (bam_merge_core_ext w q (rss.map clean)).exit = exit_t.returned 0 := by
  unfold bam_merge_core_ext
  have t1 := prime_turns (rss.map clean) 0 0
  obtain ⟨heap, hm⟩ := heapmake_some (heap_lt w q) prio hag (prime_cursors (rss.map clean) 0 0).1
    (fun x y hx hy => heap_lt_some w q x y (hcmp x hx) (hcmp y hy))
  rw [t1.2] at hm
  rw [hm]
  simp only
  obtain ⟨hp, inv⟩ := merge_init_inv w q prio (fun _ _ => True) (fun _ => True) hag rss
    (fun rs _ => chain_true rs) (fun _ _ _ _ => trivial) heap hm
  apply merge_loop_returns w q prio (fun _ _ => True) (fun _ => True) hag
    (fun _ _ _ _ _ _ _ _ _ _ _ => trivial) _ ?_ _ _ inv
  · intro c hc
    exact hcmp c ((List.Perm.mem_iff hp).1 hc)
  · unfold turns_left
    simp only
    have : heap.countP (fun c => decide (c.pos ≠ HEAP_EMPTY)) ≤ heap.length :=
      List.countP_le_length _
    rw [hp.length_eq, t1.2] at this
    omega
  · rw [List.length_map]
    exact List.length_pos.2 hne

end mergesome

/-- The merge returns 0 on inputs that end cleanly, provided there is at least one input
and, in query-name mode, no input is empty unless it is the only one. -/
theorem merge_returns (w q : Bool) (inputs : List (List bam1_t)) (hne : inputs ≠ [])
    (hq : q = true → inputs.length = 1 ∨ ∀ rs ∈ inputs, rs ≠ []) :
    (bam_merge_core_ext w q (inputs.map clean)).exit = exit_t.returned 0 := by
  cases q with
  | false =>
    exact merge_returns_gen w false pos_prio (heap_lt_pos_agrees w) inputs hne
      (fun c _ h => by cases h)
  | true =>
    have hall : (∀ rs ∈ inputs, rs ≠ []) →
        (bam_merge_core_ext w true (inputs.map clean)).exit = exit_t.returned 0 := by
      intro h
      apply merge_returns_gen w true (qname_prio w) (heap_lt_qname_agrees w) inputs hne
      intro c hc _
      obtain ⟨r, hr⟩ := prime_holds inputs 0 0 h c hc
      rw [hr]
      simp
    rcases hq rfl with h1 | h2
    · match inputs, h1 with
      | [rs], _ =>
        cases rs with
        | nil => cases w <;> rfl
        | cons r rs =>
          apply hall
          intro x hx
          simp only [List.mem_singleton] at hx
          rw [hx]
          simp
    · exact hall h2

theorem run_loop_runs_ne {κ : Type} [LinearOrder κ] (lt : bam1_t → bam1_t → Bool)
    (key : bam1_t → κ) (hk : lt_by_key lt key) (m : Nat) :
    ∀ (input : List (bam1_t × Nat)) (mem : Nat) (buf : List bam1_t) (runs : List (List bam1_t))
      (res : List (List bam1_t) × List bam1_t),
      run_loop lt m input mem buf runs = some res → (∀ r ∈ runs, r ≠ []) →
      ∀ r ∈ res.1, r ≠ [] := by
  intro input
  induction input with
  | nil =>
    intro mem buf runs res h hr
    unfold run_loop at h
    split at h
    · cases h; exact hr
    · cases h
  | cons x rest ih =>
    intro mem buf runs res h hr
    obtain ⟨b, ret⟩ := x
    unfold run_loop at h
    split at h
    · split at h
      · apply ih _ _ _ _ h
        intro r hrm
        rcases List.mem_append.1 hrm with h1 | h1
        · exact hr r h1
        · simp only [List.mem_singleton] at h1
          rw [h1]
          intro e
          have := (ks_mergesort_perm lt key hk (buf ++ [b])).length_eq
          rw [e] at this
          simp at this
      · exact ih _ _ _ _ h hr
    · cases h

theorem sort_returns_gen {κ : Type} [LinearOrder κ] (w q : Bool) (key : bam1_t → κ)
    (hk : lt_by_key (bam1_lt w q) key) (m : Nat) (input : List (bam1_t × Nat))
    (runs : List (List bam1_t)) (buf : List bam1_t)
    (hrl : run_loop (bam1_lt w q) m input 0 [] [] = some (runs, buf))
    (hq : q = true → runs ≠ [] → buf ≠ []) :
    (bam_sort_core_ext w q m input).exit = exit_t.returned 0 := by
  unfold bam_sort_core_ext
  rw [hrl]
  simp only
  split
  · rfl
  · rename_i hne
    apply merge_returns w q _ (by simp)
    intro hqt
    right
    intro rs hrs
    rcases List.mem_append.1 hrs with h1 | h1
    · exact run_loop_runs_ne _ key hk m input 0 [] [] _ hrl (by simp) rs h1
    · simp only [List.mem_singleton] at h1
      rw [h1]
      intro e
      have := (ks_mergesort_perm (bam1_lt w q) key hk buf).length_eq
      rw [e] at this
      exact hq hqt hne (List.length_eq_zero.1 this.symm)

/-- The sort returns 0 when the run generator stays inside its slot array and, in
query-name mode with several runs, the last run is not empty. -/
theorem sort_returns (w q : Bool) (m : Nat) (input : List (bam1_t × Nat))
    (runs : List (List bam1_t)) (buf : List bam1_t)
    (hrl : run_loop (bam1_lt w q) m input 0 [] [] = some (runs, buf))
    (hq : q = true → runs ≠ [] → buf ≠ []) :
    (bam_sort_core_ext w q m input).exit = exit_t.returned 0 := by
  cases q with
  | false => exact sort_returns_gen w false sort_key (bam1_lt_pos_key w) m input runs buf hrl hq
  | true =>
    exact sort_returns_gen w true (rec_key w) (bam1_lt_qname_key w) m input runs buf hrl hq

/-! ## C11: warts are skipped when the flag is on -/

theorem skip_warts_append (a : List Char) :
    ∀ w : List Char, is_warts w = true → skip_warts (w ++ a) = skip_warts a
  | [], _ => rfl
  | [_], h => by simp [is_warts] at h
  | c :: d :: rest, h => by
    simp only [is_warts, Bool.and_eq_true, Bool.or_eq_true, decide_eq_true_eq] at h
    obtain ⟨⟨hc, hd⟩, hr⟩ := h
    have hc1 : c = 'M' ∨ c = 'F' ∨ c = 'R' ∨ c = 'C' := by tauto
    simp only [List.cons_append]
    rw [skip_warts, if_pos ⟨hc1, hd⟩]
    exact skip_warts_append a rest hr

/-- C11: with `g_ignore_warts` set, a prefix `w` made of warts `M_`, `F_`, `R_`, `C_` in
front of either argument does not change the result of `strnum_cmp`; in particular
`strnum_cmp("M_read1", "read1")` is 0. -/
theorem warts_on_ignored (w a b : List Char) (hw : is_warts w = true) :
    strnum_cmp true (w ++ a) b = strnum_cmp true a b ∧
      strnum_cmp true a (w ++ b) = strnum_cmp true a b ∧
      strnum_cmp true "M_read1".toList "read1".toList = 0 := by
  refine ⟨?_, ?_, by decide⟩
  · simp only [strnum_cmp, if_true, skip_warts_append _ w hw]
  · simp only [strnum_cmp, if_true, skip_warts_append _ w hw]

theorem warts_on_ignored_witness :
    is_warts "M_R_".toList = true ∧
      strnum_cmp true ("M_R_".toList ++ "read10".toList) "C_read9".toList
        = strnum_cmp true "read10".toList "C_read9".toList ∧
      strnum_cmp true "read10".toList ("M_R_".toList ++ "C_read9".toList)
        = strnum_cmp true "read10".toList "C_read9".toList :=
  ⟨by decide, (warts_on_ignored "M_R_".toList "read10".toList "C_read9".toList (by decide)).1,
    (warts_on_ignored "M_R_".toList "read10".toList "C_read9".toList (by decide)).2.1⟩

/-! ## C12: the record order is a strict weak ordering -/

theorem cmp3_le {κ : Type} [LinearOrder κ] (x y : κ) : cmp3 x y ≤ 0 ↔ x ≤ y := by
  unfold cmp3
  by_cases h1 : x < y
  · simp [h1, le_of_lt h1]
  · by_cases h2 : y < x
    · simp [h1, h2]
    · simp [h1, h2, le_of_not_lt h2]

theorem cmp3_antisymm {κ : Type} [LinearOrder κ] (x y : κ) : cmp3 x y = - cmp3 y x := by
  unfold cmp3
  by_cases h1 : x < y
  · simp [h1, not_lt_of_lt h1]
  · by_cases h2 : y < x
    · simp [h1, h2]
    · simp [h1, h2]

theorem strict_weak_of_key {α κ : Type} [LinearOrder κ] (lt : α → α → Bool) (key : α → κ)
    (hk : lt_by_key lt key) :
    (∀ a, lt a a = false) ∧
    (∀ a b c, lt a b = true → lt b c = true → lt a c = true) ∧
    (∀ a b c, lt a b = false ∧ lt b a = false → lt b c = false ∧ lt c b = false →
      lt a c = false ∧ lt c a = false) := by
  have hf : ∀ a b, lt a b = false ↔ key b ≤ key a := by
    intro a b
    rw [← not_lt, ← hk a b]
    simp
  refine ⟨fun a => (hf a a).2 (le_refl _), ?_, ?_⟩
  · intro a b c h1 h2
    exact (hk a c).2 (lt_trans ((hk a b).1 h1) ((hk b c).1 h2))
  · rintro a b c ⟨h1, h2⟩ ⟨h3, h4⟩
    rw [hf] at h1 h2 h3 h4 ⊢
    rw [hf]
    exact ⟨le_trans h3 h1, le_trans h2 h4⟩

/-- C12: in each mode, with or without wart-stripping, `bam1_lt` is irreflexive and
transitive and its incomparability relation is transitive (a strict weak ordering), and
`strnum_cmp` is antisymmetric, `strnum_cmp(a,b) = -strnum_cmp(b,a)`, and transitive (for
`< 0`, for `<= 0` and for `= 0`). -/
theorem bam1_lt_strict_weak (ignore_warts by_qname : Bool) :
    (∀ a, bam1_lt ignore_warts by_qname a a = false) ∧
    (∀ a b c, bam1_lt ignore_warts by_qname a b = true →
      bam1_lt ignore_warts by_qname b c = true → bam1_lt ignore_warts by_qname a c = true) ∧
    (∀ a b c,
      bam1_lt ignore_warts by_qname a b = false ∧ bam1_lt ignore_warts by_qname b a = false →
      bam1_lt ignore_warts by_qname b c = false ∧ bam1_lt ignore_warts by_qname c b = false →
      bam1_lt ignore_warts by_qname a c = false ∧ bam1_lt ignore_warts by_qname c a = false) ∧
    (∀ x y, strnum_cmp ignore_warts x y = - strnum_cmp ignore_warts y x) ∧
    (∀ x y z, strnum_cmp ignore_warts x y < 0 → strnum_cmp ignore_warts y z < 0 →
      strnum_cmp ignore_warts x z < 0) ∧
    (∀ x y z, strnum_cmp ignore_warts x y ≤ 0 → strnum_cmp ignore_warts y z ≤ 0 →
      strnum_cmp ignore_warts x z ≤ 0) ∧
    (∀ x y z, strnum_cmp ignore_warts x y = 0 → strnum_cmp ignore_warts y z = 0 →
      strnum_cmp ignore_warts x z = 0) := by
  have hsw : (∀ a, bam1_lt ignore_warts by_qname a a = false) ∧
      (∀ a b c, bam1_lt ignore_warts by_qname a b = true →
        bam1_lt ignore_warts by_qname b c = true → bam1_lt ignore_warts by_qname a c = true) ∧
      (∀ a b c,
        bam1_lt ignore_warts by_qname a b = false ∧ bam1_lt ignore_warts by_qname b a = false →
        bam1_lt ignore_warts by_qname b c = false ∧ bam1_lt ignore_warts by_qname c b = false →
        bam1_lt ignore_warts by_qname a c = false ∧ bam1_lt ignore_warts by_qname c a = false) := by
    cases by_qname
    · exact strict_weak_of_key _ _ (bam1_lt_pos_key ignore_warts)
    · exact strict_weak_of_key _ _ (bam1_lt_qname_key ignore_warts)
  refine ⟨hsw.1, hsw.2.1, hsw.2.2, ?_, ?_, ?_, ?_⟩
  · intro x y
    rw [strnum_cmp_eq, strnum_cmp_eq]
    exact cmp3_antisymm _ _
  · intro x y z
    simp only [strnum_cmp_eq, cmp3_neg]
    exact lt_trans
  · intro x y z
    simp only [strnum_cmp_eq, cmp3_le]
    exact le_trans
  · intro x y z
    simp only [strnum_cmp_eq, cmp3_eq_zero]
    exact Eq.trans

/-! ## C13: a truncated read in the merge loop -/

/-- C13, on the code: the branch for a truncated read only prints its message and leaves
the root cursor as it was, key and buffer, so the record just written is at the root again
and is written a second time: with a first input that delivers one record, then a truncated
read, then the end of the file, that record is emitted twice. The claim has the cursor
exhausted at once, as the branch for the clean end of the file does. -/
theorem merge_truncated_reemits :
    (∀ (h : heap1_t) (idx : Nat) (s : List read_t),
      refill h idx (read_t.trunc :: s) = (h, s, idx)) ∧
    (∀ (h : heap1_t) (idx : Nat),
      (refill h idx []).1.pos = HEAP_EMPTY ∧ (refill h idx []).1.b = bam1_buf.null) ∧
    bam_merge_core_ext false false
        [[read_t.ok (rec_of 0 1 0 "a1"), read_t.trunc], clean [rec_of 0 5 0 "b1"]]
      = ⟨[rec_of 0 1 0 "a1", rec_of 0 1 0 "a1", rec_of 0 5 0 "b1"], exit_t.returned 0⟩ := by
  refine ⟨fun _ _ _ => rfl, fun _ _ => ⟨rfl, rfl⟩, by decide⟩

/-! ## C14 and C15: the reconciliation of the input headers -/

theorem names_differ_spec (a b : List (List Char)) : ∀ (c j : Nat),
    j + c ≤ a.length → j + c ≤ b.length →
    (names_differ a b j c = some false ∧ ∀ k, j ≤ k → k < j + c → a[k]? = b[k]?) ∨
    (names_differ a b j c = some true ∧ ∃ k, j ≤ k ∧ k < j + c ∧ a[k]? ≠ b[k]?) := by
  intro c
  induction c with
  | zero =>
    intro j _ _
    left
    exact ⟨rfl, fun k h1 h2 => by omega⟩
  | succ c ih =>
    intro j ha hb
    have hja : j < a.length := by omega
    have hjb : j < b.length := by omega
    have ea : a[j]? = some a[j] := List.getElem?_eq_getElem hja
    have eb : b[j]? = some b[j] := List.getElem?_eq_getElem hjb
    unfold names_differ
    rw [ea, eb]
    by_cases hne : a[j] ≠ b[j]
    · right
      dsimp only
      rw [if_pos hne]
      exact ⟨rfl, j, le_refl _, by omega, by rw [ea, eb]; simpa using hne⟩
    · dsimp only
      rw [if_neg hne]
      rcases ih (j + 1) (by omega) (by omega) with ⟨h1, h2⟩ | ⟨h1, k, h2, h3, h4⟩
      · left
        refine ⟨h1, fun k hk1 hk2 => ?_⟩
        by_cases hkj : k = j
        · subst hkj
          rw [ea, eb]
          simpa using hne
        · exact h2 k (by omega) (by omega)
      · right
        exact ⟨h1, k, by omega, by omega, h4⟩

theorem take_eq_of_getElem? {α : Type} (a b : List α) (m : Nat)
    (h : ∀ k, k < m → a[k]? = b[k]?) : a.take m = b.take m := by
  apply List.ext_getElem?
  intro k
  by_cases hk : k < m
  · rw [List.getElem?_take_of_lt hk, List.getElem?_take_of_lt hk]
    exact h k hk
  · rw [List.getElem?_take_eq_none (by omega), List.getElem?_take_eq_none (by omega)]

theorem read_headers_spec : ∀ (rest : List bam_header_t) (hout : bam_header_t),
    hout.target_name.length = hout.n_targets →
    (∀ h ∈ rest, h.target_name.length = h.n_targets) →
    (read_headers hout rest = headers_t.returned (-1) ∨
      ∃ res, read_headers hout rest = headers_t.done (some res) ∧
        res.target_name.length = res.n_targets ∧
        hout.target_name <+: res.target_name ∧
        (∀ h ∈ rest, h.target_name <+: res.target_name) ∧
        (res.n_targets = hout.n_targets ∨ ∃ h ∈ rest, res.n_targets = h.n_targets)) := by
  intro rest
  induction rest with
  | nil =>
    intro hout hw _
    right
    exact ⟨hout, rfl, hw, List.prefix_refl _, by simp, Or.inl rfl⟩
  | cons hin rest ih =>
    intro hout hw hr
    have hwi : hin.target_name.length = hin.n_targets := hr hin (List.mem_cons_self _ _)
    have hrr : ∀ h ∈ rest, h.target_name.length = h.n_targets :=
      fun h hh => hr h (List.mem_cons_of_mem _ hh)
    unfold read_headers
    rcases names_differ_spec hout.target_name hin.target_name
        (if hin.n_targets < hout.n_targets then hin.n_targets else hout.n_targets) 0
        (by split <;> omega) (by split <;> omega) with ⟨h1, h2⟩ | ⟨h1, _⟩
    · rw [h1]
      simp only
      have ht := take_eq_of_getElem? hout.target_name hin.target_name
        (if hin.n_targets < hout.n_targets then hin.n_targets else hout.n_targets)
        (fun k hk => h2 k (Nat.zero_le _) (by omega))
      by_cases hgt : hin.n_targets > hout.n_targets
      · rw [if_pos hgt]
        rw [if_neg (by omega)] at ht
        have hpre : hout.target_name <+: hin.target_name := by
          rw [List.prefix_iff_eq_take, hw, ← ht, ← hw, List.take_length]
        rcases ih (swap_header_targets hout hin).1 hwi hrr with h | ⟨res, e, w, p, q, n⟩
        · exact Or.inl h
        · right
          refine ⟨res, e, w, List.IsPrefix.trans hpre p, ?_, ?_⟩
          · intro h hh
            rcases List.mem_cons.1 hh with rfl | hh
            · exact p
            · exact q h hh
          · right
            rcases n with n | ⟨h, hh, n⟩
            · exact ⟨hin, List.mem_cons_self _ _, n⟩
            · exact ⟨h, List.mem_cons_of_mem _ hh, n⟩
      · rw [if_neg hgt]
        have hpre : hin.target_name <+: hout.target_name := by
          rw [List.prefix_iff_eq_take, hwi]
          by_cases hlt : hin.n_targets < hout.n_targets
          · rw [if_pos hlt] at ht
            rw [ht, ← hwi, List.take_length]
          · rw [if_neg hlt] at ht
            have e : hin.n_targets = hout.n_targets := by omega
            rw [e, ht, ← e, ← hwi, List.take_length]
        rcases ih hout hw hrr with h | ⟨res, e, w, p, q, n⟩
        · exact Or.inl h
        · right
          refine ⟨res, e, w, p, ?_, ?_⟩
          · intro h hh
            rcases List.mem_cons.1 hh with rfl | hh
            · exact List.IsPrefix.trans hpre p
            · exact q h hh
          · rcases n with n | ⟨h, hh, n⟩
            · exact Or.inl n
            · exact Or.inr ⟨h, List.mem_cons_of_mem _ hh, n⟩
    · rw [h1]
      exact Or.inl rfl

theorem open_inputs_spec (hins : List bam_header_t)
    (hw : ∀ h ∈ hins, h.target_name.length = h.n_targets) :
    open_inputs hins = headers_t.done none ∧ hins = [] ∨
    open_inputs hins = headers_t.returned (-1) ∨
      ∃ res, open_inputs hins = headers_t.done (some res) ∧
        res.target_name.length = res.n_targets ∧
        (∀ h ∈ hins, h.target_name <+: res.target_name) ∧
        ∃ h ∈ hins, res.n_targets = h.n_targets := by
  cases hins with
  | nil => exact Or.inl ⟨rfl, rfl⟩
  | cons h0 rest =>
    right
    rcases read_headers_spec rest h0 (hw h0 (List.mem_cons_self _ _))
        (fun h hh => hw h (List.mem_cons_of_mem _ hh)) with h | ⟨res, e, w, p, q, n⟩
    · exact Or.inl h
    · right
      refine ⟨res, e, w, ?_, ?_⟩
      · intro h hh
        rcases List.mem_cons.1 hh with rfl | hh
        · exact p
        · exact q h hh
      · rcases n with n | ⟨h, hh, n⟩
        · exact ⟨h0, List.mem_cons_self _ _, n⟩
        · exact ⟨h, List.mem_cons_of_mem _ hh, n⟩

theorem foldr_max_eq (l : List Nat) (m : Nat) (hle : ∀ x ∈ l, x ≤ m) (hex : m ∈ l) :
    l.foldr max 0 = m := by
  induction l with
  | nil => simp at hex
  | cons x l ih =>
    simp only [List.foldr_cons]
    have hx : x ≤ m := hle x (List.mem_cons_self _ _)
    have hl : l.foldr max 0 ≤ m := by
      clear ih hex
      induction l with
      | nil => simp
      | cons y l ih2 =>
        simp only [List.foldr_cons]
        refine max_le (hle y (by simp)) (ih2 ?_)
        intro z hz
        rcases List.mem_cons.1 hz with rfl | hz
        · exact hx
        · exact hle z (by simp [hz])
    rcases List.mem_cons.1 hex with rfl | h
    · exact max_eq_left hl
    · rw [ih (fun y hy => hle y (List.mem_cons_of_mem _ hy)) h]
      exact max_eq_right hx

theorem merge_headers_done (hheaders : Option bam_header_t) (reg : Bool)
    (hins : List bam_header_t) (hout : bam_header_t)
    (hd : merge_headers hheaders reg hins = headers_t.done (some hout)) :
    ∃ res, open_inputs hins = headers_t.done (some res) ∧
      hout.n_targets = res.n_targets ∧ hout.target_name = res.target_name := by
  unfold merge_headers at hd
  cases ho : open_inputs hins with
  | returned r => rw [ho] at hd; simp at hd
  | fault => rw [ho] at hd; simp at hd
  | done o =>
    rw [ho] at hd
    cases hheaders with
    | none =>
      simp only [headers_t.done.injEq] at hd
      subst hd
      exact ⟨hout, rfl, rfl, rfl⟩
    | some hh =>
      simp only at hd
      cases o with
      | none => simp [override_header] at hd
      | some res =>
        refine ⟨res, rfl, ?_⟩
        simp only [override_header] at hd
        split at hd
        · split at hd
          · simp at hd
          · split at hd
            · simp at hd
            · simp at hd
            · simp only [headers_t.done.injEq, Option.some.injEq] at hd
              subst hd
              exact ⟨rfl, rfl⟩
        · simp only [headers_t.done.injEq, Option.some.injEq] at hd
          subst hd
          exact ⟨rfl, rfl⟩

theorem merge_headers_returned (hheaders : Option bam_header_t) (reg : Bool)
    (hins : List bam_header_t) (r : Int) (h : open_inputs hins = headers_t.returned r) :
    merge_headers hheaders reg hins = headers_t.returned r := by
  unfold merge_headers
  rw [h]

/-- C14: when the header part of `bam_merge_core_ext` goes through (no `return -1`) for
input headers that each hold `n_targets` names, the output header has the largest target
count of the inputs and the names of every input header are the first names of the output
header. -/
theorem reconcile_keeps_longest (hheaders : Option bam_header_t) (reg : Bool)
    (hins : List bam_header_t) (hout : bam_header_t)
    (hwf : ∀ h ∈ hins, h.target_name.length = h.n_targets)
    (hd : merge_headers hheaders reg hins = headers_t.done (some hout)) :
    hout.n_targets = (hins.map fun h => h.n_targets).foldr max 0 ∧
      hout.target_name.length = hout.n_targets ∧
      ∀ h ∈ hins, h.target_name = hout.target_name.take h.n_targets := by
  obtain ⟨res, ho, en, et⟩ := merge_headers_done hheaders reg hins hout hd
  rcases open_inputs_spec hins hwf with ⟨h, _⟩ | h | ⟨res1, e, w, p, h0, hh0, n⟩
  · rw [ho] at h; simp at h
  · rw [ho] at h; simp at h
  · rw [ho] at e
    simp only [headers_t.done.injEq, Option.some.injEq] at e
    subst e
    refine ⟨?_, by rw [en, et]; exact w, ?_⟩
    · rw [en]
      symm
      apply foldr_max_eq
      · intro x hx
        obtain ⟨h, hh, rfl⟩ := List.mem_map.1 hx
        rw [← hwf h hh, ← w]
        exact (p h hh).length_le
      · exact List.mem_map.2 ⟨h0, hh0, n.symm⟩
    · intro h hh
      rw [et, ← hwf h hh]
      exact List.prefix_iff_eq_take.1 (p h hh)

theorem reconcile_keeps_longest_witness :
    (∀ h ∈ [header_of [("chr1", 10)], header_of [("chr1", 10), ("chr2", 20)],
        header_of [("chr1", 10)]], h.target_name.length = h.n_targets) ∧
    merge_headers none false [header_of [("chr1", 10)], header_of [("chr1", 10), ("chr2", 20)],
        header_of [("chr1", 10)]] = headers_t.done (some (header_of [("chr1", 10), ("chr2", 20)])) ∧
    (header_of [("chr1", 10), ("chr2", 20)]).n_targets
      = ([header_of [("chr1", 10)], header_of [("chr1", 10), ("chr2", 20)],
        header_of [("chr1", 10)]].map fun h => h.n_targets).foldr max 0 :=
  ⟨by decide, by decide,
    (reconcile_keeps_longest none false [header_of [("chr1", 10)],
      header_of [("chr1", 10), ("chr2", 20)], header_of [("chr1", 10)]]
      (header_of [("chr1", 10), ("chr2", 20)]) (by decide) (by decide)).1⟩

/-- C15, as stated, fails: with a region given, two inputs whose first target names differ
make the header part of `bam_merge_core_ext` return `-1`; the merge does not proceed. -/
theorem input_mismatch_counterexample :
    merge_headers none true [header_of [("chr1", 1000)], header_of [("chr2", 1000)]]
      = headers_t.returned (-1) := by
  decide

/-- C15, amended: when two input headers (each holding `n_targets` names) differ in a name
at an index below both target counts, the header part of `bam_merge_core_ext` returns `-1`
whether or not a region is given. The relaxation `if (!reg) return -1;` belongs to the
checks of the override header only: there a differing name returns `-1` without a region
and lets the merge go on with one. -/
theorem input_mismatch_returns (hheaders : Option bam_header_t) (reg : Bool)
    (hins : List bam_header_t) (hwf : ∀ h ∈ hins, h.target_name.length = h.n_targets)
    (a b : bam_header_t) (ha : a ∈ hins) (hb : b ∈ hins) (k : Nat)
    (hka : k < a.n_targets) (hkb : k < b.n_targets)
    (hne : a.target_name[k]? ≠ b.target_name[k]?) :
    merge_headers hheaders reg hins = headers_t.returned (-1) ∧
      merge_headers (some (header_of [("chr2", 10)])) false [header_of [("chr1", 10)]]
        = headers_t.returned (-1) ∧
      merge_headers (some (header_of [("chr2", 10)])) true [header_of [("chr1", 10)]]
        = headers_t.done (some (header_of [("chr1", 10)])) := by
  refine ⟨?_, by decide, by decide⟩
  rcases open_inputs_spec hins hwf with ⟨_, h⟩ | h | ⟨res, _, _, p, _⟩
  · subst h; simp at ha
  · exact merge_headers_returned hheaders reg hins _ h
  · exfalso
    apply hne
    have e1 := List.prefix_iff_eq_take.1 (p a ha)
    have e2 := List.prefix_iff_eq_take.1 (p b hb)
    rw [e1, e2, List.getElem?_take_of_lt (by rw [hwf a ha]; exact hka),
      List.getElem?_take_of_lt (by rw [hwf b hb]; exact hkb)]

theorem input_mismatch_returns_witness :
    merge_headers none false [header_of [("chr1", 1000), ("chr2", 500)],
        header_of [("chr1", 1000), ("chrX", 500), ("chr3", 100)]]
      = headers_t.returned (-1) ∧
    merge_headers none true [header_of [("chr1", 1000), ("chr2", 500)],
        header_of [("chr1", 1000), ("chrX", 500), ("chr3", 100)]]
      = headers_t.returned (-1) :=
  ⟨(input_mismatch_returns none false [header_of [("chr1", 1000), ("chr2", 500)],
        header_of [("chr1", 1000), ("chrX", 500), ("chr3", 100)]]
      (by decide) (header_of [("chr1", 1000), ("chr2", 500)])
      (header_of [("chr1", 1000), ("chrX", 500), ("chr3", 100)])
      (by decide) (by decide) 1 (by decide) (by decide) (by decide)).1,
    (input_mismatch_returns none true [header_of [("chr1", 1000), ("chr2", 500)],
        header_of [("chr1", 1000), ("chrX", 500), ("chr3", 100)]]
      (by decide) (header_of [("chr1", 1000), ("chr2", 500)])
      (header_of [("chr1", 1000), ("chrX", 500), ("chr3", 100)])
      (by decide) (by decide) 1 (by decide) (by decide) (by decide)).1⟩

/-! ## C16: the read-group name is the basename without `.bam` -/

theorem basename_snoc (l : List Char) (x : Char) :
    basename (l ++ [x]) = if x = '/' then [] else basename l ++ [x] := by
  unfold basename
  rw [List.reverse_append, List.reverse_singleton, List.singleton_append, List.takeWhile_cons]
  by_cases h : x = '/'
  · simp [h]
  · simp [h]

theorem basename_append (t u : List Char) (h : '/' ∉ u) :
    basename (t ++ u) = basename t ++ u := by
  induction u using List.reverseRecOn with
  | nil => simp
  | append_singleton u x ih =>
    have hx : x ≠ '/' := by
      intro e
      exact h (by simp [e])
    have hu : '/' ∉ u := fun m => h (by simp [m])
    rw [← List.append_assoc, basename_snoc, if_neg hx, ih hu, List.append_assoc]

theorem basename_suffix (p : List Char) : basename p <:+ p := by
  unfold basename
  have h := List.takeWhile_prefix (fun c => decide (c ≠ '/')) (l := p.reverse)
  have h2 := List.reverse_suffix.2 h
  rwa [List.reverse_reverse] at h2

theorem rg_start_spec (s : List Char) : ∀ c, c ≤ s.length →
    rg_start s c ≤ c ∧ (s.take c).drop (rg_start s c) = basename (s.take c) := by
  intro c
  induction c with
  | zero => intro _; simp [rg_start, basename]
  | succ c ih =>
    intro hc
    have hlt : c < s.length := by omega
    obtain ⟨h1, h2⟩ := ih (by omega)
    have et : s.take (c + 1) = s.take c ++ [s[c]] := by
      rw [List.take_succ, List.getElem?_eq_getElem hlt]
      rfl
    have eg : s[c]? = some s[c] := List.getElem?_eq_getElem hlt
    unfold rg_start
    rw [et, basename_snoc, eg]
    by_cases hx : s[c] = '/'
    · rw [if_pos (by rw [hx]), if_pos hx]
      refine ⟨le_refl _, ?_⟩
      apply List.drop_eq_nil_of_le
      simp
    · rw [if_neg (by simpa using hx), if_neg hx]
      refine ⟨by omega, ?_⟩
      rw [List.drop_append_of_le_length (by simp; omega), h2]

theorem rg_name_eq (s : List Char) :
    rg_name s = basename (s.take (if s.length > 4 ∧ s.drop (s.length - 4) = ".bam".toList
      then s.length - 4 else s.length)) := by
  unfold rg_name
  simp only
  generalize hl : (if s.length > 4 ∧ s.drop (s.length - 4) = ".bam".toList
      then s.length - 4 else s.length) = l
  have hle : l ≤ s.length := by
    rw [← hl]
    split <;> omega
  rw [← (rg_start_spec s l hle).2, List.drop_take]

theorem suffix_bam_iff (x : List Char) :
    ".bam".toList <:+ x ↔ 4 ≤ x.length ∧ x.drop (x.length - 4) = ".bam".toList := by
  constructor
  · intro h
    have hl := h.length_le
    have e := List.suffix_iff_eq_drop.1 h
    have h4 : ".bam".toList.length = 4 := by decide
    rw [h4] at hl e
    exact ⟨hl, e.symm⟩
  · rintro ⟨_, h2⟩
    rw [← h2]
    exact List.drop_suffix _ _

/-- C16, as stated, fails: for the path `.bam` the code keeps the whole name (the suffix is
removed only from a path of more than four characters), where the basename without its
trailing `.bam` is empty. -/
theorem rg_name_counterexample :
    rg_name ".bam".toList = ".bam".toList ∧ strip_bam (basename ".bam".toList) = [] := by
  decide

/-- C16, amended: for every path other than `.bam` itself the string `RG[i]` is the
basename of the path with a trailing `.bam` removed if present, e.g. `foo` for `foo.bam`
and `baz` for `bar/baz.bam`; for the path `.bam` it is `.bam`. -/
theorem rg_name_basename (p : List Char) :
    (p ≠ ".bam".toList → rg_name p = strip_bam (basename p)) ∧
      (p = ".bam".toList → rg_name p = ".bam".toList) ∧
      rg_name "foo.bam".toList = "foo".toList ∧
      rg_name "bar/baz.bam".toList = "baz".toList := by
  refine ⟨?_, fun h => by rw [h]; decide, by decide, by decide⟩
  intro hp
  rw [rg_name_eq]
  by_cases hc : p.length > 4 ∧ p.drop (p.length - 4) = ".bam".toList
  · rw [if_pos hc]
    have hsplit : p = p.take (p.length - 4) ++ ".bam".toList := by
      rw [← hc.2, List.take_append_drop]
    have hb : basename p = basename (p.take (p.length - 4)) ++ ".bam".toList := by
      conv_lhs => rw [hsplit]
      exact basename_append _ _ (by decide)
    unfold strip_bam
    rw [hb, if_pos (List.suffix_append _ _)]
    simp
  · rw [if_neg hc, List.take_length]
    unfold strip_bam
    rw [if_neg]
    intro hs
    have hs2 : ".bam".toList <:+ p := hs.trans (basename_suffix p)
    obtain ⟨h4, hd⟩ := (suffix_bam_iff p).1 hs2
    by_cases h5 : p.length > 4
    · exact hc ⟨h5, hd⟩
    · have e4 : p.length = 4 := by omega
      rw [e4] at hd
      exact hp (by simpa using hd)

/-! ## C17 and C18: the two positional keys -/

theorem tid_word_any (t : Int) :
    (u64 t <<< 32) % 2 ^ 64 = 2 ^ 32 * u32 t ∧ u32 t < 2 ^ 32 := by
  unfold u64 u32
  rw [Nat.shiftLeft_eq]
  constructor <;> omega

theorem sort_key_val (r : bam1_t) (h : pos_in_range r) :
    sort_key r = 2 ^ 32 * u32 r.core.tid + (r.core.pos + 1).toNat := by
  obtain ⟨h3, h4⟩ := h
  unfold sort_key
  rw [(tid_word_any _).1]
  have e : u64 (i32 (r.core.pos + 1)) = (r.core.pos + 1).toNat := by
    unfold u64 i32; omega
  rw [e]
  exact (Nat.mul_add_lt_is_or (by omega) _).symm

theorem composite_key_val (r : bam1_t) (h : pos_in_range r) :
    composite_key r = 2 ^ 32 * u32 r.core.tid + (2 * (r.core.pos + 1).toNat + bam1_strand r) := by
  obtain ⟨h3, h4⟩ := h
  unfold composite_key
  rw [(tid_word_any _).1]
  have e : (u32 (i32 (r.core.pos + 1)) <<< 1) % 2 ^ 32 = 2 ^ 1 * (r.core.pos + 1).toNat := by
    unfold u32 i32; rw [Nat.shiftLeft_eq]; omega
  have hs : bam1_strand r < 2 ^ 1 := by unfold bam1_strand; split <;> norm_num
  rw [e, Nat.lor_assoc, ← Nat.mul_add_lt_is_or hs]
  have hb : 2 ^ 1 * (r.core.pos + 1).toNat + bam1_strand r < 2 ^ 32 := by omega
  rw [← Nat.mul_add_lt_is_or hb]
  omega

theorem strand_lt_two (r : bam1_t) : bam1_strand r < 2 := by
  unfold bam1_strand; split <;> norm_num

theorem sort_key_lt_composite (a b : bam1_t) (ha : pos_in_range a) (hb : pos_in_range b)
    (h : sort_key a < sort_key b) : composite_key a < composite_key b := by
  rw [sort_key_val a ha, sort_key_val b hb] at h
  rw [composite_key_val a ha, composite_key_val b hb]
  obtain ⟨a3, a4⟩ := ha
  obtain ⟨b3, b4⟩ := hb
  have := strand_lt_two a
  have := strand_lt_two b
  omega

/-- C17, as stated, fails: at `pos = 2^31 - 1` the key of `bam1_lt` and the composite key
of the heap wrap in different ways; `bam1_lt(a, b)` holds for `a` at position 5 and `b` at
position `2^31 - 1` of the same reference, and the heap puts `b` first. -/
theorem comparators_counterexample :
    (-1 ≤ (rec_of 0 5 0 "a").core.pos ∧ -1 ≤ (rec_of 0 (2 ^ 31 - 1) 0 "b").core.pos) ∧
    bam1_lt false false (rec_of 0 5 0 "a") (rec_of 0 (2 ^ 31 - 1) 0 "b") = true ∧
    heap_lt false false (cursor_of 1 1 (rec_of 0 (2 ^ 31 - 1) 0 "b"))
      (cursor_of 0 0 (rec_of 0 5 0 "a")) = some false ∧
    heap_lt false false (cursor_of 0 0 (rec_of 0 5 0 "a"))
      (cursor_of 1 1 (rec_of 0 (2 ^ 31 - 1) 0 "b")) = some true := by
  decide

/-- C17, amended: for all records `a`, `b` held by cursors of any inputs, in query-name mode
and, for positions `-1 <= pos <= 2^31 - 2`, in positional mode: if `bam1_lt(a, b)` holds
then `heap_lt(cursor(b), cursor(a))` is true and `heap_lt(cursor(a), cursor(b))` is false;
and in query-name mode `heap_lt(x, y) = bam1_lt(y.record, x.record)` for all cursors that
hold a record. -/
theorem comparators_agree (ignore_warts by_qname : Bool) (a b : bam1_t) (ia ja ib jb : Nat)
    (hr : by_qname = false → pos_in_range a ∧ pos_in_range b)
    (hlt : bam1_lt ignore_warts by_qname a b = true) :
    heap_lt ignore_warts by_qname (cursor_of ib jb b) (cursor_of ia ja a) = some true ∧
      heap_lt ignore_warts by_qname (cursor_of ia ja a) (cursor_of ib jb b) = some false ∧
      ∀ (x y : heap1_t) (rx ry : bam1_t), x.b = bam1_buf.holds rx → y.b = bam1_buf.holds ry →
        heap_lt ignore_warts true x y = some (bam1_lt ignore_warts true ry rx) := by
  refine ⟨?_, ?_, fun x y rx ry hx hy => heap_lt_qname_holds ignore_warts x y rx ry hx hy⟩
  · cases by_qname with
    | true =>
      rw [heap_lt_qname_holds ignore_warts _ _ b a rfl rfl, hlt]
    | false =>
      obtain ⟨ha, hb⟩ := hr rfl
      have hk : sort_key a < sort_key b := (bam1_lt_pos_key ignore_warts a b).1 hlt
      have hc := sort_key_lt_composite a b ha hb hk
      simp only [heap_lt, Bool.false_eq_true, if_false, __pos_cmp, cursor_of]
      simp [hc]
  · cases by_qname with
    | true =>
      rw [heap_lt_qname_holds ignore_warts _ _ a b rfl rfl]
      have hsw := (bam1_lt_qname_key ignore_warts a b).1 hlt
      congr 1
      rw [← Bool.not_eq_true]
      intro h2
      exact lt_asymm hsw ((bam1_lt_qname_key ignore_warts b a).1 h2)
    | false =>
      obtain ⟨ha, hb⟩ := hr rfl
      have hk : sort_key a < sort_key b := (bam1_lt_pos_key ignore_warts a b).1 hlt
      have hc := sort_key_lt_composite a b ha hb hk
      simp only [heap_lt, Bool.false_eq_true, if_false, __pos_cmp, cursor_of]
      have h1 : ¬ composite_key a > composite_key b := by omega
      have h2 : ¬ composite_key a = composite_key b := by omega
      simp [h1, h2]

theorem comparators_agree_witness :
    bam1_lt false false (rec_of 0 5 16 "a") (rec_of 1 0 0 "b") = true ∧
    heap_lt false false (cursor_of 0 3 (rec_of 1 0 0 "b")) (cursor_of 1 2 (rec_of 0 5 16 "a"))
      = some true ∧
    heap_lt false false (cursor_of 1 2 (rec_of 0 5 16 "a")) (cursor_of 0 3 (rec_of 1 0 0 "b"))
      = some false :=
  ⟨by decide,
    (comparators_agree false false (rec_of 0 5 16 "a") (rec_of 1 0 0 "b") 1 2 0 3
      (fun _ => by decide) (by decide)).1,
    (comparators_agree false false (rec_of 0 5 16 "a") (rec_of 1 0 0 "b") 1 2 0 3
      (fun _ => by decide) (by decide)).2.1⟩

/-- C18: for records with `tid` in `[-1, 2^31 - 1]` and `pos` in `[-1, 2^31 - 2]` the
composite key of the merge orders by `(tid as uint32, pos, strand)`, lexicographically, and
every record with `tid = -1` has a larger key than every record with `tid >= 0`. -/
theorem composite_key_orders (a b : bam1_t) (ha : in_range a) (hb : in_range b) :
    (composite_key a < composite_key b ↔
      u32 a.core.tid < u32 b.core.tid ∨
        (u32 a.core.tid = u32 b.core.tid ∧
          (a.core.pos < b.core.pos ∨
            (a.core.pos = b.core.pos ∧ bam1_strand a < bam1_strand b)))) ∧
      (a.core.tid = -1 → 0 ≤ b.core.tid → composite_key b < composite_key a) := by
  rw [composite_key_eq a ha, composite_key_eq b hb]
  obtain ⟨a1, a2, a3, a4⟩ := ha
  obtain ⟨b1, b2, b3, b4⟩ := hb
  have hua := (tid_word _ a1 a2).2
  have hub := (tid_word _ b1 b2).2
  have := strand_lt_two a
  have := strand_lt_two b
  constructor
  · omega
  · intro h1 h2
    have e1 : u32 a.core.tid = 2 ^ 32 - 1 := by rw [h1]; decide
    have e2 : u32 b.core.tid < 2 ^ 31 := by unfold u32; omega
    omega

theorem composite_key_orders_witness :
    composite_key (rec_of 3 (2 ^ 31 - 2) 16 "a") < composite_key (rec_of (-1) (-1) 0 "b") :=
  (composite_key_orders (rec_of (-1) (-1) 0 "b") (rec_of 3 (2 ^ 31 - 2) 16 "a")
    (by decide) (by decide)).2 rfl (by decide)

/-! ## C19: where the run generator cuts its runs -/

theorem billed_length_le (pend : List (bam1_t × Nat)) (h : ∀ x ∈ pend, 36 ≤ x.2) :
    36 * pend.length ≤ (pend.map Prod.snd).sum := by
  induction pend with
  | nil => simp
  | cons x l ih =>
    have h1 := h x (List.mem_cons_self _ _)
    have h2 := ih (fun y hy => h y (List.mem_cons_of_mem _ hy))
    simp only [List.length_cons, List.map_cons, List.sum_cons]
    omega

theorem run_loop_cut (lt : bam1_t → bam1_t → Bool) (m : Nat) (hm1 : 256 ≤ m) (hm2 : m ≤ 2 ^ 63) :
    ∀ (input pend : List (bam1_t × Nat)) (runs : List (List bam1_t)),
      (∀ x ∈ input, 36 ≤ x.2 ∧ x.2 < 2 ^ 31) → (∀ x ∈ pend, 36 ≤ x.2) →
      (pend.map Prod.snd).sum < m →
      ∃ (chunks : List (List (bam1_t × Nat))) (last : List (bam1_t × Nat)),
        run_loop lt m input (pend.map Prod.snd).sum (pend.map Prod.fst) runs
          = some (runs ++ chunks.map (fun c => ks_mergesort lt (c.map Prod.fst)),
              last.map Prod.fst) ∧
        pend ++ input = chunks.flatten ++ last ∧
        (∀ c ∈ chunks, m ≤ (c.map Prod.snd).sum ∧ (c.dropLast.map Prod.snd).sum < m ∧
          c.length ≤ m / BAM_CORE_SIZE) ∧
        (last.map Prod.snd).sum < m ∧ last.length < m / BAM_CORE_SIZE := by
  intro input
  induction input with
  | nil =>
    intro pend runs _ hp hs
    have hl := billed_length_le pend hp
    have hcap : pend.length < m / BAM_CORE_SIZE := by
      unfold BAM_CORE_SIZE; omega
    refine ⟨[], pend, ?_, by simp, by simp, hs, hcap⟩
    unfold run_loop
    rw [List.length_map, if_pos hcap]
    simp
  | cons x rest ih =>
    intro pend runs hin hp hs
    obtain ⟨b, ret⟩ := x
    have hl := billed_length_le pend hp
    have hcap : pend.length < m / BAM_CORE_SIZE := by
      unfold BAM_CORE_SIZE; omega
    have hret := hin (b, ret) (List.mem_cons_self _ _)
    simp only at hret
    have hrest : ∀ y ∈ rest, 36 ≤ y.2 ∧ y.2 < 2 ^ 31 :=
      fun y hy => hin y (List.mem_cons_of_mem _ hy)
    have hmod : ((pend.map Prod.snd).sum + ret) % 2 ^ 64 = (pend.map Prod.snd).sum + ret := by
      apply Nat.mod_eq_of_lt
      omega
    unfold run_loop
    rw [List.length_map, if_pos hcap, hmod]
    by_cases hfl : (pend.map Prod.snd).sum + ret ≥ m
    · rw [if_pos hfl]
      obtain ⟨chunks, last, e, hcat, hch, hls, hll⟩ :=
        ih [] (runs ++ [ks_mergesort lt (pend.map Prod.fst ++ [b])]) hrest (by simp)
          (by simp; omega)
      refine ⟨(pend ++ [(b, ret)]) :: chunks, last, ?_, ?_, ?_, hls, hll⟩
      · simp only [List.map_nil, List.sum_nil] at e
        rw [e]
        simp
      · simp only [List.nil_append] at hcat
        simp [hcat]
      · intro c hc
        rcases List.mem_cons.1 hc with rfl | hc
        · refine ⟨by simpa using hfl, by simpa using hs, ?_⟩
          simp only [List.length_append, List.length_singleton]
          omega
        · exact hch c hc
    · rw [if_neg hfl]
      obtain ⟨chunks, last, e, hcat, hch, hls, hll⟩ :=
        ih (pend ++ [(b, ret)]) runs hrest
          (by
            intro y hy
            rcases List.mem_append.1 hy with hy | hy
            · exact hp y hy
            · simp only [List.mem_singleton] at hy
              subst hy
              exact hret.1)
          (by simp; omega)
      refine ⟨chunks, last, ?_, ?_, hch, hls, hll⟩
      · simp only [List.map_append, List.map_cons, List.map_nil, List.sum_append, List.sum_cons,
          List.sum_nil, Nat.add_zero] at e
        exact e
      · rw [← hcat]
        simp

/-- C19, as stated, fails: with `max_mem = 40` the slot array has `40 / 32 = 1` entry; after
one record that bills 36 bytes the run is not flushed (36 < 40) although the number of
buffered records has reached the capacity, and the next turn of the loop uses `buf[1]`. -/
theorem run_generator_counterexample :
    40 / BAM_CORE_SIZE = 1 ∧
    run_loop (bam1_lt false false) 40 [] 36 [rec_of 0 1 0 "a"] [] = none ∧
    run_loop (bam1_lt false false) 40 [(rec_of 0 1 0 "a", 36)] 0 [] [] = none ∧
    bam_sort_core_ext false false 40 [(rec_of 0 1 0 "a", 36)] = ⟨[], exit_t.fault⟩ := by
  decide

/-- C19, amended: for a budget `256 <= max_mem <= 2^63` and records that each bill at least
36 bytes (and fewer than `2^31`), the run generator cuts a run exactly where the billed
bytes first reach `max_mem` (never on the number of buffered records), every run and the
buffer left at the end of the input fit the `max_mem / BAM_CORE_SIZE` slots, and no read
uses a slot outside the array. -/
theorem run_generator_cuts_on_bytes (lt : bam1_t → bam1_t → Bool) (max_mem : Nat)
    (input : List (bam1_t × Nat)) (hm1 : 256 ≤ max_mem) (hm2 : max_mem ≤ 2 ^ 63)
    (hb : ∀ x ∈ input, 36 ≤ x.2 ∧ x.2 < 2 ^ 31) :
    ∃ (chunks : List (List (bam1_t × Nat))) (last : List (bam1_t × Nat)),
      run_loop lt max_mem input 0 [] []
        = some (chunks.map (fun c => ks_mergesort lt (c.map Prod.fst)), last.map Prod.fst) ∧
      input = chunks.flatten ++ last ∧
      (∀ c ∈ chunks, max_mem ≤ (c.map Prod.snd).sum ∧ (c.dropLast.map Prod.snd).sum < max_mem ∧
        c.length ≤ max_mem / BAM_CORE_SIZE) ∧
      (last.map Prod.snd).sum < max_mem ∧ last.length < max_mem / BAM_CORE_SIZE := by
  obtain ⟨chunks, last, e, hcat, h⟩ :=
    run_loop_cut lt max_mem hm1 hm2 input [] [] hb (by simp) (by simp; omega)
  exact ⟨chunks, last, by simpa using e, by simpa using hcat, h⟩

theorem run_generator_cuts_on_bytes_witness :
    ∃ (chunks : List (List (bam1_t × Nat))) (last : List (bam1_t × Nat)),
      run_loop (bam1_lt false false) 256
          [(rec_of 0 9 0 "a", 100), (rec_of 0 5 0 "b", 100), (rec_of 0 7 0 "c", 100),
            (rec_of 0 1 0 "d", 40)] 0 [] []
        = some (chunks.map (fun c => ks_mergesort (bam1_lt false false) (c.map Prod.fst)),
            last.map Prod.fst) ∧
      [(rec_of 0 9 0 "a", 100), (rec_of 0 5 0 "b", 100), (rec_of 0 7 0 "c", 100),
          (rec_of 0 1 0 "d", 40)] = chunks.flatten ++ last ∧
      (∀ c ∈ chunks, 256 ≤ (c.map Prod.snd).sum ∧ (c.dropLast.map Prod.snd).sum < 256 ∧
        c.length ≤ 256 / BAM_CORE_SIZE) ∧
      (last.map Prod.snd).sum < 256 ∧ last.length < 256 / BAM_CORE_SIZE :=
  run_generator_cuts_on_bytes (bam1_lt false false) 256
    [(rec_of 0 9 0 "a", 100), (rec_of 0 5 0 "b", 100), (rec_of 0 7 0 "c", 100),
      (rec_of 0 1 0 "d", 40)] (by decide) (by decide) (by decide)

/-! ## C20: the cursor of an input that is empty at the initial fill -/

/-- C20, on the code: the initial fill gives every cursor a `calloc`ed buffer and, when the
first read of an input fails, only sets the key to `HEAP_EMPTY`: the cursor of an input
that is empty at the initial fill has a non-null buffer before `ks_heapmake` and keeps it
in the heap, where the claim has it null. The refill in the loop does null the buffer at
the clean end of a file. -/
theorem empty_input_keeps_buffer :
    (∀ (rest : List (List read_t)) (i idx : Nat),
      (prime_cursors ([] :: rest) i idx).1.head?
        = some ⟨i, HEAP_EMPTY, 0, bam1_buf.zeroed⟩) ∧
    (prime_cursors [clean [], clean [rec_of 0 7 0 "r1"]] 0 0).1
      = [⟨0, HEAP_EMPTY, 0, bam1_buf.zeroed⟩,
          ⟨1, 16, 0, bam1_buf.holds (rec_of 0 7 0 "r1")⟩] ∧
    ks_heapmake (heap_lt false false) 2
        (prime_cursors [clean [], clean [rec_of 0 7 0 "r1"]] 0 0).1
      = some [⟨1, 16, 0, bam1_buf.holds (rec_of 0 7 0 "r1")⟩,
          ⟨0, HEAP_EMPTY, 0, bam1_buf.zeroed⟩] ∧
    (∀ (h : heap1_t) (idx : Nat), (refill h idx []).1.b = bam1_buf.null) := by
  refine ⟨fun _ _ _ => rfl, by decide, by decide, fun _ _ => rfl⟩

/-! ## C21: the positional merge is stable -/

theorem flatten_update_filter_ne {α : Type} (p : α → Bool) (f : Nat → List α) (i0 : Nat)
    (x : α) (xs : List α) (hf : f i0 = x :: xs) (hx : p x = false) : ∀ L : List Nat,
    ((L.map (Function.update f i0 xs)).flatten).filter p = ((L.map f).flatten).filter p := by
  intro L
  induction L with
  | nil => rfl
  | cons j L ih =>
    simp only [List.map_cons, List.flatten_cons, List.filter_append, ih]
    by_cases hj : j = i0
    · subst hj
      rw [Function.update_same, hf, List.filter_cons_of_neg (by simp [hx])]
    · rw [Function.update_noteq hj]

theorem flatten_update_filter_eq {α : Type} (p : α → Bool) (f : Nat → List α) (i0 : Nat)
    (x : α) (xs : List α) (hf : f i0 = x :: xs) (hx : p x = true) : ∀ L : List Nat,
    L.Pairwise (fun a b => a < b) → i0 ∈ L → (∀ i ∈ L, i < i0 → (f i).filter p = []) →
    ((L.map f).flatten).filter p
      = x :: ((L.map (Function.update f i0 xs)).flatten).filter p := by
  intro L
  induction L with
  | nil => intro _ h; simp at h
  | cons j L ih =>
    intro hpw hmem hlow
    have hpw1 := List.pairwise_cons.1 hpw
    simp only [List.map_cons, List.flatten_cons, List.filter_append]
    by_cases hj : j = i0
    · subst hj
      have hnot : ∀ k ∈ L, Function.update f j xs k = f k := by
        intro k hk
        have := hpw1.1 k hk
        exact Function.update_noteq (by omega) _ _
      rw [Function.update_same, hf, List.filter_cons_of_pos hx, List.map_congr_left hnot]
      rfl
    · have hm : i0 ∈ L := by
        rcases List.mem_cons.1 hmem with e | e
        · exact absurd e.symm hj
        · exact e
      have hlt : j < i0 := hpw1.1 i0 hm
      rw [Function.update_noteq hj, hlow j (List.mem_cons_self _ _) hlt,
        ih hpw1.2 hm (fun i hi => hlow i (List.mem_cons_of_mem _ hi))]
      rfl

theorem chain_key_head (w : Bool) : ∀ (rs : List bam1_t) (r : bam1_t),
    (r :: rs).Chain' (merge_le w false) → ∀ x ∈ rs, composite_key r ≤ composite_key x := by
  intro rs
  induction rs with
  | nil => intro r _ x hx; simp at hx
  | cons r1 rs ih =>
    intro r hch x hx
    have h1 := List.chain'_cons.1 hch
    have h01 : composite_key r ≤ composite_key r1 := by
      simpa [merge_le] using h1.1
    rcases List.mem_cons.1 hx with e | e
    · rw [e]; exact h01
    · exact le_trans h01 (ih r1 h1.2 x e)

theorem clean_inj (a b : List bam1_t) (h : clean a = clean b) : a = b := by
  unfold clean at h
  exact List.map_injective_iff.2 (fun a b hab => by cases hab; rfl) h

theorem pos_prio_lower (h c : heap1_t) (hp : pos_prio h ≤ pos_prio c) (hi : c.i < h.i) :
    h.pos < c.pos := by
  unfold pos_prio at hp
  rcases (Prod.Lex.le_iff _ _).1 hp with h1 | ⟨_, h2⟩
  · exact h1
  · exfalso
    rcases (Prod.Lex.le_iff _ _).1 h2 with h3 | ⟨h3, _⟩
    · exact absurd h3 (by simpa using Nat.le_of_lt hi)
    · simp only at h3
      have h4 : h.i = c.i := h3
      omega

/-- No record that input `c.i` still holds has the key of the root, when `c` is the cursor
of a lower input than the root. -/
theorem lower_input_no_tie (w : Bool) (n : Nat) (T pend : Nat → List bam1_t) (s : merge_state)
    (inv : merge_inv pos_prio (merge_le w false) (fun _ => True) n s)
    (inv3 : merge_inv3 n T pend s)
    (h : heap1_t) (t : List heap1_t) (hs : s.heap = h :: t) (hne : h.pos ≠ HEAP_EMPTY)
    (i : Nat) (hin : i < n) (hi : i < h.i) :
    (pend i).filter (fun r => decide (composite_key r = h.pos)) = [] := by
  obtain ⟨c, hc, hci⟩ := inv3.all_idx i hin
  obtain ⟨k, hk⟩ := List.mem_iff_getElem?.1 hc
  have hroot : s.heap[0]? = some h := by rw [hs]; simp
  have hp := heap_root_le pos_prio s.heap inv.heap_ok h hroot k c hk
  have hlt : h.pos < c.pos := pos_prio_lower h c hp (by rw [hci]; exact hi)
  rw [List.filter_eq_nil_iff]
  intro x hx
  simp only [decide_eq_true_eq]
  rw [← hci] at hx
  by_cases hce : c.pos = HEAP_EMPTY
  · rw [inv3.exh c hc hce x hx]
    exact fun e => hne e.symm
  · obtain ⟨r, hb, hkey, _, _, rs, hfp, hch, _⟩ := inv.cur c hc hce
    obtain ⟨r2, rs2, hb2, hfp2, hpend⟩ := inv3.live c hc hce
    rw [hb] at hb2
    cases hb2
    rw [hfp] at hfp2
    have e := clean_inj _ _ (Option.some.inj hfp2)
    subst e
    rw [hpend] at hx
    have hge : c.pos ≤ composite_key x := by
      rcases List.mem_cons.1 hx with e | e
      · rw [e, hkey]
      · rw [hkey]; exact chain_key_head w rs r hch x e
    omega

theorem merge_step_inv3 (w : Bool) (n : Nat) (T pend : Nat → List bam1_t) (s : merge_state)
    (inv : merge_inv pos_prio (merge_le w false) (fun _ => True) n s)
    (inv3 : merge_inv3 n T pend s)
    (h : heap1_t) (t : List heap1_t) (hs : s.heap = h :: t) (hne : h.pos ≠ HEAP_EMPTY)
    (r : bam1_t) (hb : h.b = bam1_buf.holds r) (rs : List bam1_t)
    (hfp : s.fp[h.i]? = some (clean rs)) (heap1 : List heap1_t)
    (hadj : ks_heapadjust (heap_lt w false) 0 n (s.heap.set 0 (refill h s.idx (clean rs)).1)
      = some heap1) :
    merge_inv3 n T (Function.update pend h.i rs)
      ⟨heap1, s.fp.set h.i (refill h s.idx (clean rs)).2.1,
        (refill h s.idx (clean rs)).2.2, s.out ++ [r]⟩ := by
  have hp := merge_step_perm w false pos_prio (merge_le w false) _ (heap_lt_pos_agrees w)
    n s inv h t hs _ heap1 hadj
  have hh : h ∈ s.heap := by rw [hs]; simp
  obtain ⟨r0, hb0, hk0, _, _, rs0, hfp0, hch0, _⟩ := inv.cur h hh hne
  rw [hb] at hb0
  cases hb0
  rw [hfp] at hfp0
  have e0 := clean_inj _ _ (Option.some.inj hfp0)
  subst e0
  obtain ⟨r2, rs2, hb2, hfp2, hpend⟩ := inv3.live h hh hne
  rw [hb] at hb2
  cases hb2
  rw [hfp] at hfp2
  have e2 := clean_inj _ _ (Option.some.inj hfp2)
  subst e2
  have hnd : (h.i :: t.map fun c => c.i).Nodup := by
    have := inv.nodup; rw [hs] at this; simpa using this
  have hil : h.i < s.fp.length := (List.getElem?_eq_some.1 hfp).1
  have hin : h.i < n := by rw [← inv3.fp_len]; exact hil
  have hmem : ∀ c, c ∈ heap1 ↔ c = (refill h s.idx (clean rs)).1 ∨ c ∈ t := by
    intro c; rw [List.Perm.mem_iff hp, List.mem_cons]
  have hother : ∀ c ∈ t, c ∈ s.heap ∧ c.i ≠ h.i := by
    intro c hc
    refine ⟨by rw [hs]; exact List.mem_cons_of_mem _ hc, ?_⟩
    intro e
    apply (List.nodup_cons.1 hnd).1
    rw [← e]
    exact List.mem_map_of_mem (fun c => c.i) hc
  refine ⟨by simp [inv3.fp_len], ?_, ?_, ?_, ?_, ?_⟩
  · intro j hj
    obtain ⟨c, hc, hcj⟩ := inv3.all_idx j hj
    rw [hs] at hc
    rcases List.mem_cons.1 hc with e | e
    · exact ⟨_, (hmem _).2 (Or.inl rfl), by rw [refill_i, ← e]; exact hcj⟩
    · exact ⟨c, (hmem _).2 (Or.inr e), hcj⟩
  · intro c hc hce
    rcases (hmem c).1 hc with e | e
    · subst e
      cases rs with
      | nil => simp [clean, refill] at hce
      | cons r1 rs1 =>
        refine ⟨r1, rs1, by simp [clean, refill], ?_, ?_⟩
        · simp only [clean, refill, List.map_cons]
          exact List.getElem?_set_self hil
        · rw [refill_i, Function.update_same]
    · obtain ⟨hcs, hci⟩ := hother c e
      obtain ⟨rc, rsc, a1, a2, a3⟩ := inv3.live c hcs hce
      refine ⟨rc, rsc, a1, ?_, ?_⟩
      · simp only
        rw [List.getElem?_set_ne (fun e => hci e.symm)]
        exact a2
      · rw [Function.update_noteq hci]
        exact a3
  · intro c hc hce x hx
    rcases (hmem c).1 hc with e | e
    · subst e
      rw [refill_i, Function.update_same] at hx
      cases rs with
      | nil => simp at hx
      | cons r1 rs1 =>
        have hk1 : composite_key r1 = HEAP_EMPTY := by
          simpa [clean, refill] using hce
        rcases List.mem_cons.1 hx with e | e
        · rw [e]; exact hk1
        · have h1 := chain_key_head w rs1 r1 (List.chain'_cons.1 hch0).2 x e
          have h2 := composite_key_le x
          omega
    · obtain ⟨hcs, hci⟩ := hother c e
      rw [Function.update_noteq hci] at hx
      exact inv3.exh c hcs hce x hx
  · intro x hx
    rcases List.mem_append.1 hx with e | e
    · exact inv3.out_ne x e
    · simp only [List.mem_singleton] at e
      rw [e, ← hk0]
      exact hne
  · intro K hK
    have hst := inv3.stab K hK
    simp only at hst ⊢
    rw [← hst, List.filter_append]
    by_cases hrk : composite_key r = K
    · have hlow : ∀ i ∈ List.range n, i < h.i →
          (pend i).filter (fun r => decide (composite_key r = K)) = [] := by
        intro i hi1 hi2
        have := lower_input_no_tie w n T pend s inv inv3 h t hs hne i (List.mem_range.1 hi1) hi2
        rw [hk0, hrk] at this
        exact this
      rw [flatten_update_filter_eq (fun r => decide (composite_key r = K)) pend h.i r rs hpend
        (by simp [hrk]) (List.range n) (List.pairwise_lt_range n) (List.mem_range.2 hin) hlow]
      simp [hrk]
    · rw [flatten_update_filter_ne (fun r => decide (composite_key r = K)) pend h.i r rs hpend
        (by simp [hrk])]
      simp [hrk]

theorem pos_hle (w : Bool) : ∀ (x y : heap1_t) (r1 r2 : bam1_t), x.b = bam1_buf.holds r1 →
    y.b = bam1_buf.holds r2 → x.pos = composite_key r1 → y.pos = composite_key r2 →
    True → True → pos_prio x ≤ pos_prio y → merge_le w false r1 r2 := by
  intro x y r1 r2 _ _ h1 h2 _ _ hp
  simp only [merge_le, Bool.false_eq_true, if_false]
  rw [← h1, ← h2]
  exact pos_prio_le x y hp

theorem merge_inv3_exit (w : Bool) (n : Nat) (T pend : Nat → List bam1_t) (s : merge_state)
    (inv : merge_inv pos_prio (merge_le w false) (fun _ => True) n s)
    (inv3 : merge_inv3 n T pend s)
    (h : heap1_t) (t : List heap1_t) (hs : s.heap = h :: t) (he : h.pos = HEAP_EMPTY)
    (K : Nat) (hK : K ≠ HEAP_EMPTY) :
    s.out.filter (fun r => decide (composite_key r = K)) = T K := by
  have hroot : s.heap[0]? = some h := by rw [hs]; simp
  have hall : ∀ c ∈ s.heap, c.pos = HEAP_EMPTY := by
    intro c hc
    obtain ⟨k, hk⟩ := List.mem_iff_getElem?.1 hc
    have hp := pos_prio_le h c (heap_root_le pos_prio s.heap inv.heap_ok h hroot k c hk)
    by_contra hcne
    obtain ⟨r, _, hkey, _⟩ := inv.cur c hc hcne
    have := composite_key_le r
    omega
  have hnil : ((List.range n).map pend).flatten.filter
      (fun r => decide (composite_key r = K)) = [] := by
    rw [List.filter_eq_nil_iff]
    intro x hx
    simp only [decide_eq_true_eq]
    obtain ⟨l, hl, hxl⟩ := List.mem_flatten.1 hx
    obtain ⟨i, hi, rfl⟩ := List.mem_map.1 hl
    obtain ⟨c, hc, hci⟩ := inv3.all_idx i (List.mem_range.1 hi)
    rw [← hci] at hxl
    rw [inv3.exh c hc (hall c hc) x hxl]
    exact fun e => hK e.symm
  have := inv3.stab K hK
  rw [hnil, List.append_nil] at this
  exact this

theorem merge_loop_stable (w : Bool) (n : Nat) (T : Nat → List bam1_t) (fuel : Nat) :
    ∀ (s : merge_state) (pend : Nat → List bam1_t),
      merge_inv pos_prio (merge_le w false) (fun _ => True) n s → merge_inv3 n T pend s →
      (merge_loop w false n fuel s).exit = exit_t.returned 0 →
      (∀ K, K ≠ HEAP_EMPTY →
        (merge_loop w false n fuel s).out.filter (fun r => decide (composite_key r = K)) = T K) ∧
      ∀ x ∈ (merge_loop w false n fuel s).out, composite_key x ≠ HEAP_EMPTY := by
  induction fuel with
  | zero => intro s _ _ _ h; simp [merge_loop] at h
  | succ fuel ih =>
    intro s pend inv inv3
    unfold merge_loop
    cases hs : s.heap with
    | nil => simp
    | cons h t =>
      simp only
      by_cases hne : h.pos = HEAP_EMPTY
      · rw [if_pos hne]
        intro _
        exact ⟨fun K hK => merge_inv3_exit w n T pend s inv inv3 h t hs hne K hK, inv3.out_ne⟩
      · rw [if_neg hne]
        obtain ⟨r, hb, hk, _, hlast, rs, hfp, hch, _⟩ := inv.cur h (by rw [hs]; simp) hne
        rw [hb, hfp]
        simp only
        cases hadj : ks_heapadjust (heap_lt w false) 0 n
            ((h :: t).set 0 (refill h s.idx (clean rs)).1) with
        | none => simp
        | some heap1 =>
          simp only
          rw [← hs] at hadj
          exact ih _ _
            (merge_step_inv w false pos_prio (merge_le w false) _ (heap_lt_pos_agrees w)
              (pos_hle w) n s inv h t hs hne r hb rs hfp heap1 hadj)
            (merge_step_inv3 w n T pend s inv inv3 h t hs hne r hb rs hfp heap1 hadj)

theorem prime_spec3 : ∀ (rss : List (List bam1_t)) (i idx : Nat),
    (prime_cursors (rss.map clean) i idx).2.1.length = rss.length ∧
    ∀ c ∈ (prime_cursors (rss.map clean) i idx).1, i ≤ c.i ∧
      (c.pos ≠ HEAP_EMPTY → ∃ r rs, c.b = bam1_buf.holds r ∧
        (prime_cursors (rss.map clean) i idx).2.1[c.i - i]? = some (clean rs) ∧
        rss[c.i - i]? = some (r :: rs)) ∧
      (c.pos = HEAP_EMPTY → rss[c.i - i]? = some [] ∨
        ∃ r rs, rss[c.i - i]? = some (r :: rs) ∧ composite_key r = HEAP_EMPTY) := by
  intro rss
  induction rss with
  | nil => intro i idx; simp [prime_cursors]
  | cons rs0 rest ih =>
    intro i idx
    have shift : ∀ {β : Type} (c : heap1_t) (x0 : β) (xs : List β) (v : β),
        i + 1 ≤ c.i → xs[c.i - (i + 1)]? = some v → (x0 :: xs)[c.i - i]? = some v := by
      intro β c x0 xs v hci hv
      have : c.i - i = (c.i - (i + 1)) + 1 := by omega
      rw [this, List.getElem?_cons_succ]; exact hv
    cases rs0 with
    | nil =>
      obtain ⟨h1, h2⟩ := ih (i + 1) idx
      simp only [List.map_cons, clean, List.map_nil, prime_cursors, List.length_cons,
        List.mem_cons]
      refine ⟨by simpa [clean] using h1, ?_⟩
      rintro c (hc | hc)
      · subst hc
        simp
      · obtain ⟨a1, a2, a3⟩ := h2 c hc
        refine ⟨by omega, ?_, ?_⟩
        · intro hne
          obtain ⟨r, rs, b1, b2, b3⟩ := a2 hne
          exact ⟨r, rs, b1, shift c _ _ _ a1 b2, shift c _ _ _ a1 b3⟩
        · intro he
          rcases a3 he with b | ⟨r, rs, b1, b2⟩
          · exact Or.inl (shift c _ _ _ a1 b)
          · exact Or.inr ⟨r, rs, shift c _ _ _ a1 b1, b2⟩
    | cons r0 rs1 =>
      obtain ⟨h1, h2⟩ := ih (i + 1) ((idx + 1) % 2 ^ 64)
      simp only [List.map_cons, clean, prime_cursors, List.length_cons, List.mem_cons]
      refine ⟨by simpa [clean] using h1, ?_⟩
      rintro c (hc | hc)
      · subst hc
        refine ⟨le_refl _, ?_, ?_⟩
        · intro _
          exact ⟨r0, rs1, rfl, by simp [clean], by simp⟩
        · intro he
          exact Or.inr ⟨r0, rs1, by simp, he⟩
      · obtain ⟨a1, a2, a3⟩ := h2 c hc
        refine ⟨by omega, ?_, ?_⟩
        · intro hne
          obtain ⟨r, rs, b1, b2, b3⟩ := a2 hne
          exact ⟨r, rs, b1, shift c _ _ _ a1 b2, shift c _ _ _ a1 b3⟩
        · intro he
          rcases a3 he with b | ⟨r, rs, b1, b2⟩
          · exact Or.inl (shift c _ _ _ a1 b)
          · exact Or.inr ⟨r, rs, shift c _ _ _ a1 b1, b2⟩

theorem range_map_getD {α : Type} (l : List (List α)) :
    (List.range l.length).map (fun i => l.getD i []) = l := by
  apply List.ext_getElem
  · simp
  · intro k h1 h2
    simp [List.getD, List.getElem?_eq_getElem h2]

theorem merge_stable_of_returned (w : Bool) (rss : List (List bam1_t))
    (hs : ∀ rs ∈ rss, rs.Chain' (merge_le w false))
    (hret : (bam_merge_core_ext w false (rss.map clean)).exit = exit_t.returned 0) :
    (∀ K, K ≠ HEAP_EMPTY →
      (bam_merge_core_ext w false (rss.map clean)).out.filter
          (fun r => decide (composite_key r = K))
        = (rss.map fun rs => rs.filter fun r => decide (composite_key r = K)).flatten) ∧
    ∀ x ∈ (bam_merge_core_ext w false (rss.map clean)).out, composite_key x ≠ HEAP_EMPTY := by
  unfold bam_merge_core_ext at hret ⊢
  cases hm : ks_heapmake (heap_lt w false) (rss.map clean).length
      (prime_cursors (rss.map clean) 0 0).1 with
  | none => rw [hm] at hret; simp at hret
  | some heap =>
    rw [hm] at hret
    simp only at hret ⊢
    obtain ⟨hp, inv⟩ := merge_init_inv w false pos_prio (merge_le w false) (fun _ => True)
      (heap_lt_pos_agrees w) rss hs (fun _ _ _ _ => trivial) heap hm
    obtain ⟨p1, p2⟩ := prime_spec3 rss 0 0
    have hh := prime_spec (fun _ _ => True) (fun _ => True) rss 0 0
      (fun rs _ => chain_true rs) (fun _ _ _ _ => trivial)
    have hn : (rss.map clean).length = rss.length := List.length_map _ _
    have inv3 : merge_inv3 (rss.map clean).length
        (fun K => (rss.map fun rs => rs.filter fun r => decide (composite_key r = K)).flatten)
        (fun i => rss.getD i [])
        ⟨heap, (prime_cursors (rss.map clean) 0 0).2.1,
          (prime_cursors (rss.map clean) 0 0).2.2, []⟩ := by
      refine ⟨by rw [p1, hn], ?_, ?_, ?_, by simp, ?_⟩
      · intro j hj
        have : j ∈ (heap.map fun c => c.i) := by
          rw [List.Perm.mem_iff (hp.map _), hh.2.1]
          simp only [List.length_map] at hj
          simp [List.mem_range', hj]
        obtain ⟨c, hc, hcj⟩ := List.mem_map.1 this
        exact ⟨c, hc, hcj⟩
      · intro c hc hne
        obtain ⟨_, a2, _⟩ := p2 c ((List.Perm.mem_iff hp).1 hc)
        obtain ⟨r, rs, b1, b2, b3⟩ := a2 hne
        simp only [Nat.sub_zero] at b2 b3
        exact ⟨r, rs, b1, b2, by simp [List.getD, b3]⟩
      · intro c hc he x hx
        obtain ⟨_, _, a3⟩ := p2 c ((List.Perm.mem_iff hp).1 hc)
        simp only [Nat.sub_zero] at a3
        rcases a3 he with b | ⟨r, rs, b1, b2⟩
        · simp [List.getD, b] at hx
        · have hx2 : x ∈ r :: rs := by simpa [List.getD, b1] using hx
          rcases List.mem_cons.1 hx2 with e | e
          · rw [e]; exact b2
          · have hmem : (r :: rs) ∈ rss := List.mem_iff_getElem?.2 ⟨_, b1⟩
            have h1 := chain_key_head w rs r (hs _ hmem) x e
            have h2 := composite_key_le x
            omega
      · intro K _
        simp only [List.filter_nil, List.nil_append]
        rw [hn, range_map_getD, List.filter_flatten]
    exact merge_loop_stable w _ _ _ _ _ inv inv3 hret

theorem pair_sublist_flatten {α : Type} (p : α → Bool) (pre mid post : List (List α))
    (ri rj : List α) (a b : α) (ha : a ∈ ri) (hb : b ∈ rj) (pa : p a = true) (pb : p b = true) :
    List.Sublist [a, b]
      ((pre ++ ri :: (mid ++ rj :: post)).map fun rs => rs.filter p).flatten := by
  have h1 : List.Sublist [a] (ri.filter p) := List.singleton_sublist.2 (List.mem_filter.2 ⟨ha, pa⟩)
  have h2 : List.Sublist [b] (rj.filter p) := List.singleton_sublist.2 (List.mem_filter.2 ⟨hb, pb⟩)
  simp only [List.map_append, List.map_cons, List.flatten_append, List.flatten_cons]
  apply List.sublist_append_of_sublist_right
  have h3 : [a, b] = [a] ++ [b] := rfl
  rw [h3]
  apply List.Sublist.append h1
  apply List.sublist_append_of_sublist_right
  exact List.sublist_append_of_sublist_left h2

theorem pair_sublist_filter {α : Type} (p : α → Bool) (l1 l2 l3 : List α) (a b : α)
    (pa : p a = true) (pb : p b = true) :
    List.Sublist [a, b] ((l1 ++ a :: (l2 ++ b :: l3)).filter p) := by
  simp only [List.filter_append, List.filter_cons_of_pos pa, List.filter_cons_of_pos pb]
  apply List.sublist_append_of_sublist_right
  apply List.Sublist.cons₂
  apply List.sublist_append_of_sublist_right
  apply List.Sublist.cons₂
  exact List.nil_sublist _

/-- C21: in positional mode, for inputs that are each non-decreasing in composite key (read
without region and without truncation), the emitted records with a given composite key are
the records with that key of input 0 in their input order, then those of input 1, and so
on: of two emitted records with the same key the one from the lower input comes first,
and two records of the same input keep their input order. (No emitted record has the
key `HEAP_EMPTY`, which ends the loop.) -/
theorem merge_positional_stable (ignore_warts : Bool) (inputs : List (List bam1_t))
    (hs : ∀ rs ∈ inputs, rs.Chain' (merge_le ignore_warts false)) :
    (∀ K, K ≠ HEAP_EMPTY →
      (bam_merge_core_ext ignore_warts false (inputs.map clean)).out.filter
          (fun r => decide (composite_key r = K))
        = (inputs.map fun rs => rs.filter fun r => decide (composite_key r = K)).flatten) ∧
    (∀ x ∈ (bam_merge_core_ext ignore_warts false (inputs.map clean)).out,
      composite_key x ≠ HEAP_EMPTY) ∧
    (∀ (pre mid post : List (List bam1_t)) (ri rj : List bam1_t) (a b : bam1_t),
      inputs = pre ++ ri :: (mid ++ rj :: post) → a ∈ ri → b ∈ rj →
      composite_key a = composite_key b → composite_key a ≠ HEAP_EMPTY →
      List.Sublist [a, b] (bam_merge_core_ext ignore_warts false (inputs.map clean)).out) ∧
    (∀ (ri l1 l2 l3 : List bam1_t) (a b : bam1_t), ri ∈ inputs →
      ri = l1 ++ a :: (l2 ++ b :: l3) →
      composite_key a = composite_key b → composite_key a ≠ HEAP_EMPTY →
      List.Sublist [a, b] (bam_merge_core_ext ignore_warts false (inputs.map clean)).out) := by
  have hmain : (∀ K, K ≠ HEAP_EMPTY →
      (bam_merge_core_ext ignore_warts false (inputs.map clean)).out.filter
          (fun r => decide (composite_key r = K))
        = (inputs.map fun rs => rs.filter fun r => decide (composite_key r = K)).flatten) ∧
      (∀ x ∈ (bam_merge_core_ext ignore_warts false (inputs.map clean)).out,
        composite_key x ≠ HEAP_EMPTY) := by
    by_cases hne : inputs = []
    · subst hne
      have hout : (bam_merge_core_ext ignore_warts false
          (([] : List (List bam1_t)).map clean)).out = [] := by
        cases ignore_warts <;> rfl
      rw [hout]
      exact ⟨fun K _ => rfl, fun x hx => by simp at hx⟩
    · exact merge_stable_of_returned ignore_warts inputs hs
        (merge_returns ignore_warts false inputs hne (fun h => by cases h))
  refine ⟨hmain.1, hmain.2, ?_, ?_⟩
  · intro pre mid post ri rj a b hin ha hb hab hae
    have hf := hmain.1 (composite_key a) hae
    have hsub := pair_sublist_flatten (fun r => decide (composite_key r = composite_key a))
      pre mid post ri rj a b ha hb (by simp) (by simp [hab])
    rw [← hin, ← hf] at hsub
    exact hsub.trans (List.filter_sublist _)
  · intro ri l1 l2 l3 a b hri hsplit hab hae
    have hf := hmain.1 (composite_key a) hae
    have h1 := pair_sublist_filter (fun r => decide (composite_key r = composite_key a))
      l1 l2 l3 a b (by simp) (by simp [hab])
    rw [← hsplit] at h1
    have h2 : List.Sublist (ri.filter (fun r => decide (composite_key r = composite_key a)))
        (inputs.map fun rs =>
          rs.filter fun r => decide (composite_key r = composite_key a)).flatten :=
      List.sublist_flatten_of_mem (List.mem_map.2 ⟨ri, hri, rfl⟩)
    rw [← hf] at h2
    exact (h1.trans h2).trans (List.filter_sublist _)

theorem merge_positional_stable_witness :
    (bam_merge_core_ext false false
        ([[rec_of 0 5 0 "a", rec_of 0 7 0 "b"],
          [rec_of 0 5 0 "c", rec_of 0 5 0 "d", rec_of 0 7 0 "e"], [],
          [rec_of 0 3 0 "f", rec_of 0 5 0 "g"]].map clean)).out.filter
        (fun r => decide (composite_key r = 12))
      = [rec_of 0 5 0 "a", rec_of 0 5 0 "c", rec_of 0 5 0 "d", rec_of 0 5 0 "g"] :=
  ((merge_positional_stable false
      [[rec_of 0 5 0 "a", rec_of 0 7 0 "b"],
        [rec_of 0 5 0 "c", rec_of 0 5 0 "d", rec_of 0 7 0 "e"], [],
        [rec_of 0 3 0 "f", rec_of 0 5 0 "g"]]
      (by
        simp only [List.mem_cons, List.mem_singleton, List.not_mem_nil, or_false,
          forall_eq_or_imp, forall_eq, List.chain'_cons, List.chain'_singleton,
          List.chain'_nil, and_true]
        decide)).1 12 (by decide)).trans (by decide)

/-! ## `ks_mergesort` is stable, and a sorted sequence is fixed by its records of each key -/

section stable
variable {α κ : Type} [LinearOrder κ]

theorem ks_merge_filter (lt : α → α → Bool) (key : α → κ) (hk : lt_by_key lt key)
    (p : α → Bool) (hp : ∀ a b, p a = true → p b = true → key a = key b) :
    ∀ (fuel : Nat) (xs ys : List α), xs.Pairwise (fun x y => (!lt y x) = true) →
      (ks_merge lt fuel xs ys).filter p = xs.filter p ++ ys.filter p := by
  intro fuel
  induction fuel with
  | zero => intro xs ys _; simp [ks_merge]
  | succ fuel ih =>
    intro xs ys hs
    cases xs with
    | nil => simp [ks_merge]
    | cons x xs =>
      cases ys with
      | nil => simp [ks_merge]
      | cons y ys =>
        simp only [ks_merge]
        by_cases hlt : lt y x = true
        · rw [if_pos hlt, List.filter_cons, ih (x :: xs) ys hs]
          by_cases hpy : p y = true
          · have hnil : (x :: xs).filter p = [] := by
              rw [List.filter_eq_nil_iff]
              intro z hz hpz
              have hyz : key y = key z := hp y z hpy hpz
              have hyx : key y < key x := (hk y x).1 hlt
              have hxz : key x ≤ key z := by
                rcases List.mem_cons.1 hz with e | e
                · rw [e]
                · exact (not_lt_iff_key lt key hk x z).1 ((List.pairwise_cons.1 hs).1 z e)
              exact absurd (lt_of_lt_of_le hyx hxz) (by rw [hyz]; exact lt_irrefl _)
            rw [if_pos hpy, hnil, List.filter_cons_of_pos hpy]
            simp
          · rw [if_neg hpy, List.filter_cons_of_neg hpy]
        · rw [if_neg hlt, List.filter_cons, ih xs (y :: ys) (List.pairwise_cons.1 hs).2]
          by_cases hpx : p x = true
          · rw [if_pos hpx, List.filter_cons_of_pos hpx]
            rfl
          · rw [if_neg hpx, List.filter_cons_of_neg hpx]

theorem merge_pass_filter (lt : α → α → Bool) (key : α → κ) (hk : lt_by_key lt key)
    (p : α → Bool) (hp : ∀ a b, p a = true → p b = true → key a = key b) :
    ∀ runs : List (List α), (∀ r ∈ runs, r.Pairwise (fun x y => (!lt y x) = true)) →
      (ks_merge_pass lt runs).flatten.filter p = runs.flatten.filter p
  | [], _ => by simp [ks_merge_pass]
  | [a], _ => by simp [ks_merge_pass]
  | a :: b :: rest, h => by
    simp only [ks_merge_pass, List.flatten_cons, List.filter_append]
    rw [ks_merge_filter lt key hk p hp _ a b (h a (by simp)),
      merge_pass_filter lt key hk p hp rest (fun r hr => h r (by simp [hr])),
      List.append_assoc]

theorem merge_passes_filter (lt : α → α → Bool) (key : α → κ) (hk : lt_by_key lt key)
    (p : α → Bool) (hp : ∀ a b, p a = true → p b = true → key a = key b) (fuel : Nat) :
    ∀ runs : List (List α), (∀ r ∈ runs, r.Pairwise (fun x y => (!lt y x) = true)) →
      (ks_merge_passes lt fuel runs).flatten.filter p = runs.flatten.filter p := by
  induction fuel with
  | zero => intro runs _; rfl
  | succ fuel ih =>
    intro runs h
    unfold ks_merge_passes
    by_cases hl : runs.length ≤ 1
    · rw [if_pos hl]
    · rw [if_neg hl, ih _ (merge_pass_sorted lt key hk runs h),
        merge_pass_filter lt key hk p hp runs h]

/-- The sort `ks_mergesort` is stable: the records picked by a test that holds for one key
only keep their order. -/
theorem ks_mergesort_stable (lt : α → α → Bool) (key : α → κ) (hk : lt_by_key lt key)
    (p : α → Bool) (hp : ∀ a b, p a = true → p b = true → key a = key b) (l : List α) :
    (ks_mergesort lt l).filter p = l.filter p := by
  unfold ks_mergesort
  rw [merge_passes_filter lt key hk p hp _ _ (by
    intro r hr
    obtain ⟨x, _, rfl⟩ := List.mem_map.1 hr
    exact List.pairwise_singleton _ _), flatten_singletons]

/-- Two sequences that are non-decreasing in `key` and have the same records of each key,
in the same order, are equal. -/
theorem sorted_filter_unique (key : α → κ) : ∀ (l1 l2 : List α),
    l1.Pairwise (fun a b => key a ≤ key b) → l2.Pairwise (fun a b => key a ≤ key b) →
    (∀ k, l1.filter (fun x => decide (key x = k)) = l2.filter (fun x => decide (key x = k))) →
    l1 = l2 := by
  intro l1
  induction l1 with
  | nil =>
    intro l2 _ _ h
    cases l2 with
    | nil => rfl
    | cons b t2 =>
      have := h (key b)
      simp at this
  | cons a t1 ih =>
    intro l2 s1 s2 h
    cases l2 with
    | nil =>
      have := h (key a)
      simp at this
    | cons b t2 =>
      have hmin : ∀ (x : α) (t : List α) (y : α), (x :: t).Pairwise (fun a b => key a ≤ key b) →
          y ∈ x :: t → key x ≤ key y := by
        intro x t y hs hy
        rcases List.mem_cons.1 hy with e | e
        · rw [e]
        · exact (List.pairwise_cons.1 hs).1 y e
      have hab : key a ≤ key b := by
        have hb : b ∈ (a :: t1).filter (fun x => decide (key x = key b)) := by
          rw [h (key b)]; simp
        obtain ⟨hb1, _⟩ := List.mem_filter.1 hb
        exact hmin a t1 b s1 hb1
      have hba : key b ≤ key a := by
        have ha : a ∈ (b :: t2).filter (fun x => decide (key x = key a)) := by
          rw [← h (key a)]; simp
        obtain ⟨ha1, _⟩ := List.mem_filter.1 ha
        exact hmin b t2 a s2 ha1
      have hkey : key b = key a := le_antisymm hba hab
      have h0 := h (key a)
      rw [List.filter_cons_of_pos (by simp), List.filter_cons_of_pos (by simp [hkey])] at h0
      obtain ⟨e1, e2⟩ := List.cons.inj h0
      subst e1
      congr 1
      apply ih t2 (List.pairwise_cons.1 s1).2 (List.pairwise_cons.1 s2).2
      intro k
      by_cases hk : key a = k
      · rw [← hk]; exact e2
      · have := h k
        rwa [List.filter_cons_of_neg (by simp [hk]), List.filter_cons_of_neg (by simp [hk])]
          at this

end stable

/-! ## The positional sort keeps the input order of records with the same composite key -/

theorem key_test_one_key (K : Nat) (a b : bam1_t)
    (ha : decide (composite_key a = K ∧ in_range a) = true)
    (hb : decide (composite_key b = K ∧ in_range b) = true) : sort_key a = sort_key b := by
  simp only [decide_eq_true_eq] at ha hb
  obtain ⟨ka, ra⟩ := ha
  obtain ⟨kb, rb⟩ := hb
  have e : composite_key a = composite_key b := by rw [ka, kb]
  rw [composite_key_eq a ra, composite_key_eq b rb] at e
  rw [sort_key_eq a ra, sort_key_eq b rb]
  obtain ⟨a1, a2, a3, a4⟩ := ra
  obtain ⟨b1, b2, b3, b4⟩ := rb
  have := (tid_word _ a1 a2).2
  have := (tid_word _ b1 b2).2
  have := strand_lt_two a
  have := strand_lt_two b
  omega

theorem tie_same_composite (a b : bam1_t) (ra : in_range a) (rb : in_range b)
    (hk : sort_key a = sort_key b) (hst : bam1_strand a = bam1_strand b) :
    composite_key a = composite_key b := by
  rw [sort_key_eq a ra, sort_key_eq b rb] at hk
  rw [composite_key_eq a ra, composite_key_eq b rb, hst]
  obtain ⟨a1, a2, a3, a4⟩ := ra
  obtain ⟨b1, b2, b3, b4⟩ := rb
  have := (tid_word _ a1 a2).2
  have := (tid_word _ b1 b2).2
  omega

theorem sort_le_composite (a b : bam1_t) (ra : in_range a) (rb : in_range b)
    (hst : sort_key a = sort_key b → bam1_strand a = bam1_strand b)
    (h : sort_key a ≤ sort_key b) : composite_key a ≤ composite_key b := by
  rcases Nat.lt_or_eq_of_le h with h1 | h1
  · exact le_of_lt (sort_key_lt_composite a b ⟨ra.2.2.1, ra.2.2.2⟩ ⟨rb.2.2.1, rb.2.2.2⟩ h1)
  · exact le_of_eq (tie_same_composite a b ra rb h1 (hst h1))

theorem mergesort_pos_stable (w : Bool) (K : Nat) (c : List bam1_t)
    (hr : ∀ x ∈ c, in_range x) :
    (ks_mergesort (bam1_lt w false) c).filter (fun r => decide (composite_key r = K))
      = c.filter (fun r => decide (composite_key r = K)) := by
  have hperm := ks_mergesort_perm (bam1_lt w false) sort_key (bam1_lt_pos_key w) c
  have e1 : (ks_mergesort (bam1_lt w false) c).filter (fun r => decide (composite_key r = K))
      = (ks_mergesort (bam1_lt w false) c).filter
          (fun r => decide (composite_key r = K ∧ in_range r)) := by
    apply List.filter_congr
    intro x hx
    have := hr x ((List.Perm.mem_iff hperm).1 hx)
    simp [this]
  have e2 : c.filter (fun r => decide (composite_key r = K))
      = c.filter (fun r => decide (composite_key r = K ∧ in_range r)) := by
    apply List.filter_congr
    intro x hx
    have := hr x hx
    simp [this]
  rw [e1, e2]
  exact ks_mergesort_stable (bam1_lt w false) sort_key (bam1_lt_pos_key w) _
    (key_test_one_key K) c

theorem sort_pos_stable (w : Bool) (m : Nat) (input : List (bam1_t × Nat))
    (hr : ∀ x ∈ input, in_range x.1) (hs : ∀ x ∈ input, composite_key x.1 ≠ HEAP_EMPTY)
    (H : ∀ a ∈ input, ∀ b ∈ input, sort_key a.1 = sort_key b.1 →
      bam1_strand a.1 = bam1_strand b.1)
    (he : (bam_sort_core_ext w false m input).exit = exit_t.returned 0) :
    (bam_sort_core_ext w false m input).out.Pairwise
        (fun a b => composite_key a ≤ composite_key b) ∧
      ∀ K, (bam_sort_core_ext w false m input).out.filter
          (fun r => decide (composite_key r = K))
        = (input.map Prod.fst).filter (fun r => decide (composite_key r = K)) := by
  have hrL : ∀ a ∈ input.map Prod.fst, in_range a := by
    intro a ha
    obtain ⟨x, hx, rfl⟩ := List.mem_map.1 ha
    exact hr x hx
  have hsL : ∀ a ∈ input.map Prod.fst, composite_key a ≠ HEAP_EMPTY := by
    intro a ha
    obtain ⟨x, hx, rfl⟩ := List.mem_map.1 ha
    exact hs x hx
  have HL : ∀ a ∈ input.map Prod.fst, ∀ b ∈ input.map Prod.fst,
      sort_key a = sort_key b → bam1_strand a = bam1_strand b := by
    intro a ha b hb
    obtain ⟨x, hx, rfl⟩ := List.mem_map.1 ha
    obtain ⟨y, hy, rfl⟩ := List.mem_map.1 hb
    exact H x hx y hy
  constructor
  · have hp := sort_perm w false m input hs he
    have hso := sort_sorted w false m input (fun _ => hr)
    refine hso.imp_of_mem ?_
    intro a b ha hb h
    have ha1 := (List.Perm.mem_iff hp).1 ha
    have hb1 := (List.Perm.mem_iff hp).1 hb
    exact sort_le_composite a b (hrL a ha1) (hrL b hb1) (HL a ha1 b hb1)
      ((bam1_le_iff_key w false sort_key (bam1_lt_pos_key w) a b).1 h)
  · intro K
    unfold bam_sort_core_ext at he ⊢
    cases hrl : run_loop (bam1_lt w false) m input 0 [] [] with
    | none => rw [hrl] at he; simp at he
    | some res =>
      obtain ⟨runs, buf⟩ := res
      rw [hrl] at he
      simp only at he ⊢
      obtain ⟨chunks, c1, c2⟩ := run_loop_spec _ _ _ _ _ _ _ hrl
      simp only [List.nil_append] at c1 c2
      have hchunk : ∀ c ∈ chunks, ∀ x ∈ c, x ∈ input.map Prod.fst := by
        intro c hc x hx
        rw [← c2]
        exact List.mem_append_left _ (List.mem_flatten.2 ⟨c, hc, hx⟩)
      have hbuf : ∀ x ∈ buf, x ∈ input.map Prod.fst := by
        intro x hx
        rw [← c2]
        exact List.mem_append_right _ hx
      split
      · rename_i hnil
        rw [hnil] at c1
        have : chunks = [] := by
          cases chunks with
          | nil => rfl
          | cons a l => simp at c1
        rw [this] at c2
        simp only [List.flatten_nil, List.nil_append] at c2
        rw [← c2]
        exact mergesort_pos_stable w K buf (fun x hx => hrL x (hbuf x hx))
      · rename_i hne
        rw [if_neg hne] at he
        have hsorted : ∀ c, (∀ x ∈ c, x ∈ input.map Prod.fst) →
            (ks_mergesort (bam1_lt w false) c).Chain' (merge_le w false) := by
          intro c hc
          have hperm := ks_mergesort_perm (bam1_lt w false) sort_key (bam1_lt_pos_key w) c
          refine ((mergesort_bam1_le w false sort_key (bam1_lt_pos_key w) c).imp_of_mem
            ?_).chain'
          intro a b ha hb h
          have ha1 := hc a ((List.Perm.mem_iff hperm).1 ha)
          have hb1 := hc b ((List.Perm.mem_iff hperm).1 hb)
          simp only [merge_le, Bool.false_eq_true, if_false]
          exact sort_le_composite a b (hrL a ha1) (hrL b hb1) (HL a ha1 b hb1)
            ((bam1_le_iff_key w false sort_key (bam1_lt_pos_key w) a b).1 h)
        have hall : ∀ rs ∈ runs ++ [ks_mergesort (bam1_lt w false) buf],
            rs.Chain' (merge_le w false) := by
          intro rs hrs
          rw [c1] at hrs
          simp only [List.mem_append, List.mem_map, List.mem_singleton] at hrs
          rcases hrs with ⟨c, hc, rfl⟩ | rfl
          · exact hsorted c (hchunk c hc)
          · exact hsorted buf hbuf
        obtain ⟨st1, st2⟩ := merge_stable_of_returned w _ hall he
        by_cases hK : K = HEAP_EMPTY
        · have l1 : (bam_merge_core_ext w false
              ((runs ++ [ks_mergesort (bam1_lt w false) buf]).map clean)).out.filter
              (fun r => decide (composite_key r = K)) = [] := by
            rw [List.filter_eq_nil_iff]
            intro x hx
            simp only [decide_eq_true_eq]
            rw [hK]
            exact st2 x hx
          have l2 : (input.map Prod.fst).filter (fun r => decide (composite_key r = K)) = [] := by
            rw [List.filter_eq_nil_iff]
            intro x hx
            simp only [decide_eq_true_eq]
            rw [hK]
            exact hsL x hx
          rw [l1, l2]
        · rw [st1 K hK, c1, ← c2]
          simp only [List.map_append, List.map_map, List.map_cons, List.map_nil,
            List.flatten_append, List.flatten_cons, List.flatten_nil, List.append_nil,
            List.filter_append]
          rw [mergesort_pos_stable w K buf (fun x hx => hrL x (hbuf x hx))]
          congr 1
          rw [List.filter_flatten]
          congr 1
          apply List.map_congr_left
          intro c hc
          exact mergesort_pos_stable w K c (fun x hx => hrL x (hchunk c hc x hx))

/-! ## C4: the external sort against the in-memory sort -/

theorem ties_same_strand (w : Bool) (L : List bam1_t)
    (hties : L.Pairwise (fun a b => bam1_lt w false a b = true ∨ bam1_lt w false b a = true ∨
      ((false : Bool) = false ∧ bam1_strand a = bam1_strand b))) :
    ∀ a ∈ L, ∀ b ∈ L, sort_key a = sort_key b → bam1_strand a = bam1_strand b := by
  have hp : L.Pairwise (fun a b => sort_key a = sort_key b → bam1_strand a = bam1_strand b) := by
    refine hties.imp ?_
    intro a b h e
    rcases h with h | h | ⟨_, h⟩
    · have := (bam1_lt_pos_key w a b).1 h
      omega
    · have := (bam1_lt_pos_key w b a).1 h
      omega
    · exact h
  have hsym : Symmetric
      (fun a b : bam1_t => sort_key a = sort_key b → bam1_strand a = bam1_strand b) := by
    intro x y h e
    exact (h e.symm).symm
  intro a ha b hb
  exact List.Pairwise.forall_of_forall hsym (fun _ _ _ => rfl) hp ha hb

theorem ties_none (w : Bool) (L : List bam1_t)
    (hties : L.Pairwise (fun a b => bam1_lt w true a b = true ∨ bam1_lt w true b a = true ∨
      ((true : Bool) = false ∧ bam1_strand a = bam1_strand b))) :
    L.Pairwise (fun a b => bam1_lt w true a b = true ∨ bam1_lt w true b a = true) := by
  refine hties.imp ?_
  intro a b h
  rcases h with h | h | ⟨h, _⟩
  · exact Or.inl h
  · exact Or.inr h
  · cases h

/-- C4, as stated, fails, in three ways. In positional mode, two records at the same
`(tid, pos)` on different strands come out in input order from the in-memory sort and in
strand order from the merge of two runs; so do, in the other order, a record at position 5
and one at position `2^31 - 1`, where the two positional keys wrap differently. In
query-name mode, two records that tie under `bam1_lt` come out in input order from the
in-memory sort and swapped from the merge of two runs. -/
theorem sort_external_counterexample :
    (bam_sort_core_ext false false 64 [(rec_of 0 5 16 "a", 64), (rec_of 0 5 0 "b", 64)]
      = ⟨[rec_of 0 5 0 "b", rec_of 0 5 16 "a"], exit_t.returned 0⟩) ∧
    (bam_sort_core_ext false false 1000 [(rec_of 0 5 16 "a", 64), (rec_of 0 5 0 "b", 64)]
      = ⟨[rec_of 0 5 16 "a", rec_of 0 5 0 "b"], exit_t.returned 0⟩) ∧
    (bam_sort_core_ext false false 64
        [(rec_of 0 5 0 "a", 64), (rec_of 0 (2 ^ 31 - 1) 0 "b", 64)]
      = ⟨[rec_of 0 (2 ^ 31 - 1) 0 "b", rec_of 0 5 0 "a"], exit_t.returned 0⟩) ∧
    (bam_sort_core_ext false false 1000
        [(rec_of 0 5 0 "a", 64), (rec_of 0 (2 ^ 31 - 1) 0 "b", 64)]
      = ⟨[rec_of 0 5 0 "a", rec_of 0 (2 ^ 31 - 1) 0 "b"], exit_t.returned 0⟩) ∧
    (bam_sort_core_ext false true 64 [(rec_of 0 1 0 "r", 64), (rec_of 0 2 0 "r", 40)]
      = ⟨[rec_of 0 2 0 "r", rec_of 0 1 0 "r"], exit_t.returned 0⟩) ∧
    (bam_sort_core_ext false true 1000 [(rec_of 0 1 0 "r", 64), (rec_of 0 2 0 "r", 40)]
      = ⟨[rec_of 0 1 0 "r", rec_of 0 2 0 "r"], exit_t.returned 0⟩) := by
  refine ⟨?_, ?_, ?_, ?_, ?_, ?_⟩ <;> decide

/-- C4, amended: for every input in which no record has the key `HEAP_EMPTY` and any two
records either are ordered by `bam1_lt` or, in positional mode only, are on the same strand
(with, in positional mode, `tid >= -1` and `-1 <= pos <= 2^31 - 2`), any two memory budgets
under which the sort runs to its end, whether it sorts in memory or writes several runs
and merges them, give the same record sequence. -/
theorem sort_external_eq_in_memory (ignore_warts by_qname : Bool) (max_mem1 max_mem2 : Nat)
    (input : List (bam1_t × Nat))
    (hr : by_qname = false → ∀ x ∈ input, in_range x.1)
    (hs : ∀ x ∈ input, composite_key x.1 ≠ HEAP_EMPTY)
    (hties : (input.map Prod.fst).Pairwise
      (fun a b => bam1_lt ignore_warts by_qname a b = true ∨
        bam1_lt ignore_warts by_qname b a = true ∨
        (by_qname = false ∧ bam1_strand a = bam1_strand b)))
    (h1 : (bam_sort_core_ext ignore_warts by_qname max_mem1 input).exit = exit_t.returned 0)
    (h2 : (bam_sort_core_ext ignore_warts by_qname max_mem2 input).exit = exit_t.returned 0) :
    (bam_sort_core_ext ignore_warts by_qname max_mem1 input).out
      = (bam_sort_core_ext ignore_warts by_qname max_mem2 input).out := by
  cases by_qname with
  | true =>
    exact sorted_perm_unique_modes ignore_warts true (input.map Prod.fst) _ _
      (ties_none ignore_warts _ hties)
      (sort_perm ignore_warts true max_mem1 input hs h1)
      (sort_perm ignore_warts true max_mem2 input hs h2)
      (sort_sorted ignore_warts true max_mem1 input hr)
      (sort_sorted ignore_warts true max_mem2 input hr)
  | false =>
    have HL := ties_same_strand ignore_warts _ hties
    have H : ∀ a ∈ input, ∀ b ∈ input, sort_key a.1 = sort_key b.1 →
        bam1_strand a.1 = bam1_strand b.1 :=
      fun a ha b hb => HL a.1 (List.mem_map_of_mem _ ha) b.1 (List.mem_map_of_mem _ hb)
    obtain ⟨s1, f1⟩ := sort_pos_stable ignore_warts max_mem1 input (hr rfl) hs H h1
    obtain ⟨s2, f2⟩ := sort_pos_stable ignore_warts max_mem2 input (hr rfl) hs H h2
    exact sorted_filter_unique composite_key _ _ s1 s2 (fun k => (f1 k).trans (f2 k).symm)

theorem sort_external_eq_in_memory_witness :
    (bam_sort_core_ext false false 128 [(rec_of 0 5 0 "a", 64), (rec_of 0 7 16 "b", 64),
        (rec_of 0 5 0 "c", 64), (rec_of 0 7 16 "d", 64), (rec_of 0 1 16 "f", 64)]).out
      = (bam_sort_core_ext false false 100000 [(rec_of 0 5 0 "a", 64), (rec_of 0 7 16 "b", 64),
        (rec_of 0 5 0 "c", 64), (rec_of 0 7 16 "d", 64), (rec_of 0 1 16 "f", 64)]).out ∧
    (bam_sort_core_ext false true 128 [(rec_of 0 9 0 "r10", 64), (rec_of 0 5 65 "r2", 64),
        (rec_of 1 3 129 "r2", 64), (rec_of 0 1 0 "r1", 64), (rec_of 0 2 0 "r3", 64)]).out
      = (bam_sort_core_ext false true 100000 [(rec_of 0 9 0 "r10", 64), (rec_of 0 5 65 "r2", 64),
        (rec_of 1 3 129 "r2", 64), (rec_of 0 1 0 "r1", 64), (rec_of 0 2 0 "r3", 64)]).out :=
  ⟨sort_external_eq_in_memory false false 128 100000 _ (by decide) (by decide)
    (by simp only [List.map_cons, List.map_nil, List.pairwise_cons, List.mem_cons,
          List.mem_singleton, List.not_mem_nil, forall_eq_or_imp, forall_eq, or_false,
          List.Pairwise.nil, and_true, IsEmpty.forall_iff, implies_true]
        decide)
    (by decide) (by decide),
   sort_external_eq_in_memory false true 128 100000 _ (by decide) (by decide)
    (by simp only [List.map_cons, List.map_nil, List.pairwise_cons, List.mem_cons,
          List.mem_singleton, List.not_mem_nil, forall_eq_or_imp, forall_eq, or_false,
          List.Pairwise.nil, and_true, IsEmpty.forall_iff, implies_true]
        decide)
    (by decide) (by decide)⟩

/-! ## C5: sorting twice -/

/-- C5, as stated, fails, in three ways, each with a budget that cuts the input into several
runs. In positional mode, the sort of four records of which three share `(tid, pos)`, one of
them on the other strand, gives an order that a second sort changes; so does the sort of
three records of which one is at position `2^31 - 1`. In query-name mode, the sort of three
records that tie under `bam1_lt` gives an order that a second sort changes. -/
theorem sort_twice_counterexample :
    (bam_sort_core_ext false false 128 (billed (fun _ => 64)
      [rec_of 0 5 16 "A", rec_of 0 5 0 "B", rec_of 0 5 0 "C", rec_of 0 7 0 "D"])).out
      = [rec_of 0 5 0 "C", rec_of 0 5 16 "A", rec_of 0 5 0 "B", rec_of 0 7 0 "D"] ∧
    (bam_sort_core_ext false false 128 (billed (fun _ => 64)
      (bam_sort_core_ext false false 128 (billed (fun _ => 64)
        [rec_of 0 5 16 "A", rec_of 0 5 0 "B", rec_of 0 5 0 "C", rec_of 0 7 0 "D"])).out)).out
      = [rec_of 0 5 0 "C", rec_of 0 5 0 "B", rec_of 0 5 16 "A", rec_of 0 7 0 "D"] ∧
    (bam_sort_core_ext false false 128 (billed (fun _ => 64)
      [rec_of 0 (2 ^ 31 - 1) 0 "b", rec_of 0 7 0 "c", rec_of 0 5 0 "a"])).out
      = [rec_of 0 5 0 "a", rec_of 0 7 0 "c", rec_of 0 (2 ^ 31 - 1) 0 "b"] ∧
    (bam_sort_core_ext false false 128 (billed (fun _ => 64)
      (bam_sort_core_ext false false 128 (billed (fun _ => 64)
        [rec_of 0 (2 ^ 31 - 1) 0 "b", rec_of 0 7 0 "c", rec_of 0 5 0 "a"])).out)).out
      = [rec_of 0 (2 ^ 31 - 1) 0 "b", rec_of 0 5 0 "a", rec_of 0 7 0 "c"] ∧
    (bam_sort_core_ext false true 64 (billed (fun r => if r.core.pos = 3 then 40 else 64)
      [rec_of 0 1 0 "r", rec_of 0 2 0 "r", rec_of 0 3 0 "r"])).out
      = [rec_of 0 2 0 "r", rec_of 0 1 0 "r", rec_of 0 3 0 "r"] ∧
    (bam_sort_core_ext false true 64 (billed (fun r => if r.core.pos = 3 then 40 else 64)
      (bam_sort_core_ext false true 64 (billed (fun r => if r.core.pos = 3 then 40 else 64)
        [rec_of 0 1 0 "r", rec_of 0 2 0 "r", rec_of 0 3 0 "r"])).out)).out
      = [rec_of 0 1 0 "r", rec_of 0 2 0 "r", rec_of 0 3 0 "r"] := by
  refine ⟨?_, ?_, ?_, ?_, ?_, ?_⟩ <;> decide

/-- C5, amended: `sort(sort(X)) = sort(X)` as record sequences, with the same budget in both
passes, when the budget keeps the whole input in one run (its bytes and its record count
stay below the budget and the slot count), and also, for budgets that force several runs,
when no record has the key `HEAP_EMPTY`, any two records either are ordered by `bam1_lt`
or, in positional mode only, are on the same strand, in positional mode `tid >= -1` and
`-1 <= pos <= 2^31 - 2`, and both passes run to their end. -/
theorem sort_idempotent (ignore_warts by_qname : Bool) (max_mem : Nat) (bytes : bam1_t → Nat)
    (X : List bam1_t)
    (h : ((X.map bytes).sum < max_mem ∧ X.length < max_mem / BAM_CORE_SIZE) ∨
      ((by_qname = false → ∀ r ∈ X, in_range r) ∧
        (∀ r ∈ X, composite_key r ≠ HEAP_EMPTY) ∧
        X.Pairwise (fun a b => bam1_lt ignore_warts by_qname a b = true ∨
          bam1_lt ignore_warts by_qname b a = true ∨
          (by_qname = false ∧ bam1_strand a = bam1_strand b)) ∧
        (bam_sort_core_ext ignore_warts by_qname max_mem (billed bytes X)).exit
          = exit_t.returned 0 ∧
        (bam_sort_core_ext ignore_warts by_qname max_mem (billed bytes
          (bam_sort_core_ext ignore_warts by_qname max_mem (billed bytes X)).out)).exit
          = exit_t.returned 0)) :
    (bam_sort_core_ext ignore_warts by_qname max_mem (billed bytes
        (bam_sort_core_ext ignore_warts by_qname max_mem (billed bytes X)).out)).out
      = (bam_sort_core_ext ignore_warts by_qname max_mem (billed bytes X)).out := by
  rcases h with ⟨h1, h2⟩ | ⟨hr, hs, hties, e1, e2⟩
  · cases by_qname with
    | false =>
      exact sort_twice_single_run ignore_warts false sort_key (bam1_lt_pos_key _) max_mem bytes X
        h1 h2
    | true =>
      exact sort_twice_single_run ignore_warts true (rec_key ignore_warts)
        (bam1_lt_qname_key _) max_mem bytes X h1 h2
  · have hs1 : ∀ x ∈ billed bytes X, composite_key x.1 ≠ HEAP_EMPTY := by
      intro x hx
      apply hs
      rw [← billed_fst bytes X]
      exact List.mem_map_of_mem _ hx
    have p1 := sort_perm ignore_warts by_qname max_mem (billed bytes X) hs1 e1
    rw [billed_fst] at p1
    have hmem1 : ∀ x ∈ billed bytes X, x.1 ∈ X := by
      intro x hx
      have := List.mem_map_of_mem Prod.fst hx
      rwa [billed_fst] at this
    have hmem : ∀ x ∈ billed bytes
        (bam_sort_core_ext ignore_warts by_qname max_mem (billed bytes X)).out, x.1 ∈ X := by
      intro x hx
      apply (List.Perm.mem_iff p1).1
      have := List.mem_map_of_mem Prod.fst hx
      rwa [billed_fst] at this
    cases by_qname with
    | true =>
      have p2 := sort_perm ignore_warts true max_mem _ (fun x hx => hs _ (hmem x hx)) e2
      rw [billed_fst] at p2
      have s1 := sort_sorted ignore_warts true max_mem (billed bytes X)
        (fun hq => by cases hq)
      have s2 := sort_sorted ignore_warts true max_mem (billed bytes
        (bam_sort_core_ext ignore_warts true max_mem (billed bytes X)).out)
        (fun hq => by cases hq)
      exact sorted_perm_unique_modes ignore_warts true X _ _ (ties_none ignore_warts X hties)
        (p2.trans p1) p1 s2 s1
    | false =>
      have HL := ties_same_strand ignore_warts X hties
      obtain ⟨s1, f1⟩ := sort_pos_stable ignore_warts max_mem (billed bytes X)
        (fun x hx => hr rfl _ (hmem1 x hx)) hs1
        (fun a ha b hb => HL _ (hmem1 a ha) _ (hmem1 b hb)) e1
      obtain ⟨s2, f2⟩ := sort_pos_stable ignore_warts max_mem
        (billed bytes (bam_sort_core_ext ignore_warts false max_mem (billed bytes X)).out)
        (fun x hx => hr rfl _ (hmem x hx)) (fun x hx => hs _ (hmem x hx))
        (fun a ha b hb => HL _ (hmem a ha) _ (hmem b hb)) e2
      refine sorted_filter_unique composite_key _ _ s2 s1 ?_
      intro k
      rw [f2 k, billed_fst]

theorem sort_idempotent_witness :
    (bam_sort_core_ext false false 128 (billed (fun _ => 64)
        (bam_sort_core_ext false false 128 (billed (fun _ => 64)
          [rec_of 0 5 0 "a", rec_of 0 7 16 "b", rec_of 0 5 0 "c", rec_of 0 7 16 "d",
            rec_of 0 1 16 "f"])).out)).out
      = (bam_sort_core_ext false false 128 (billed (fun _ => 64)
          [rec_of 0 5 0 "a", rec_of 0 7 16 "b", rec_of 0 5 0 "c", rec_of 0 7 16 "d",
            rec_of 0 1 16 "f"])).out :=
  sort_idempotent false false 128 (fun _ => 64) _
    (Or.inr ⟨by decide, by decide,
      by simp only [List.pairwise_cons, List.mem_cons, List.mem_singleton, List.not_mem_nil,
            forall_eq_or_imp, forall_eq, or_false, List.Pairwise.nil, and_true,
            IsEmpty.forall_iff, implies_true]
         decide,
      by decide, by decide⟩)

end BamSort
